import Mathlib

/-!
# dockmoor: references, the tag selector, the resolver and the directive processor

A shallow embedding of the reference model (`Parse`, `Format`, `Formatted`,
`WithRequestedFormat`, `WithTag`, `WithDigest`, `ParseAlgoDigest`) and of the tag
selector (`MostPreciseTag`, `FindRelevantTagsForReference`) of `src/dockref/ref.go`,
of `dockerDaemonResolver.Resolve` of `src/dockref/resolver.go` and of
`pinOptions.RefFormat` of `src/cmd/dockmoor/cmd_pin.go`, together with the parts of
the Go standard library and of the libraries they call: `github.com/blang/semver`
(v3.5.x), `github.com/docker/distribution/reference` and
`github.com/opencontainers/go-digest`.

Conventions of the embedding:

* A Go `string` is a Lean `String`, that is a valid UTF-8 text.  `len(s)` is the
  number of bytes of the UTF-8 encoding (`String.utf8ByteSize`); slicing at the
  index of an ASCII separator cuts between two characters; byte-wise comparison
  of two valid UTF-8 texts is comparison by code points, which is the order of
  Lean strings.
* A Go `uint64` is a `Nat` together with the range check of `strconv.ParseUint`;
  a `Format` (`uint`) is a `Nat` below `2 ^ 64`, and `^x` is `2 ^ 64 - 1 - x`.
* A `Reference` interface value is `Option dockref` (`none` is the nil
  interface); a slice of references is a list, the nil slice is `none`.
* A call that returns `(value, error)` returns an `Outcome`, which also records
  a run-time panic (index out of range, nil dereference, `Digest.Hex` on a text
  without separator).  The text of an error of a library is not modelled.
* `semver.ParseTolerant` is the one of blang/semver v3.5.x.  The general theorems
  about the selector use of it only that the empty text and `latest` do not
  parse; the concrete inputs evaluated below have no leading zero in a numeric
  component, where later releases of the library differ.
* The grammar of references is the list of regular expressions of
  `reference/regexp.go`, run by a backtracking matcher with the preferences of
  Go's `regexp` (leftmost-first, greedy).  The general theorems about `Parse` use
  only the code around the expressions (`getBestReferenceType`, the digest
  validation), not what the expressions accept.
* The resolver asks the Docker daemon through its method `imageInspect`; the
  answer of the daemon is a function the resolver holds.
* The package `dockfmt/dockerfile` is known by its tests only.  Its directive
  processor (`ValidateInput`, `Process`) is modelled from the specification; a
  callback that keeps a state between its invocations, as the counting callbacks
  of the tests do, receives and returns that state.
-/

namespace Dockmoor

/-! ## Go standard library: `unicode`, `strings`, `strconv` -/

namespace unicode

/-- Go `unicode.IsSpace`: the Latin-1 cases and the `White_Space` table. -/
def IsSpace (r : Char) : Bool :=
  let n := r.toNat
  if n ≤ 0xFF then
    n = 0x09 || n = 0x0A || n = 0x0B || n = 0x0C || n = 0x0D || n = 0x20 || n = 0x85 || n = 0xA0
  else
    n = 0x1680 || (0x2000 ≤ n && n ≤ 0x200A) || n = 0x2028 || n = 0x2029 || n = 0x202F
      || n = 0x205F || n = 0x3000

end unicode

namespace strings

/-- Cut a text at the first occurrence of the one-byte separator `c`:
`some (s[:i], s[i+1:])` with `i = strings.Index(s, c)`, or `none` when `i < 0`. -/
def cutFirst (c : Char) : List Char → Option (List Char × List Char)
  | [] => none
  | x :: xs =>
    if x = c then some ([], xs)
    else match cutFirst c xs with
      | none => none
      | some (a, b) => some (x :: a, b)

/-- Go `strings.TrimSpace`. -/
def TrimSpace (s : List Char) : List Char :=
  ((s.dropWhile unicode.IsSpace).reverse.dropWhile unicode.IsSpace).reverse

/-- Go `strings.TrimPrefix(s, "v")`. -/
def TrimPrefixV : List Char → List Char
  | 'v' :: rest => rest
  | s => s

/-- Go `strings.SplitN(s, sep, n)` for a one-byte separator and `n ≥ 0`: at most
`n` pieces, the last one being the unsplit remainder. -/
def SplitN (c : Char) : Nat → List Char → List (List Char)
  | 0, _ => []
  | 1, s => [s]
  | n + 2, s =>
    match cutFirst c s with
    | none => [s]
    | some (a, rest) => a :: SplitN c (n + 1) rest

/-- Go `strings.Split(s, sep)` for a one-byte separator. -/
def Split (c : Char) : List Char → List (List Char)
  | [] => [[]]
  | x :: xs =>
    if x = c then [] :: Split c xs
    else match Split c xs with
      | [] => [[x]]
      | h :: t => (x :: h) :: t

/-- Go `strings.Compare(a, b)`: lexicographic comparison, byte by byte, which on
valid UTF-8 texts is the comparison code point by code point. -/
def Compare : List Char → List Char → Int
  | [], [] => 0
  | [], _ :: _ => -1
  | _ :: _, [] => 1
  | x :: xs, y :: ys =>
    if x.toNat < y.toNat then -1
    else if y.toNat < x.toNat then 1
    else Compare xs ys

/-- Go `strings.ContainsAny(s, "+-")`. -/
def ContainsAnyPlusMinus (s : List Char) : Bool :=
  s.any fun r => r = '+' || r = '-'

/-- Go `strings.Join(parts, ".")`. -/
def JoinDot : List (List Char) → List Char
  | [] => []
  | [p] => p
  | p :: q :: rest => p ++ '.' :: JoinDot (q :: rest)

end strings

namespace strconv

/-- Value of a decimal digit. -/
def digitVal (r : Char) : Nat := r.toNat - '0'.toNat

/-- Go `strconv.ParseUint(s, 10, 64)`: fails on the empty text, on a character
that is not a decimal digit and on a value that does not fit 64 bits. -/
def ParseUint (s : List Char) : Option Nat :=
  if s.isEmpty then none
  else if s.all Char.isDigit then
    let n := s.foldl (fun acc r => 10 * acc + digitVal r) 0
    if n < 2 ^ 64 then some n else none
  else none

/-- Go `strconv.FormatUint(n, 10)` / `strconv.AppendUint(b, n, 10)`. -/
def FormatUint (n : Nat) : List Char := Nat.toDigits 10 n

end strconv

/-! ## `github.com/blang/semver` -/

namespace semver

/-- Go `semver.PRVersion`. -/
structure PRVersion where
  VersionStr : String
  VersionNum : Nat
  IsNum : Bool
deriving DecidableEq, Repr

/-- Go `semver.Version`. -/
structure Version where
  Major : Nat
  Minor : Nat
  Patch : Nat
  Pre : List PRVersion
  Build : List String
deriving DecidableEq, Repr

/-- The zero value `semver.Version{}`. -/
def Version.zero : Version := ⟨0, 0, 0, [], []⟩

/-- The constant `numbers`. -/
def isNumber (r : Char) : Bool := "0123456789".data.contains r

/-- The constant `alphanum`. -/
def isAlphanum (r : Char) : Bool :=
  "abcdefghijklmnopqrstuvwxyzABCDEFGHIJKLMNOPQRSTUVWXYZ-0123456789".data.contains r

/-- Go `containsOnly(s, set)`. -/
def containsOnly (s : List Char) (set : Char → Bool) : Bool := s.all set

/-- Go `hasLeadingZeroes`: `len(s) > 1 && s[0] == '0'`.  It is called on texts of
ASCII digits only, where bytes and characters coincide. -/
def hasLeadingZeroes : List Char → Bool
  | '0' :: _ :: _ => true
  | _ => false

/-- One numeric component (major, minor or patch) as `Parse` reads it. -/
def parseNumber (s : List Char) : Option Nat :=
  if !containsOnly s isNumber then none
  else if hasLeadingZeroes s then none
  else strconv.ParseUint s

/-- Go `semver.NewPRVersion`. -/
def NewPRVersion (s : List Char) : Option PRVersion :=
  if s.isEmpty then none
  else if containsOnly s isNumber then
    if hasLeadingZeroes s then none
    else match strconv.ParseUint s with
      | none => none
      | some num => some ⟨"", num, true⟩
  else if containsOnly s isAlphanum then some ⟨String.mk s, 0, false⟩
  else none

/-- The loop of `Parse` over the prerelease identifiers. -/
def parsePre : List (List Char) → Option (List PRVersion)
  | [] => some []
  | s :: rest =>
    match NewPRVersion s with
    | none => none
    | some p =>
      match parsePre rest with
      | none => none
      | some ps => some (p :: ps)

/-- The loop of `Parse` over the build identifiers. -/
def parseBuild : List (List Char) → Option (List String)
  | [] => some []
  | s :: rest =>
    if s.isEmpty then none
    else if !containsOnly s isAlphanum then none
    else match parseBuild rest with
      | none => none
      | some bs => some (String.mk s :: bs)

/-- Go `semver.Parse`. -/
def Parse (s : List Char) : Option Version :=
  if s.isEmpty then none
  else match strings.SplitN '.' 3 s with
    | [p0, p1, p2] =>
      match parseNumber p0 with
      | none => none
      | some major =>
        match parseNumber p1 with
        | none => none
        | some minor =>
          let (build, patchStr1) : List (List Char) × List Char :=
            match strings.cutFirst '+' p2 with
            | some (a, b) => (strings.Split '.' b, a)
            | none => ([], p2)
          let (prerelease, patchStr) : List (List Char) × List Char :=
            match strings.cutFirst '-' patchStr1 with
            | some (a, b) => (strings.Split '.' b, a)
            | none => ([], patchStr1)
          match parseNumber patchStr with
          | none => none
          | some patch =>
            match parsePre prerelease with
            | none => none
            | some pre =>
              match parseBuild build with
              | none => none
              | some bld => some ⟨major, minor, patch, pre, bld⟩
    | _ => none

/-- The padding loop of `ParseTolerant`: `for len(parts) < 3 { parts = append(parts, "0") }`. -/
def padParts (parts : List (List Char)) : List (List Char) :=
  parts ++ List.replicate (3 - parts.length) ['0']

/-- Go `semver.ParseTolerant` (v3.5.x): trims spaces and a leading `v`, completes a
short version with zeroes, then calls `Parse`. -/
def ParseTolerant (s : String) : Option Version :=
  let s1 := strings.TrimPrefixV (strings.TrimSpace s.data)
  let parts := strings.SplitN '.' 3 s1
  if parts.length < 3 then
    if strings.ContainsAnyPlusMinus (parts.getLast?.getD []) then none
    else Parse (strings.JoinDot (padParts parts))
  else Parse s1

/-- Go `PRVersion.String`. -/
def PRVersion.String (v : PRVersion) : List Char :=
  if v.IsNum then strconv.FormatUint v.VersionNum else v.VersionStr.data

/-- Identifiers joined by dots after a leading separator, as `Version.String`
appends them; nothing for an empty list. -/
def joinAfter (sep : Char) : List (List Char) → List Char
  | [] => []
  | p :: rest => sep :: strings.JoinDot (p :: rest)

/-- Go `Version.String`. -/
def Version.String (v : Version) : String :=
  String.mk (strconv.FormatUint v.Major ++ '.' :: strconv.FormatUint v.Minor ++ '.' ::
    strconv.FormatUint v.Patch ++ joinAfter '-' (v.Pre.map PRVersion.String)
    ++ joinAfter '+' (v.Build.map String.data))

/-- Go `PRVersion.Compare`. -/
def PRVersion.Compare (v o : PRVersion) : Int :=
  if v.IsNum && !o.IsNum then -1
  else if !v.IsNum && o.IsNum then 1
  else if v.IsNum && o.IsNum then
    if v.VersionNum = o.VersionNum then 0
    else if v.VersionNum > o.VersionNum then 1
    else -1
  else
    if v.VersionStr = o.VersionStr then 0
    else if strings.Compare v.VersionStr.data o.VersionStr.data > 0 then 1
    else -1

/-- The loop of `Version.Compare` over the common prefix of the two prerelease
lists, followed by the comparison of their lengths. -/
def comparePre : List PRVersion → List PRVersion → Int
  | [], [] => 0
  | [], _ :: _ => -1
  | _ :: _, [] => 1
  | a :: as, b :: bs =>
    let comp := PRVersion.Compare a b
    if comp = 0 then comparePre as bs
    else if comp = 1 then 1
    else -1

/-- Go `Version.Compare`. -/
def Version.Compare (v o : Version) : Int :=
  if v.Major ≠ o.Major then (if v.Major > o.Major then 1 else -1)
  else if v.Minor ≠ o.Minor then (if v.Minor > o.Minor then 1 else -1)
  else if v.Patch ≠ o.Patch then (if v.Patch > o.Patch then 1 else -1)
  else if v.Pre.length = 0 && o.Pre.length = 0 then 0
  else if v.Pre.length = 0 && o.Pre.length > 0 then 1
  else if v.Pre.length > 0 && o.Pre.length = 0 then -1
  else comparePre v.Pre o.Pre

end semver

/-! ## Go standard library: `sort` -/

namespace sort

/-- The inner loop of Go's insertion sort, `for j := i; j > a && less(j, j-1); j--
{ swap(j, j-1) }`: the element `x` at index `i` moves left past every
predecessor it is less than.  The sorted prefix is given from right to left. -/
def insertBack {α : Type} (less : α → α → Bool) (x : α) : List α → List α
  | [] => [x]
  | y :: ys => if less x y then y :: insertBack less x ys else x :: y :: ys

/-- Go `sort.Slice(data, less)`, as the insertion sort the library runs on short
slices.  The selector only reads element 0 of a slice sorted by a key, and the
set of the elements whose key equals that of element 0; both are the same for
every correct sorting algorithm. -/
def Slice {α : Type} (less : α → α → Bool) (data : List α) : List α :=
  (data.foldl (fun done x => insertBack less x done) []).reverse

end sort

/-! ## `dockref`: the reference model -/

/-- The `reference.Named` of `github.com/docker/distribution/reference` that
`Parse` keeps in a `dockref`. -/
structure Named where
  domain : String
  path : String
  tag : String
  digest : String
deriving DecidableEq, Repr

/-- Go `type dockref struct`; `format` is the bit mask `Format`. -/
structure dockref where
  name : String
  original : String
  tag : String
  digest : String
  domain : String
  path : String
  named : Option Named
  format : Nat
deriving DecidableEq, Repr

/-- Go `func (r dockref) Name() string`. -/
def dockref.Name (r : dockref) : String := r.name

/-- Go `func (r dockref) Tag() string`. -/
def dockref.Tag (r : dockref) : String := r.tag

/-- A value of the interface `Reference`; `none` is the nil interface. -/
abbrev Reference := Option dockref

/-- What a call returning `(value, error)` does: it returns a value with a nil
error, returns an error, or panics at run time. -/
inductive Outcome (α : Type) where
  | ok : α → Outcome α
  | error : String → Outcome α
  | panic : Outcome α
deriving DecidableEq, Repr

/-! ## `dockref`: the tag selector -/

/-- Go `splitVersionAndVariant`. -/
def splitVersionAndVariant (tag : String) : String × String :=
  match strings.cutFirst '-' tag.data with
  | some (version, variant) =>
    match semver.ParseTolerant (String.mk version) with
    | none => ("", tag)
    | some _ => (String.mk version, String.mk variant)
  | none =>
    match semver.ParseTolerant tag with
    | none => ("", tag)
    | some _ => (tag, "")

/-- Go `parseVeryTolerant`; `none` is a non-nil error. -/
def parseVeryTolerant (tag : String) : Option semver.Version :=
  let version := (splitVersionAndVariant tag).1
  let variant := (splitVersionAndVariant tag).2
  match semver.ParseTolerant version with
  | none => none
  | some parsed =>
    if variant ≠ "" then semver.ParseTolerant (parsed.String ++ "-" ++ variant)
    else semver.ParseTolerant version

/-- The loop `for _, r := range refs { if keep(r) { out = append(out, r) } }`. -/
def appendEach {α : Type} (keep : α → Bool) (out : List α) : List α → List α
  | [] => out
  | r :: rest => appendEach keep (if keep r then out ++ [r] else out) rest

/-- The variables of the loop of `bestSemVer`. -/
structure BestState where
  nonSemVer : List dockref
  best : Option dockref
  bestSemver : semver.Version
deriving DecidableEq, Repr

/-- One iteration of the loop of `bestSemVer`. -/
def bestSemVerStep (st : BestState) (r : dockref) : BestState :=
  match parseVeryTolerant r.Tag with
  | none => { st with nonSemVer := st.nonSemVer ++ [r] }
  | some version =>
    if version.Compare st.bestSemver ≥ 0 then { st with bestSemver := version, best := some r }
    else st

/-- Go `bestSemVer`: `bestSemver` starts as the zero value `Version{}`, `best` as nil. -/
def bestSemVer (refs : List dockref) : List dockref × Option dockref :=
  let st := refs.foldl bestSemVerStep ⟨[], none, semver.Version.zero⟩
  (st.nonSemVer, st.best)

/-- Go `removeEmpty`. -/
def removeEmpty (refs : List dockref) : List dockref :=
  appendEach (fun r => !(r.Tag == "")) [] refs

/-- Go `removeLatest`. -/
def removeLatest (refs : List dockref) : List dockref :=
  appendEach (fun r => !(r.Tag == "latest")) [] refs

/-- Go `len(r.Tag())`: the length in bytes. -/
def tagLen (r : dockref) : Nat := r.Tag.utf8ByteSize

/-- Go `filterNonLongest`; `none` is the panic of `nonLatest[0]` on an empty slice. -/
def filterNonLongest (nonLatest : List dockref) : Option (List dockref) :=
  match sort.Slice (fun a b => decide (tagLen a > tagLen b)) nonLatest with
  | [] => none
  | first :: rest =>
    let maxLen := tagLen first
    some (appendEach (fun r => decide (tagLen r = maxLen)) [] (first :: rest))

/-- The first loop of `MostPreciseTag`: it stops at a nil element, and keeps the
first reference of every tag.  `seen` is the set of the tags met so far. -/
def uniqueTags (seen : List String) (unique : List dockref) :
    List Reference → Option (List dockref)
  | [] => some unique
  | none :: _ => none
  | some r :: rest =>
    if r.Tag ∈ seen then uniqueTags seen unique rest
    else uniqueTags (r.Tag :: seen) (unique ++ [r]) rest

/-- Go `MostPreciseTag(refs, log)`; the logger only prints a warning and is left out. -/
def MostPreciseTag (refs : Option (List Reference)) : Outcome dockref :=
  match refs with
  | none => .error "refs is nil"
  | some refs =>
    match uniqueTags [] [] refs with
    | none => .error "refs contains nil element"
    | some refs =>
      match refs with
      | [r] => .ok r
      | _ =>
        match bestSemVer refs with
        | (_, some best) => .ok best
        | (nonSemVer, none) =>
          match removeEmpty nonSemVer with
          | [r] => .ok r
          | nonEmpty =>
            match removeLatest nonEmpty with
            | [r] => .ok r
            | nonLatest =>
              match filterNonLongest nonLatest with
              | none => .panic
              | some longest =>
                match sort.Slice (fun a b => decide (strings.Compare a.Tag.data b.Tag.data > 0)) longest with
                | [] => .panic
                | best :: _ => .ok best

/-- The first loop of `FindRelevantTagsForReference`; `none` is the panic of
`r.Name()` on a nil entry. -/
def sameNameLoop (ref : dockref) (sameName : List dockref) : List Reference → Option (List dockref)
  | [] => some sameName
  | none :: _ => none
  | some r :: rest =>
    sameNameLoop ref (if ref.Name == r.Name then sameName ++ [r] else sameName) rest

/-- Go `FindRelevantTagsForReference(ref, refs, log)`; the error is always nil, and
a nil `ref` or a nil entry of `refs` is dereferenced (panic). -/
def FindRelevantTagsForReference (ref : Reference) (refs : List Reference) :
    Outcome (List dockref) :=
  match ref with
  | none => .panic
  | some ref =>
    match sameNameLoop ref [] refs with
    | none => .panic
    | some sameName =>
      let refVariant := (splitVersionAndVariant ref.Tag).2
      let sameVariant :=
        appendEach (fun r => refVariant == (splitVersionAndVariant r.Tag).2) [] sameName
      .ok sameVariant

/-- A reference that carries only a tag. -/
def tagged (t : String) : dockref := ⟨"nginx", "", t, "", "", "", none, 0⟩

/-- The tag of the reference a call returns. -/
def outTag : Outcome dockref → Outcome String
  | .ok r => .ok r.Tag
  | .error e => .error e
  | .panic => .panic

/-- The text of a tag before its first `-`; the whole tag when it has none. -/
def versionPrefix (tag : String) : String :=
  match strings.cutFirst '-' tag.data with
  | some (version, _) => String.mk version
  | none => tag

/-- The text of a tag after its first `-`; empty when it has none. -/
def variantSuffix (tag : String) : String :=
  match strings.cutFirst '-' tag.data with
  | some (_, variant) => String.mk variant
  | none => ""

/-- The references of a list that carry a tag not met before, in order: what the
first loop of `MostPreciseTag` keeps of a list without nil element. -/
def keepNew (seen : List String) : List dockref → List dockref
  | [] => []
  | r :: rest =>
    if r.Tag ∈ seen then keepNew seen rest else r :: keepNew (r.Tag :: seen) rest

/-- The last two steps of `MostPreciseTag`: the longest tags, then the greatest of
them; `panic` stands for an index out of range. -/
def chooseLongest (nonLatest : List dockref) : Outcome dockref :=
  match filterNonLongest nonLatest with
  | none => .panic
  | some longest =>
    match sort.Slice (fun a b => decide (strings.Compare a.Tag.data b.Tag.data > 0)) longest with
    | [] => .panic
    | best :: _ => .ok best

/-- The selection among the candidates without semantic version: the part of
`MostPreciseTag` that follows `bestSemVer`. -/
def chooseNonSemVer (nonSemVer : List dockref) : Outcome dockref :=
  match removeEmpty nonSemVer with
  | [r] => .ok r
  | nonEmpty =>
    match removeLatest nonEmpty with
    | [r] => .ok r
    | nonLatest => chooseLongest nonLatest

/-! ## Go standard library: `regexp` -/

namespace regexp

/-- The regular expressions the reference grammar is written in.  `alt` prefers its
first branch and `star` is greedy, as in Go (leftmost-first matching). -/
inductive Regex where
  | empty : Regex
  | cls : (Char → Bool) → Regex
  | seq : Regex → Regex → Regex
  | alt : Regex → Regex → Regex
  | star : Regex → Regex
  | capture : Nat → Regex → Regex

/-- The subms recorded so far, the latest first. -/
abbrev Caps := List (Nat × List Char)

/-- What remains to be matched after a subexpression. -/
abbrev Cont := List Char → Caps → Option Caps

/-- The iterations of `x*`: as many as possible first; an iteration has to consume
a character. -/
def starLoop (m : List Char → Caps → Cont → Option Caps) :
    Nat → List Char → Caps → Cont → Option Caps
  | 0, s, c, k => k s c
  | fuel + 1, s, c, k =>
    match m s c (fun s' c' => if s'.length < s.length then starLoop m fuel s' c' k else none) with
    | some r => some r
    | none => k s c

/-- Backtracking matcher: the first way, in the order of preference, to match the
expression at the head of the text and the continuation on the rest. -/
def run : Regex → List Char → Caps → Cont → Option Caps
  | .empty => fun s c k => k s c
  | .cls p => fun s c k =>
    match s with
    | [] => none
    | x :: xs => if p x then k xs c else none
  | .seq a b => fun s c k => run a s c (fun s' c' => run b s' c' k)
  | .alt a b => fun s c k =>
    match run a s c k with
    | some r => some r
    | none => run b s c k
  | .star a => fun s c k => starLoop (run a) s.length s c k
  | .capture n a => fun s c k =>
    run a s c (fun s' c' => k s' ((n, s.take (s.length - s'.length)) :: c'))

/-- The expression `x+`. -/
def plus (x : Regex) : Regex := .seq x (.star x)

/-- The expression `x?`. -/
def opt (x : Regex) : Regex := .alt x .empty

/-- The expression `x{n}`. -/
def times (x : Regex) : Nat → Regex
  | 0 => .empty
  | n + 1 => .seq x (times x n)

/-- The expression `x{0,n}`. -/
def upTo (x : Regex) : Nat → Regex
  | 0 => .empty
  | n + 1 => opt (.seq x (upTo x n))

/-- A literal character. -/
def lit (c : Char) : Regex := .cls fun x => x = c

/-- Go `re.FindStringSubmatch(s)` for an expression anchored at both ends (`^...$`):
the subms of the match of the whole text, or `none`. -/
def FindStringSubmatch (re : Regex) (s : List Char) : Option Caps :=
  run re s [] (fun rest c => if rest.isEmpty then some c else none)

/-- Submatch `i` of a match; the empty text for a group that took no part. -/
def submatch (c : Caps) (i : Nat) : List Char :=
  match c.find? (fun p => p.1 == i) with
  | some p => p.2
  | none => []

end regexp

/-! ## `github.com/opencontainers/go-digest` -/

namespace digest

/-- The character class `[a-f0-9]`. -/
def isLowerHex (c : Char) : Bool := ('a' ≤ c && c ≤ 'f') || ('0' ≤ c && c ≤ '9')

/-- The table `algorithms` with `Algorithm.Size`: the three SHA-2 algorithms.  All
three are available in a program that links `crypto/tls`, as every program that
imports package `dockref` does (through the Docker client of `resolver.go`). -/
def algorithmSize (algorithm : String) : Option Nat :=
  if algorithm = "sha256" then some 32
  else if algorithm = "sha384" then some 48
  else if algorithm = "sha512" then some 64
  else none

/-- Go `Algorithm.Validate(encoded)`: the length and the anchored expression
`^[a-f0-9]{n}$` of the algorithm. -/
def Algorithm.Validate (algorithm : String) (encoded : List Char) : Bool :=
  match algorithmSize algorithm with
  | none => false
  | some size => size * 2 == (String.mk encoded).utf8ByteSize && encoded.all isLowerHex

/-- Go `Digest.Validate`; `true` is a nil error. -/
def Validate (d : String) : Bool :=
  match strings.cutFirst ':' d.data with
  | none => false
  | some (algorithm, encoded) =>
    if algorithm.isEmpty || encoded.isEmpty then false
    else Algorithm.Validate (String.mk algorithm) encoded

/-- Go `digest.Parse`. -/
def Parse (s : String) : Option String := if Validate s then some s else none

/-- Go `Digest.Hex`; `none` is the panic "no ':' separator in digest". -/
def Hex (d : String) : Option String :=
  match strings.cutFirst ':' d.data with
  | none => none
  | some (_, encoded) => some (String.mk encoded)

end digest

/-! ## `github.com/docker/distribution/reference` -/

/-- Go `repository.Name`. -/
def Named.Name (n : Named) : String :=
  if n.domain = "" then n.path else n.domain ++ "/" ++ n.path

/-- Go `String` of the four named references. -/
def Named.String (n : Named) : String :=
  n.Name ++ (if n.tag = "" then "" else ":" ++ n.tag)
    ++ (if n.digest = "" then "" else "@" ++ n.digest)


namespace reference

open regexp

/-- The class `[a-z0-9]`. -/
def isLowerAlnum (c : Char) : Bool := ('a' ≤ c && c ≤ 'z') || ('0' ≤ c && c ≤ '9')

/-- The class `[a-zA-Z]`. -/
def isAlpha (c : Char) : Bool := ('a' ≤ c && c ≤ 'z') || ('A' ≤ c && c ≤ 'Z')

/-- The class `[0-9]`. -/
def isDigit (c : Char) : Bool := '0' ≤ c && c ≤ '9'

/-- The class `[a-zA-Z0-9]`. -/
def isAlnum (c : Char) : Bool := isAlpha c || isDigit c

/-- The class `[[:xdigit:]]`. -/
def isXdigit (c : Char) : Bool :=
  isDigit c || ('a' ≤ c && c ≤ 'f') || ('A' ≤ c && c ≤ 'F')

/-- The class `\w`. -/
def isWord (c : Char) : Bool := isAlnum c || c = '_'

/-- The expression `[a-z0-9]+`. -/
def alphaNumericRegexp : Regex := plus (.cls isLowerAlnum)

/-- The expression `(?:[._]|__|[-]*)`. -/
def separatorRegexp : Regex :=
  .alt (.cls fun c => c = '.' || c = '_') (.alt (.seq (lit '_') (lit '_')) (.star (lit '-')))

/-- The expression `nameComponentRegexp`. -/
def nameComponentRegexp : Regex :=
  .seq alphaNumericRegexp (opt (plus (.seq separatorRegexp alphaNumericRegexp)))

/-- The expression `(?:[a-zA-Z0-9]|[a-zA-Z0-9][a-zA-Z0-9-]*[a-zA-Z0-9])`. -/
def domainComponentRegexp : Regex :=
  .alt (.cls isAlnum)
    (.seq (.cls isAlnum) (.seq (.star (.cls fun c => isAlnum c || c = '-')) (.cls isAlnum)))

/-- The expression `DomainRegexp`. -/
def DomainRegexp : Regex :=
  .seq domainComponentRegexp
    (.seq (opt (plus (.seq (lit '.') domainComponentRegexp)))
      (opt (.seq (lit ':') (plus (.cls isDigit)))))

/-- The expression ``[\w][\w.-]{0,127}``. -/
def TagRegexp : Regex :=
  .seq (.cls isWord) (upTo (.cls fun c => isWord c || c = '.' || c = '-') 127)

/-- The expression
`[A-Za-z][A-Za-z0-9]*(?:[-_+.][A-Za-z][A-Za-z0-9]*)*[:][[:xdigit:]]{32,}`. -/
def DigestRegexp : Regex :=
  .seq (.cls isAlpha) (.seq (.star (.cls isAlnum))
    (.seq (.star (.seq (.cls fun c => c = '-' || c = '_' || c = '+' || c = '.')
        (.seq (.cls isAlpha) (.star (.cls isAlnum)))))
      (.seq (lit ':') (.seq (times (.cls isXdigit) 32) (.star (.cls isXdigit))))))

/-- The path part of a name: `nameComponentRegexp` and the components after it. -/
def pathRegexp : Regex :=
  .seq nameComponentRegexp (opt (plus (.seq (lit '/') nameComponentRegexp)))

/-- The expression `NameRegexp`. -/
def NameRegexp : Regex := .seq (opt (.seq DomainRegexp (lit '/'))) pathRegexp

/-- The expression `anchoredNameRegexp`, with its two capturing groups. -/
def anchoredNameRegexp : Regex :=
  .seq (opt (.seq (.capture 1 DomainRegexp) (lit '/'))) (.capture 2 pathRegexp)

/-- The expression `ReferenceRegexp`, with its three capturing groups. -/
def ReferenceRegexp : Regex :=
  .seq (.capture 1 NameRegexp)
    (.seq (opt (.seq (lit ':') (.capture 2 TagRegexp)))
      (opt (.seq (lit '@') (.capture 3 DigestRegexp))))

/-- The expression `anchoredIdentifierRegexp`, `^([a-f0-9]{64})$`. -/
def anchoredIdentifierRegexp : Regex := .capture 1 (times (.cls digest.isLowerHex) 64)

/-- What the library parses a text to: a `digestReference` or one of the named
references (`repository`, `taggedReference`, `canonicalReference`, `reference`),
which differ by the tag and the digest being empty or not. -/
inductive Ref where
  | digestReference : String → Ref
  | named : Named → Ref
deriving DecidableEq, Repr

/-- Go `getBestReferenceType`; `none` is nil. -/
def getBestReferenceType (ref : Named) : Option Ref :=
  if ref.Name = "" then
    if ref.digest ≠ "" then some (.digestReference ref.digest) else none
  else some (.named ref)

/-- The constant `NameTotalLengthMax`. -/
def NameTotalLengthMax : Nat := 255

/-- Go `reference.Parse`; `none` is an error. -/
def Parse (s : String) : Option Ref :=
  match FindStringSubmatch ReferenceRegexp s.data with
  | none => none
  | some ms =>
    if (String.mk (submatch ms 1)).utf8ByteSize > NameTotalLengthMax then none
    else
      let repo : String × String :=
        match FindStringSubmatch anchoredNameRegexp (submatch ms 1) with
        | some nameMatch => (String.mk (submatch nameMatch 1), String.mk (submatch nameMatch 2))
        | none => ("", String.mk (submatch ms 1))
      let tag := String.mk (submatch ms 2)
      if submatch ms 3 ≠ [] then
        match digest.Parse (String.mk (submatch ms 3)) with
        | none => none
        | some d => getBestReferenceType ⟨repo.1, repo.2, tag, d⟩
      else getBestReferenceType ⟨repo.1, repo.2, tag, ""⟩

/-- The constants `legacyDefaultDomain`, `defaultDomain`, `officialRepoName`. -/
def legacyDefaultDomain : String := "index.docker.io"

/-- The constant `defaultDomain`. -/
def defaultDomain : String := "docker.io"

/-- The constant `officialRepoName`. -/
def officialRepoName : String := "library"

/-- Go `splitDockerDomain`. -/
def splitDockerDomain (name : String) : String × String :=
  let split : String × String :=
    match strings.cutFirst '/' name.data with
    | none => (defaultDomain, name)
    | some (first, rest) =>
      if !(first.any fun c => c = '.' || c = ':') && String.mk first ≠ "localhost" then
        (defaultDomain, name)
      else (String.mk first, String.mk rest)
  let domain := if split.1 = legacyDefaultDomain then defaultDomain else split.1
  let remainder :=
    if domain = defaultDomain && !(split.2.data.contains '/') then
      officialRepoName ++ "/" ++ split.2
    else split.2
  (domain, remainder)

/-- Go `strings.ToLower` on the ASCII letters; a text with another upper-case letter
is no reference, whatever this step says. -/
def toLower (s : List Char) : List Char := s.map Char.toLower

/-- Go `ParseNormalizedNamed`; `none` is an error. -/
def ParseNormalizedNamed (s : String) : Option Named :=
  if (FindStringSubmatch anchoredIdentifierRegexp s.data).isSome then none
  else
    let domain := (splitDockerDomain s).1
    let remainder := (splitDockerDomain s).2
    let remoteName : List Char :=
      match strings.cutFirst ':' remainder.data with
      | some (before, _) => before
      | none => remainder.data
    if toLower remoteName ≠ remoteName then none
    else
      match Parse (domain ++ "/" ++ remainder) with
      | some (.named n) => some n
      | _ => none

/-- Go `ParseAnyReference`; `none` is an error. -/
def ParseAnyReference (ref : String) : Option Ref :=
  if (FindStringSubmatch anchoredIdentifierRegexp ref.data).isSome then
    some (.digestReference ("sha256:" ++ ref))
  else
    match digest.Parse ref with
    | some dgst => some (.digestReference dgst)
    | none =>
      match ParseNormalizedNamed ref with
      | some n => some (.named n)
      | none => none

/-- Go `familiarizeName`: the domain and the path of the familiar name. -/
def familiarizeName (n : Named) : String × String :=
  if n.domain = defaultDomain then
    match strings.Split '/' n.path.data with
    | [first, second] =>
      if String.mk first = officialRepoName then ("", String.mk second) else ("", n.path)
    | _ => ("", n.path)
  else (n.domain, n.path)

end reference

/-- Go `Familiar` of the four named references. -/
def Named.Familiar (n : Named) : Named :=
  ⟨(reference.familiarizeName n).1, (reference.familiarizeName n).2, n.tag, n.digest⟩

/-- Go `reference.FamiliarName`. -/
def reference.FamiliarName (n : Named) : String := n.Familiar.Name

/-- Go `reference.FamiliarString`. -/
def reference.FamiliarString (n : Named) : String := n.Familiar.String


/-! ## `dockref`: parsing, formats and rendering -/

/-- Go `type Format uint`, a 64-bit mask. -/
abbrev Format := Nat

/-- The constant `FormatHasName`. -/
def FormatHasName : Format := 1

/-- The constant `FormatHasTag`. -/
def FormatHasTag : Format := 2

/-- The constant `FormatHasDomain`. -/
def FormatHasDomain : Format := 4

/-- The constant `FormatHasDigest`. -/
def FormatHasDigest : Format := 8

/-- Go `Format.hasName`. -/
def Format.hasName (format : Format) : Bool := format &&& FormatHasName != 0

/-- Go `Format.hasTag`. -/
def Format.hasTag (format : Format) : Bool := format &&& FormatHasTag != 0

/-- Go `Format.hasDomain`. -/
def Format.hasDomain (format : Format) : Bool := format &&& FormatHasDomain != 0

/-- Go `Format.hasDigest`. -/
def Format.hasDigest (format : Format) : Bool := format &&& FormatHasDigest != 0

/-- Go `^x` on a `uint`. -/
def complement (x : Nat) : Nat := 2 ^ 64 - 1 - x

/-- Go `Format.Valid`: the flag and the error (`none` is nil). -/
def Format.Valid (format : Format) : Bool × Option String :=
  let f := format &&& complement (FormatHasName ||| FormatHasTag ||| FormatHasDomain ||| FormatHasDigest)
  let valid := f == 0
  (valid, if !valid then some (String.mk ("Invalid format, ".data ++ strconv.FormatUint format))
    else none)

/-- Go `findDockrefFormat`. -/
def findDockrefFormat (named : Option Named) (original name tag digestString : String) : Format :=
  let f0 : Format :=
    match named with
    | some n => if reference.FamiliarString n ≠ original then FormatHasDomain else 0
    | none => 0
  let f1 := if name ≠ "" then f0 ||| FormatHasName else f0
  let f2 := if tag ≠ "" then f1 ||| FormatHasTag else f1
  if digestString ≠ "" then f2 ||| FormatHasDigest else f2

/-- Go `dockref.Parse`; the text of the error of the library is not modelled. -/
def Parse (original : String) : Outcome dockref :=
  match reference.ParseAnyReference original with
  | none => .error "invalid reference format"
  | some (.named n) =>
    .ok { original := original, domain := n.domain, name := n.Name, tag := n.tag,
          digest := n.digest, path := n.path, named := some n,
          format := findDockrefFormat (some n) original n.Name n.tag n.digest }
  | some (.digestReference d) =>
    .ok { original := original, domain := "", name := "", tag := "", digest := d, path := "",
          named := none, format := findDockrefFormat none original "" "" d }

/-- Go `MustParse`: the reference of `Parse`, nil when it fails. -/
def MustParse (original : String) : Reference :=
  match Parse original with
  | .ok r => some r
  | _ => none

/-- Go `ParseAlgoDigest`: a reference, which `MustParse` may have left nil, with a
nil error, or an error. -/
def ParseAlgoDigest (algoDigest : String) : Outcome Reference :=
  if !digest.Validate algoDigest then .error "invalid digest"
  else
    match digest.Hex algoDigest with
    | none => .panic
    | some hex => .ok (MustParse hex)

/-- Go `dockref.Formatted`; `panic` is the nil dereference of `FamiliarName(nil)` or
the panic of `Digest.Hex`. -/
def dockref.Formatted (r : dockref) : Outcome String :=
  let format := r.format
  let s1 : Outcome String :=
    if Format.hasName format then
      if Format.hasDomain format then .ok r.name
      else match r.named with
        | some n => .ok (reference.FamiliarName n)
        | none => .panic
    else .ok ""
  match s1 with
  | .ok s =>
    let s2 := if Format.hasTag format then s ++ ":" ++ r.tag else s
    if Format.hasDigest format then
      if Format.hasName format then .ok (s2 ++ "@" ++ r.digest)
      else match digest.Hex r.digest with
        | some hex => .ok (s2 ++ hex)
        | none => .panic
    else .ok s2
  | other => other

/-- Go `dockref.WithRequestedFormat`. -/
def dockref.WithRequestedFormat (r : dockref) (format : Format) : Outcome dockref :=
  match Format.Valid format with
  | (false, err) => .error (err.getD "")
  | (true, _) =>
    let required0 : Format :=
      if r.domain ≠ "" && r.domain ≠ "docker.io" then FormatHasDomain ||| FormatHasName else 0
    let required := if Format.hasTag format then required0 ||| FormatHasName else required0
    let cpy := { r with format := format ||| required }
    if r.format = FormatHasDigest then .ok { cpy with format := FormatHasDigest } else .ok cpy

/-- Go `dockref.WithDigest`. -/
def dockref.WithDigest (r : dockref) (dig : String) : dockref := { r with digest := dig }

/-- Go `dockref.WithTag`. -/
def dockref.WithTag (r : dockref) (tag : String) : dockref := { r with tag := tag }

/-- The bits of a format are among the four recognized ones, `FormatHasName`,
`FormatHasTag`, `FormatHasDomain` and `FormatHasDigest`. -/
def onlyRecognizedBits (format : Format) : Prop :=
  ∀ i, format.testBit i = true →
    2 ^ i = FormatHasName ∨ 2 ^ i = FormatHasTag ∨ 2 ^ i = FormatHasDomain ∨
      2 ^ i = FormatHasDigest

/-- The bits a rendering requires, in the words of the specification: the domain
and the name for a domain that is neither empty nor `docker.io`, the name for a
requested tag, nothing else. -/
def requiredBits (r : dockref) (requested : Format) : Format :=
  (if r.domain ≠ "" ∧ r.domain ≠ "docker.io" then FormatHasDomain ||| FormatHasName else 0) |||
    (if Format.hasTag requested then FormatHasName else 0)

/-- The references a program can hold: those `Parse` or `ParseAlgoDigest` return,
and those `WithTag`, `WithDigest` (with a digest text that `okDigest` admits) and a
successful `WithRequestedFormat` make of them. -/
inductive ObtainedWith (okDigest : String → Prop) : dockref → Prop where
  | parse (s : String) (r : dockref) : Parse s = .ok r → ObtainedWith okDigest r
  | parseAlgoDigest (s : String) (r : dockref) :
      ParseAlgoDigest s = .ok (some r) → ObtainedWith okDigest r
  | withTag (r : dockref) (t : String) : ObtainedWith okDigest r → ObtainedWith okDigest (r.WithTag t)
  | withDigest (r : dockref) (d : String) :
      ObtainedWith okDigest r → okDigest d → ObtainedWith okDigest (r.WithDigest d)
  | withRequestedFormat (r : dockref) (f : Format) (r' : dockref) :
      ObtainedWith okDigest r → r.WithRequestedFormat f = .ok r' → ObtainedWith okDigest r'

/-- The references obtained with any digest text given to `WithDigest`. -/
def Obtained (r : dockref) : Prop := ObtainedWith (fun _ => True) r

/-- The text of a reference in the words of the specification, segment by segment:
the name, the tag, the digest. -/
def renderedText (r : dockref) : String :=
  (if Format.hasName r.format then
      (if Format.hasDomain r.format then r.name
        else match r.named with
          | some n => reference.FamiliarName n
          | none => "")
    else "") ++
  (if Format.hasTag r.format then ":" ++ r.tag else "") ++
  (if Format.hasDigest r.format then
      (if Format.hasName r.format then "@" ++ r.digest else (digest.Hex r.digest).getD "")
    else "")

/-! ## `cmd/dockmoor`: the reference format of `pin` -/

/-- The group `ReferenceFormat` of the options of `pin`: its four flags. -/
structure ReferenceFormat where
  ForceDomain : Bool
  NoName : Bool
  NoTag : Bool
  NoDigest : Bool
deriving DecidableEq, Repr

/-- Go `type pinOptions struct`: the field that `RefFormat` reads. -/
structure pinOptions where
  ReferenceFormat : ReferenceFormat
deriving DecidableEq, Repr

/-- Go `pinOptions.RefFormat`. -/
def pinOptions.RefFormat (po : pinOptions) : Outcome Format :=
  let format : Format := FormatHasName ||| FormatHasTag ||| FormatHasDigest
  let rf := po.ReferenceFormat
  if rf.NoDigest && rf.NoName then
    .error "invalid Reference Format: --no-name and --no-digest are mutually exclusive"
  else if rf.ForceDomain && rf.NoName then
    .error "invalid Reference Format: --force-domain and --no-name are mutually exclusive"
  else
    let format := if rf.ForceDomain then format ||| FormatHasDomain else format
    let format := if rf.NoName then format &&& complement FormatHasName else format
    let format := if rf.NoTag then format &&& complement FormatHasTag else format
    let format := if rf.NoDigest then format &&& complement FormatHasDigest else format
    .ok format

/-! ## `dockref`: the resolver of the Docker daemon -/

/-- The fields of `types.ImageInspect` that `Resolve` reads. -/
structure ImageInspect where
  ID : String
  RepoTags : List String
  RepoDigests : List String
deriving DecidableEq, Repr

/-- Go `type dockerDaemonResolver struct`.  The method `imageInspect`, which asks
the daemon, is the function the resolver holds. -/
structure dockerDaemonResolver where
  imageInspect : Reference → Outcome ImageInspect

/-- Go `dockref.DigestString`. -/
def dockref.DigestString (r : dockref) : String := r.digest

/-- Go `MustParseAlgoDigest`: the reference of `ParseAlgoDigest`, nil when it fails;
`none` is a panic. -/
def MustParseAlgoDigest (algoDigest : String) : Option Reference :=
  match ParseAlgoDigest algoDigest with
  | .ok ref => some ref
  | .error _ => some none
  | .panic => none

/-- The inner loop of `Resolve`, `for _, dig := range digs`; `none` is the panic of
`digRef.DigestString()` on a nil `digRef`. -/
def resolveDigests (r : dockref) (refs : List Reference) :
    List String → Option (dockref × List Reference)
  | [] => some (r, refs)
  | dig :: rest =>
    match MustParse dig with
    | none => none
    | some digRef =>
      resolveDigests (r.WithDigest digRef.DigestString)
        (refs ++ [some (r.WithDigest digRef.DigestString)]) rest

/-- The outer loop of `Resolve`, `for _, tag := range tags`; `none` is the panic of
a method call on a nil `tagRef`, `reference` or `digRef`. -/
def resolveTags (reference : Reference) (digs : List String) (refs : List Reference) :
    List String → Option (List Reference)
  | [] => some refs
  | tag :: rest =>
    match MustParse tag, reference with
    | some tagRef, some ref =>
      match resolveDigests (ref.WithTag tagRef.Tag) refs digs with
      | none => none
      | some (r, refs1) =>
        resolveTags reference digs (if digs.length = 0 then refs1 ++ [some r] else refs1) rest
    | _, _ => none

/-- Go `dockerDaemonResolver.Resolve`; on success the slice is not nil. -/
def dockerDaemonResolver.Resolve (repo : dockerDaemonResolver) (reference : Reference) :
    Outcome (List Reference) :=
  match repo.imageInspect reference with
  | .error e => .error e
  | .panic => .panic
  | .ok imageInspect =>
    let digs := imageInspect.RepoDigests
    let tags := imageInspect.RepoTags
    match resolveTags reference digs [] tags with
    | none => .panic
    | some refs =>
      if digs.length = 0 && tags.length = 0 then
        match MustParseAlgoDigest imageInspect.ID with
        | some r => .ok (refs ++ [r])
        | none => .panic
      else .ok refs

/-! ## `dockfmt/dockerfile`: the directive processor

The code of the package is not part of the sources at hand, only its tests
(`dockerfile_test.go`).  The definitions of this section are written from the
specification (§3, §4.3, §7) and named after the methods the tests call. -/

namespace dockerfile

/-- Modelled from the spec: the errors of the directive processor, which is
missing from the sources: a syntax error with its location, a document without
image-source directive, an image-source directive whose token is no reference
(§7); `other` is an error value of a collaborator, such as the one a rewrite
callback returns. -/
inductive Error where
  | SyntaxError (location : Nat)
  | MissingImageSourceError
  | ClassificationError (location : Nat)
  | other (text : String)
deriving DecidableEq, Repr

/-- Modelled from the spec: an instruction record of the directive stream (§3),
which is missing from the sources: an image-source directive carrying its raw
reference token, together with the text of the directive before the token and
after it (the alias clause and the end of the line), or a directive carried
through unmodified. -/
inductive Directive where
  | imageSource (before token after : String)
  | carried (text : String)
deriving DecidableEq, Repr

/-- Modelled from the spec: the text a directive was read from (§9, a token-span
list that points back into the original text). -/
def Directive.text : Directive → String
  | .imageSource before token after => before ++ token ++ after
  | .carried text => text

/-- Modelled from the spec: the lines of a document, each with its line end. -/
def splitLines : List Char → List (List Char)
  | [] => []
  | c :: rest =>
    if c = '\n' then [c] :: splitLines rest
    else match splitLines rest with
      | [] => [[c]]
      | l :: ls => (c :: l) :: ls

/-- Modelled from the spec: a comment, a line whose first character after the
leading whitespace is `#`. -/
def isComment (line : List Char) : Bool :=
  match line.dropWhile unicode.IsSpace with
  | c :: _ => c = '#'
  | [] => false

/-- Modelled from the spec: a line that ends with the continuation marker, a
backslash right before the line end; a comment does not continue. -/
def continues (line : List Char) : Bool :=
  !isComment line &&
    match line.reverse with
    | '\n' :: '\\' :: _ => true
    | '\n' :: '\r' :: '\\' :: _ => true
    | _ => false

/-- Modelled from the spec: the instructions of a document, a line together with
the lines that continue it. -/
def joinContinued : List (List Char) → List (List Char)
  | [] => []
  | l :: ls =>
    match joinContinued ls with
    | [] => [l]
    | m :: ms => if continues l then (l ++ m) :: ms else l :: m :: ms

/-- Modelled from the spec: the instruction grammar (§4.3), whose parser is missing
from the sources and whose instruction names the specification does not list:
the instruction names of the Dockerfile format. -/
def instructionNames : List String :=
  ["ADD", "ARG", "CMD", "COPY", "ENTRYPOINT", "ENV", "EXPOSE", "FROM", "HEALTHCHECK", "LABEL",
    "MAINTAINER", "ONBUILD", "RUN", "SHELL", "STOPSIGNAL", "USER", "VOLUME", "WORKDIR"]

/-- Modelled from the spec: the instruction record of one instruction of the
document (§3), which the missing parser makes.  An instruction whose first word,
after the leading whitespace, is `FROM` in any case is an image-source directive;
its raw reference token is the next word, and the text after the token (the alias
clause, the end of the line) is kept with it.  Anything else (another
instruction, a comment, a blank line) is carried through unmodified. -/
def classify (line : List Char) : Directive :=
  let lead := line.takeWhile unicode.IsSpace
  let body := line.dropWhile unicode.IsSpace
  let word := body.takeWhile (fun x => !unicode.IsSpace x)
  let rest := body.dropWhile (fun x => !unicode.IsSpace x)
  if String.mk (word.map Char.toUpper) = "FROM" then
    let gap := rest.takeWhile unicode.IsSpace
    let tail := rest.dropWhile unicode.IsSpace
    .imageSource (String.mk (lead ++ word ++ gap))
      (String.mk (tail.takeWhile (fun x => !unicode.IsSpace x)))
      (String.mk (tail.dropWhile (fun x => !unicode.IsSpace x)))
  else .carried (String.mk line)

/-- Modelled from the spec: an instruction that parses under the instruction
grammar (§4.3), as `Validate` checks it: a blank line, a comment, or an instruction
with a known name; an image-source directive has a token. -/
def wellFormed (line : List Char) : Bool :=
  match line.dropWhile unicode.IsSpace with
  | [] => true
  | c :: body =>
    if c = '#' then true
    else
      decide (String.mk (((c :: body).takeWhile (fun x => !unicode.IsSpace x)).map Char.toUpper) ∈
        instructionNames) &&
      match classify line with
      | .imageSource _ token _ => token != ""
      | .carried _ => true

/-- Modelled from the spec: the location of the first instruction that does not
parse under the instruction grammar, counted from `location`. -/
def firstIllFormed (location : Nat) : List (List Char) → Option Nat
  | [] => none
  | line :: rest =>
    if wellFormed line then firstIllFormed (location + 1) rest else some location

/-- Modelled from the spec: the instructions of a document, in document order. -/
def instructions (document : String) : List (List Char) :=
  joinContinued (splitLines document.data)

/-- Modelled from the spec: the directive stream of a document (§3, §4.3). -/
def directives (document : String) : List Directive :=
  (instructions document).map classify

/-- Modelled from the spec: the raw reference tokens of the image-source
directives of a stream, in document order. -/
def tokens : List Directive → List String
  | [] => []
  | .imageSource _ token _ :: rest => token :: tokens rest
  | .carried _ :: rest => tokens rest

/-- Modelled from the spec: the raw reference tokens of the image-source
directives of a document, in document order. -/
def imageTokens (document : String) : List String :=
  tokens (directives document)

/-- Modelled from the spec: `Validate(document, sourceName)` (§4.3), the method
`ValidateInput` of the tests, missing from the sources: a syntax error when the
document does not parse under the instruction grammar, the error of a missing
image source when it has no image-source directive; `none` is the nil error. -/
def ValidateInput (document : String) : Option Error :=
  match firstIllFormed 0 (instructions document) with
  | some location => some (.SyntaxError location)
  | none => if imageTokens document = [] then some .MissingImageSourceError else none

/-- Modelled from the spec: what a call of `Process` leaves: the state of the
callback after its invocations, the text written to the output, and the error
returned (`none` is nil). -/
structure Processed (σ : Type) where
  state : σ
  output : String
  err : Option Error
deriving DecidableEq, Repr

/-- Modelled from the spec: the loop of `Process` over the directive stream (§4.3),
missing from the sources.  A directive carried through is written as it was read.
The token of an image-source directive is parsed as a reference, which fails
with a classification error; the callback is invoked on the reference and its
text is written in the place of the token; an error of the callback is returned
as it is, and nothing is written from that directive on.  The callback may keep a
state between its invocations: it receives and returns it. -/
def processAll {σ : Type} (callback : σ → dockref → σ × Except Error String) :
    Nat → List Directive → σ → String → Processed σ
  | _, [], s, out => ⟨s, out, none⟩
  | location, .carried text :: rest, s, out =>
    processAll callback (location + 1) rest s (out ++ text)
  | location, .imageSource before token after :: rest, s, out =>
    match Parse token with
    | .ok r =>
      match callback s r with
      | (s1, .ok newText) =>
        processAll callback (location + 1) rest s1 (out ++ (before ++ newText ++ after))
      | (s1, .error e) => ⟨s1, out, some e⟩
    | _ => ⟨s, out, some (.ClassificationError location)⟩

/-- Modelled from the spec: `Process(document, rewriteCallback)` (§4.3), the method
`Process` of the tests, missing from the sources.  It fails with an error of the
callback or with a classification error, and with nothing else: it does not
check the instruction grammar, which is the work of `Validate`. -/
def Process {σ : Type} (callback : σ → dockref → σ × Except Error String) (s : σ)
    (document : String) : Processed σ :=
  processAll callback 0 (directives document) s ""

/-- A callback that returns a text at every invocation, as a rewrite callback. -/
def returning {σ : Type} (callback : σ → dockref → σ × String) :
    σ → dockref → σ × Except Error String :=
  fun s r => ((callback s r).1, .ok (callback s r).2)

/-- The callback invoked once on each reference of a list, in order: the state
it is left in and the texts it returned. -/
def invokeEach {σ : Type} (callback : σ → dockref → σ × String) : σ → List dockref → σ × List String
  | s, [] => (s, [])
  | s, r :: rest =>
    ((invokeEach callback (callback s r).1 rest).1,
      (callback s r).2 :: (invokeEach callback (callback s r).1 rest).2)

/-- The text made of the frames `f₀, f₁, …, fₙ` with the fillers `x₁, …, xₙ` put
between them: `f₀ x₁ f₁ … xₙ fₙ`. -/
def interleave : List String → List String → String
  | f :: fs, x :: xs => f ++ x ++ interleave fs xs
  | f :: _, [] => f
  | [], _ => ""

/-- The frames of a directive stream: the texts between the tokens of its
image-source directives. -/
def frames : List Directive → List String
  | [] => [""]
  | .carried text :: rest =>
    match frames rest with
    | f :: fs => (text ++ f) :: fs
    | [] => [text]
  | .imageSource before _ after :: rest =>
    match frames rest with
    | f :: fs => before :: (after ++ f) :: fs
    | [] => [before, after]

/-- The frames of a document: the texts between the tokens of its image-source
directives. -/
def documentFrames (document : String) : List String :=
  frames (directives document)

/-- The callback of the tests, which counts its invocations and returns the empty
text. -/
def countCalls : Nat → dockref → Nat × String := fun calls _ => (calls + 1, "")

/-- The document of `TestDockerfilePassMultiLineAndMultistage`. -/
def multistage : String :=
  "FROM nginx:tag\nRUN some \\\n\tcommand\n\nFROM something:tag\nRUN something \\\n\tin the end\n\n# And a comment"

end dockerfile

/-! ## Comparators -/

/-- A three-valued comparison, as `Compare` functions return it, that is the
comparison of a total preorder: `c a b` is `-1`, `0` or `1`, swapping the
arguments negates it, and "not less" is transitive. -/
structure IsCmp {α : Type} (c : α → α → Int) : Prop where
  range : ∀ a b, c a b = -1 ∨ c a b = 0 ∨ c a b = 1
  swap : ∀ a b, c b a = - c a b
  trans : ∀ a b d, 0 ≤ c a b → 0 ≤ c b d → 0 ≤ c a d

/-- Lexicographic combination of two comparison results. -/
def lexCmp (x y : Int) : Int := if x ≠ 0 then x else y

/-- The comparison of two numeric components in `Version.Compare`. -/
def natCmp (a b : Nat) : Int := if a ≠ b then (if a > b then 1 else -1) else 0

/-- The comparison of the prerelease lists in `Version.Compare`: the three quick
cases, then the loop. -/
def preCmp (p q : List semver.PRVersion) : Int :=
  if p.length = 0 && q.length = 0 then 0
  else if p.length = 0 && q.length > 0 then 1
  else if p.length > 0 && q.length = 0 then -1
  else semver.comparePre p q

/-! ## Theorems -/

/-! ### Comparisons are total preorders -/

theorem IsCmp.refl {α : Type} {c : α → α → Int} (h : IsCmp c) (a : α) : c a a = 0 := by
  have := h.swap a a
  omega

theorem IsCmp.pos_nonneg {α : Type} {c : α → α → Int} (h : IsCmp c) {a b d : α}
    (h1 : c a b = 1) (h2 : 0 ≤ c b d) : c a d = 1 := by
  have t1 := h.trans a b d (by omega) h2
  have s1 := h.swap a b
  have s2 := h.swap a d
  have r := h.range a d
  have t2 : 0 ≤ c d a → 0 ≤ c b a := h.trans b d a h2
  by_contra hne
  have h0 : c a d = 0 := by omega
  have := t2 (by omega)
  omega

theorem IsCmp.nonneg_pos {α : Type} {c : α → α → Int} (h : IsCmp c) {a b d : α}
    (h1 : 0 ≤ c a b) (h2 : c b d = 1) : c a d = 1 := by
  have t1 := h.trans a b d h1 (by omega)
  have s1 := h.swap b d
  have s2 := h.swap a d
  have r := h.range a d
  have t2 : 0 ≤ c d a → 0 ≤ c d b := fun h3 => h.trans d a b h3 h1
  by_contra hne
  have h0 : c a d = 0 := by omega
  have := t2 (by omega)
  omega

theorem IsCmp.zero_zero {α : Type} {c : α → α → Int} (h : IsCmp c) {a b d : α}
    (h1 : c a b = 0) (h2 : c b d = 0) : c a d = 0 := by
  have t1 := h.trans a b d (by omega) (by omega)
  have s1 := h.swap a b
  have s2 := h.swap b d
  have s3 := h.swap a d
  have t2 := h.trans d b a (by omega) (by omega)
  omega

theorem IsCmp.comap {α β : Type} {c : α → α → Int} (h : IsCmp c) (f : β → α) :
    IsCmp (fun x y => c (f x) (f y)) :=
  ⟨fun _ _ => h.range _ _, fun _ _ => h.swap _ _, fun _ _ _ => h.trans _ _ _⟩

theorem IsCmp.lex {α : Type} {c1 c2 : α → α → Int} (h1 : IsCmp c1) (h2 : IsCmp c2) :
    IsCmp (fun a b => lexCmp (c1 a b) (c2 a b)) := by
  refine ⟨?_, ?_, ?_⟩
  · intro a b
    have r1 := h1.range a b
    have r2 := h2.range a b
    simp only [lexCmp]
    split_ifs <;> omega
  · intro a b
    have s1 := h1.swap a b
    have s2 := h2.swap a b
    simp only [lexCmp]
    split_ifs <;> omega
  · intro a b d hab hbd
    simp only [lexCmp] at hab hbd ⊢
    rcases h1.range a b with r | r | r
    · rw [r] at hab; simp at hab
    · rcases h1.range b d with q | q | q
      · rw [q] at hbd; simp at hbd
      · have := h1.zero_zero r q
        rw [r] at hab; rw [q] at hbd; rw [this]
        simp at hab hbd ⊢
        exact h2.trans a b d hab hbd
      · have := h1.nonneg_pos (by omega : 0 ≤ c1 a b) q
        rw [this]; simp
    · have hq : 0 ≤ c1 b d := by
        rcases h1.range b d with q | q | q
        · rw [q] at hbd; simp at hbd
        · omega
        · omega
      have := h1.pos_nonneg r hq
      rw [this]; simp

theorem natCmp_isCmp : IsCmp natCmp := by
  refine ⟨?_, ?_, ?_⟩
  · intro a b; simp only [natCmp]; split_ifs <;> omega
  · intro a b; simp only [natCmp]; split_ifs <;> omega
  · intro a b d; simp only [natCmp]; split_ifs <;> omega

theorem strings_Compare_range (a b : List Char) :
    strings.Compare a b = -1 ∨ strings.Compare a b = 0 ∨ strings.Compare a b = 1 := by
  induction a generalizing b with
  | nil => cases b <;> simp [strings.Compare]
  | cons x xs ih =>
    cases b with
    | nil => simp [strings.Compare]
    | cons y ys =>
      simp only [strings.Compare]
      split_ifs
      · simp
      · simp
      · exact ih ys

theorem strings_Compare_swap (a b : List Char) :
    strings.Compare b a = - strings.Compare a b := by
  induction a generalizing b with
  | nil => cases b <;> simp [strings.Compare]
  | cons x xs ih =>
    cases b with
    | nil => simp [strings.Compare]
    | cons y ys =>
      simp only [strings.Compare]
      split_ifs <;> first | omega | exact ih ys

theorem strings_Compare_trans (a b d : List Char) :
    0 ≤ strings.Compare a b → 0 ≤ strings.Compare b d → 0 ≤ strings.Compare a d := by
  induction a generalizing b d with
  | nil =>
    cases b <;> cases d <;> simp [strings.Compare]
  | cons x xs ih =>
    cases b with
    | nil => cases d <;> simp [strings.Compare]
    | cons y ys =>
      cases d with
      | nil => simp [strings.Compare]
      | cons z zs =>
        simp only [strings.Compare]
        split_ifs <;> first | omega | (intro h1 h2; omega) | exact ih ys zs

theorem strings_Compare_isCmp : IsCmp strings.Compare :=
  ⟨strings_Compare_range, strings_Compare_swap, strings_Compare_trans⟩

theorem strings_Compare_eq_zero (a b : List Char) : strings.Compare a b = 0 → a = b := by
  induction a generalizing b with
  | nil => cases b <;> simp [strings.Compare]
  | cons x xs ih =>
    cases b with
    | nil => simp [strings.Compare]
    | cons y ys =>
      simp only [strings.Compare]
      split_ifs with h1 h2
      · simp
      · simp
      · intro h
        have hxy : x = y := by
          apply Char.ext
          apply UInt32.ext
          have : x.toNat = y.toNat := by omega
          simpa [Char.toNat] using this
        rw [hxy, ih ys h]


theorem PRVersion_Compare_alpha (a b : semver.PRVersion) (ha : a.IsNum = false) (hb : b.IsNum = false) :
    semver.PRVersion.Compare a b = strings.Compare a.VersionStr.data b.VersionStr.data := by
  have r := strings_Compare_range a.VersionStr.data b.VersionStr.data
  simp only [semver.PRVersion.Compare, ha, hb]
  by_cases he : a.VersionStr = b.VersionStr
  · simp [he, strings_Compare_isCmp.refl]
  · have hne : strings.Compare a.VersionStr.data b.VersionStr.data ≠ 0 := by
      intro h0
      exact he (String.ext (strings_Compare_eq_zero _ _ h0))
    simp only [he, if_false, Bool.false_and, Bool.not_false, Bool.and_false, Bool.false_eq_true]
    split_ifs <;> omega

theorem PRVersion_Compare_num (a b : semver.PRVersion) (ha : a.IsNum = true) (hb : b.IsNum = true) :
    semver.PRVersion.Compare a b = natCmp a.VersionNum b.VersionNum := by
  simp only [semver.PRVersion.Compare, ha, hb, natCmp]
  by_cases he : a.VersionNum = b.VersionNum <;> simp [he]

theorem PRVersion_Compare_num_alpha (a b : semver.PRVersion) (ha : a.IsNum = true) (hb : b.IsNum = false) :
    semver.PRVersion.Compare a b = -1 := by
  simp [semver.PRVersion.Compare, ha, hb]

theorem PRVersion_Compare_alpha_num (a b : semver.PRVersion) (ha : a.IsNum = false) (hb : b.IsNum = true) :
    semver.PRVersion.Compare a b = 1 := by
  simp [semver.PRVersion.Compare, ha, hb]

theorem PRVersion_Compare_isCmp : IsCmp semver.PRVersion.Compare := by
  have hs := strings_Compare_isCmp
  have hn := natCmp_isCmp
  refine ⟨?_, ?_, ?_⟩
  · intro a b
    cases ha : a.IsNum <;> cases hb : b.IsNum
    · rw [PRVersion_Compare_alpha a b ha hb]; exact hs.range _ _
    · rw [PRVersion_Compare_alpha_num a b ha hb]; simp
    · rw [PRVersion_Compare_num_alpha a b ha hb]; simp
    · rw [PRVersion_Compare_num a b ha hb]; exact hn.range _ _
  · intro a b
    cases ha : a.IsNum <;> cases hb : b.IsNum
    · rw [PRVersion_Compare_alpha a b ha hb, PRVersion_Compare_alpha b a hb ha]; exact hs.swap _ _
    · rw [PRVersion_Compare_alpha_num a b ha hb, PRVersion_Compare_num_alpha b a hb ha]
    · rw [PRVersion_Compare_num_alpha a b ha hb, PRVersion_Compare_alpha_num b a hb ha]; simp
    · rw [PRVersion_Compare_num a b ha hb, PRVersion_Compare_num b a hb ha]; exact hn.swap _ _
  · intro a b d
    cases ha : a.IsNum <;> cases hb : b.IsNum <;> cases hd : d.IsNum <;>
      simp only [PRVersion_Compare_alpha _ _ , PRVersion_Compare_alpha_num, PRVersion_Compare_num_alpha,
        PRVersion_Compare_num, ha, hb, hd] <;> first | omega | exact hs.trans _ _ _ | exact hn.trans _ _ _

theorem comparePre_isCmp : IsCmp semver.comparePre := by
  have hp := PRVersion_Compare_isCmp
  refine ⟨?_, ?_, ?_⟩
  · intro a
    induction a with
    | nil => intro b; cases b <;> simp [semver.comparePre]
    | cons x xs ih =>
      intro b
      cases b with
      | nil => simp [semver.comparePre]
      | cons y ys =>
        simp only [semver.comparePre]
        split_ifs
        · exact ih ys
        · simp
        · simp
  · intro a
    induction a with
    | nil => intro b; cases b <;> simp [semver.comparePre]
    | cons x xs ih =>
      intro b
      cases b with
      | nil => simp [semver.comparePre]
      | cons y ys =>
        have s := hp.swap x y
        have r := hp.range x y
        simp only [semver.comparePre]
        split_ifs <;> first | omega | exact ih ys
  · intro a
    induction a with
    | nil => intro b d; cases b <;> cases d <;> simp [semver.comparePre]
    | cons x xs ih =>
      intro b d
      cases b with
      | nil => cases d <;> simp [semver.comparePre]
      | cons y ys =>
        cases d with
        | nil => simp [semver.comparePre]
        | cons z zs =>
          intro hab hbd
          simp only [semver.comparePre] at hab hbd ⊢
          rcases hp.range x y with r | r | r
          · rw [r] at hab; simp at hab
          · rcases hp.range y z with q | q | q
            · rw [q] at hbd; simp at hbd
            · rw [hp.zero_zero r q]
              rw [r] at hab; rw [q] at hbd
              simp at hab hbd ⊢
              exact ih ys zs hab hbd
            · rw [hp.nonneg_pos (by omega : 0 ≤ semver.PRVersion.Compare x y) q]; simp
          · have hq : 0 ≤ semver.PRVersion.Compare y z := by
              rcases hp.range y z with q | q | q
              · rw [q] at hbd; simp at hbd
              · omega
              · omega
            rw [hp.pos_nonneg r hq]; simp

theorem preCmp_isCmp : IsCmp preCmp := by
  have hc := comparePre_isCmp
  refine ⟨?_, ?_, ?_⟩
  · intro a b
    cases a <;> cases b <;> simp [preCmp]
    exact hc.range _ _
  · intro a b
    cases a <;> cases b <;> simp [preCmp]
    exact hc.swap _ _
  · intro a b d
    cases a <;> cases b <;> cases d <;> simp [preCmp]
    exact hc.trans _ _ _

theorem lexCmp_natCmp_ne {a b : Nat} (h : a ≠ b) (y : Int) :
    lexCmp (natCmp a b) y = if a > b then 1 else -1 := by
  simp only [lexCmp, natCmp, h, ne_eq, not_false_eq_true, if_true]
  split_ifs <;> simp_all

theorem lexCmp_natCmp_eq {a b : Nat} (h : a = b) (y : Int) :
    lexCmp (natCmp a b) y = y := by
  simp [lexCmp, natCmp, h]

theorem Version_Compare_eq (v o : semver.Version) :
    v.Compare o = lexCmp (natCmp v.Major o.Major) (lexCmp (natCmp v.Minor o.Minor)
      (lexCmp (natCmp v.Patch o.Patch) (preCmp v.Pre o.Pre))) := by
  unfold semver.Version.Compare
  by_cases h1 : v.Major = o.Major
  · rw [lexCmp_natCmp_eq h1, if_neg (by simpa using h1)]
    by_cases h2 : v.Minor = o.Minor
    · rw [lexCmp_natCmp_eq h2, if_neg (by simpa using h2)]
      by_cases h3 : v.Patch = o.Patch
      · rw [lexCmp_natCmp_eq h3, if_neg (by simpa using h3)]
        rfl
      · rw [lexCmp_natCmp_ne h3, if_pos h3]
    · rw [lexCmp_natCmp_ne h2, if_pos h2]
  · rw [lexCmp_natCmp_ne h1, if_pos h1]

theorem Version_Compare_isCmp : IsCmp semver.Version.Compare := by
  have h : semver.Version.Compare = fun v o => lexCmp (natCmp v.Major o.Major) (lexCmp (natCmp v.Minor o.Minor)
      (lexCmp (natCmp v.Patch o.Patch) (preCmp v.Pre o.Pre))) := by
    funext v o; exact Version_Compare_eq v o
  rw [h]
  exact (natCmp_isCmp.comap semver.Version.Major).lex ((natCmp_isCmp.comap semver.Version.Minor).lex
    ((natCmp_isCmp.comap semver.Version.Patch).lex (preCmp_isCmp.comap semver.Version.Pre)))

/-! ### `sort.Slice` -/

theorem insertBack_perm {α : Type} (less : α → α → Bool) (x : α) (l : List α) :
    (sort.insertBack less x l).Perm (x :: l) := by
  induction l with
  | nil => simp [sort.insertBack]
  | cons y ys ih =>
    simp only [sort.insertBack]
    split_ifs
    · exact (List.Perm.cons y ih).trans (List.Perm.swap x y ys)
    · exact List.Perm.refl _

theorem foldl_insertBack_perm {α : Type} (less : α → α → Bool) (l done : List α) :
    (l.foldl (fun done x => sort.insertBack less x done) done).Perm (l ++ done) := by
  induction l generalizing done with
  | nil => simp
  | cons x xs ih =>
    simp only [List.foldl_cons]
    refine (ih _).trans ?_
    refine (List.Perm.append_left xs (insertBack_perm less x done)).trans ?_
    simp

theorem Slice_perm {α : Type} (less : α → α → Bool) (l : List α) :
    (sort.Slice less l).Perm l := by
  unfold sort.Slice
  refine (List.reverse_perm _).trans ?_
  simpa using foldl_insertBack_perm less l []

theorem insertBack_pairwise {α : Type} (less : α → α → Bool)
    (asym : ∀ a b, less a b = true → less b a = false)
    (ntrans : ∀ a b c, less a b = false → less b c = false → less a c = false)
    (x : α) (l : List α) (h : l.Pairwise fun a b => less a b = false) :
    (sort.insertBack less x l).Pairwise fun a b => less a b = false := by
  induction l with
  | nil => simp [sort.insertBack]
  | cons y ys ih =>
    rw [List.pairwise_cons] at h
    simp only [sort.insertBack]
    split_ifs with hxy
    · rw [List.pairwise_cons]
      refine ⟨?_, ih h.2⟩
      intro z hz
      rcases List.mem_cons.1 ((insertBack_perm less x ys).mem_iff.1 hz) with rfl | hz
      · exact asym _ _ hxy
      · exact h.1 z hz
    · rw [List.pairwise_cons]
      refine ⟨?_, List.pairwise_cons.2 h⟩
      intro z hz
      have hxy' : less x y = false := by simpa using hxy
      rcases List.mem_cons.1 hz with rfl | hz
      · exact hxy'
      · exact ntrans _ _ _ hxy' (h.1 z hz)

theorem foldl_insertBack_pairwise {α : Type} (less : α → α → Bool)
    (asym : ∀ a b, less a b = true → less b a = false)
    (ntrans : ∀ a b c, less a b = false → less b c = false → less a c = false)
    (l done : List α) (h : done.Pairwise fun a b => less a b = false) :
    (l.foldl (fun done x => sort.insertBack less x done) done).Pairwise
      fun a b => less a b = false := by
  induction l generalizing done with
  | nil => simpa
  | cons x xs ih => exact ih _ (insertBack_pairwise less asym ntrans x done h)

/-- Element 0 of a sorted slice is an element that none of the others precedes. -/
theorem Slice_head {α : Type} (less : α → α → Bool)
    (asym : ∀ a b, less a b = true → less b a = false)
    (ntrans : ∀ a b c, less a b = false → less b c = false → less a c = false)
    (l : List α) (first : α) (rest : List α) (h : sort.Slice less l = first :: rest) :
    first ∈ l ∧ ∀ x ∈ l, less x first = false := by
  have hp := Slice_perm less l
  have hs := foldl_insertBack_pairwise less asym ntrans l [] List.Pairwise.nil
  have hs' : (sort.Slice less l).Pairwise fun a b => less b a = false := by
    unfold sort.Slice
    exact List.pairwise_reverse.2 hs
  rw [h] at hp hs'
  rw [List.pairwise_cons] at hs'
  refine ⟨hp.mem_iff.1 (by simp), ?_⟩
  intro x hx
  rcases List.mem_cons.1 (hp.mem_iff.2 hx) with rfl | hx'
  · cases hxx : less x x
    · rfl
    · have := asym _ _ hxx; rw [hxx] at this; exact absurd this (by simp)
  · exact hs'.1 x hx'

theorem appendEach_eq {α : Type} (keep : α → Bool) (out l : List α) :
    appendEach keep out l = out ++ l.filter keep := by
  induction l generalizing out with
  | nil => simp [appendEach]
  | cons r rest ih =>
    rw [appendEach, ih]
    by_cases h : keep r = true
    · simp [h, List.filter_cons]
    · simp [h, List.filter_cons]

theorem sameNameLoop_map_some (ref : dockref) (l sameName : List dockref) :
    sameNameLoop ref sameName (l.map some) =
      some (sameName ++ l.filter fun r => ref.Name == r.Name) := by
  induction l generalizing sameName with
  | nil => simp [sameNameLoop]
  | cons r rest ih =>
    rw [List.map_cons, sameNameLoop, ih]
    by_cases h : (ref.Name == r.Name) = true
    · simp [h, List.filter_cons]
    · simp [h, List.filter_cons]

theorem removeEmpty_eq (refs : List dockref) :
    removeEmpty refs = refs.filter fun r => !(r.Tag == "") := by
  simp [removeEmpty, appendEach_eq]

theorem removeLatest_eq (refs : List dockref) :
    removeLatest refs = refs.filter fun r => !(r.Tag == "latest") := by
  simp [removeLatest, appendEach_eq]

theorem Slice_ne_nil {α : Type} (less : α → α → Bool) (l : List α) (h : l ≠ []) :
    sort.Slice less l ≠ [] := by
  intro h0
  have := (Slice_perm less l).length_eq
  rw [h0] at this
  cases l with
  | nil => exact h rfl
  | cons a t => simp at this

theorem chooseLongest_nil : chooseLongest [] = Outcome.panic := rfl

theorem chooseLongest_spec (nonLatest : List dockref) (h : nonLatest ≠ []) :
    ∃ best, chooseLongest nonLatest = Outcome.ok best ∧ best ∈ nonLatest ∧
      (∀ x ∈ nonLatest, tagLen x ≤ tagLen best) ∧
      (∀ x ∈ nonLatest, tagLen x = tagLen best →
        strings.Compare x.Tag.data best.Tag.data ≤ 0) := by
  unfold chooseLongest filterNonLongest
  simp only [appendEach_eq, List.nil_append]
  cases h1 : sort.Slice (fun a b => decide (tagLen a > tagLen b)) nonLatest with
  | nil => exact absurd h1 (Slice_ne_nil _ _ h)
  | cons first rest =>
    have hp1 := Slice_perm (fun a b => decide (tagLen a > tagLen b)) nonLatest
    obtain ⟨hfm, hfmax⟩ := Slice_head (fun a b : dockref => decide (tagLen a > tagLen b))
      (by intro a b; simp; omega) (by intro a b c; simp; omega) nonLatest first rest h1
    simp only [decide_eq_false_iff_not, not_lt, gt_iff_lt] at hfmax
    rw [h1] at hp1
    simp only
    have hmemL : ∀ x, x ∈ (first :: rest).filter (fun r => decide (tagLen r = tagLen first)) ↔
        x ∈ nonLatest ∧ tagLen x = tagLen first := by
      intro x
      rw [List.mem_filter, hp1.mem_iff]
      simp
    have hLne : (first :: rest).filter (fun r => decide (tagLen r = tagLen first)) ≠ [] := by
      intro h0
      have : first ∈ (first :: rest).filter (fun r => decide (tagLen r = tagLen first)) :=
        (hmemL first).2 ⟨hfm, rfl⟩
      rw [h0] at this
      simp at this
    cases h2 : sort.Slice (fun a b : dockref => decide (strings.Compare a.Tag.data b.Tag.data > 0))
        ((first :: rest).filter (fun r => decide (tagLen r = tagLen first))) with
    | nil => exact absurd h2 (Slice_ne_nil _ _ hLne)
    | cons best tl =>
      have hc := strings_Compare_isCmp
      obtain ⟨hbm, hbmax⟩ := Slice_head
        (fun a b : dockref => decide (strings.Compare a.Tag.data b.Tag.data > 0))
        (by
          intro a b
          have := hc.swap a.Tag.data b.Tag.data
          simp only [gt_iff_lt, decide_eq_true_eq, decide_eq_false_iff_not, not_lt]
          omega)
        (by
          intro a b c
          have := hc.trans c.Tag.data b.Tag.data a.Tag.data
          have := hc.swap a.Tag.data b.Tag.data
          have := hc.swap b.Tag.data c.Tag.data
          have := hc.swap a.Tag.data c.Tag.data
          simp only [gt_iff_lt, decide_eq_false_iff_not, not_lt]
          omega)
        _ best tl h2
      simp only [decide_eq_false_iff_not, not_lt, gt_iff_lt] at hbmax
      have hb := (hmemL best).1 hbm
      refine ⟨best, rfl, hb.1, ?_, ?_⟩
      · intro x hx
        rw [hb.2]
        exact hfmax x hx
      · intro x hx hlen
        exact hbmax x ((hmemL x).2 ⟨hx, by rw [hlen, hb.2]⟩)

/-! ### The selector: the loops -/

theorem keepNew_mem {seen : List String} {l : List dockref} {x : dockref}
    (h : x ∈ keepNew seen l) : x ∈ l ∧ x.Tag ∉ seen := by
  induction l generalizing seen with
  | nil => simp [keepNew] at h
  | cons r rest ih =>
    simp only [keepNew] at h
    split_ifs at h with hr
    · have := ih h
      exact ⟨List.mem_cons_of_mem _ this.1, this.2⟩
    · rcases List.mem_cons.1 h with rfl | h
      · exact ⟨List.mem_cons_self _ _, hr⟩
      · have := ih h
        refine ⟨List.mem_cons_of_mem _ this.1, ?_⟩
        intro hx
        exact this.2 (List.mem_cons_of_mem _ hx)

theorem keepNew_tag_mem (seen : List String) {l : List dockref} {x : dockref}
    (hx : x ∈ l) (hs : x.Tag ∉ seen) : ∃ y ∈ keepNew seen l, y.Tag = x.Tag := by
  induction l generalizing seen with
  | nil => simp at hx
  | cons r rest ih =>
    simp only [keepNew]
    split_ifs with hr
    · rcases List.mem_cons.1 hx with rfl | hx
      · exact absurd hr hs
      · exact ih seen hx hs
    · rcases List.mem_cons.1 hx with rfl | hx
      · exact ⟨x, List.mem_cons_self _ _, rfl⟩
      · by_cases he : x.Tag = r.Tag
        · exact ⟨r, List.mem_cons_self _ _, he.symm⟩
        · obtain ⟨y, hy, hyt⟩ := ih (r.Tag :: seen) hx (by simp [he, hs])
          exact ⟨y, List.mem_cons_of_mem _ hy, hyt⟩

theorem keepNew_nodup (seen : List String) (l : List dockref) :
    ((keepNew seen l).map dockref.Tag).Nodup := by
  induction l generalizing seen with
  | nil => simp [keepNew]
  | cons r rest ih =>
    simp only [keepNew]
    split_ifs with hr
    · exact ih seen
    · rw [List.map_cons, List.nodup_cons]
      refine ⟨?_, ih _⟩
      intro hm
      obtain ⟨y, hy, hyt⟩ := List.mem_map.1 hm
      exact (keepNew_mem hy).2 (by simp [hyt])

theorem keepNew_find {seen : List String} {l : List dockref} {x : dockref}
    (h : x ∈ keepNew seen l) : l.find? (fun y => y.Tag == x.Tag) = some x := by
  induction l generalizing seen with
  | nil => simp [keepNew] at h
  | cons r rest ih =>
    simp only [keepNew] at h
    split_ifs at h with hr
    · have hne : r.Tag ≠ x.Tag := by
        intro he; exact (keepNew_mem h).2 (he ▸ hr)
      rw [List.find?_cons_of_neg _ (by simpa using hne)]
      exact ih h
    · rcases List.mem_cons.1 h with rfl | h
      · simp
      · have hne : r.Tag ≠ x.Tag := by
          intro he; exact (keepNew_mem h).2 (by simp [he])
        rw [List.find?_cons_of_neg _ (by simpa using hne)]
        exact ih h

theorem keepNew_congr {s1 s2 : List String} (h : ∀ t, t ∈ s1 ↔ t ∈ s2) (l : List dockref) :
    keepNew s1 l = keepNew s2 l := by
  induction l generalizing s1 s2 with
  | nil => rfl
  | cons r rest ih =>
    simp only [keepNew]
    by_cases hr : r.Tag ∈ s1
    · rw [if_pos hr, if_pos ((h _).1 hr)]
      exact ih h
    · rw [if_neg hr, if_neg (fun h2 => hr ((h _).2 h2))]
      congr 1
      apply ih
      intro t
      simp [h t]

theorem keepNew_append (seen : List String) (a b : List dockref) :
    keepNew seen (a ++ b) = keepNew seen a ++ keepNew (a.map dockref.Tag ++ seen) b := by
  induction a generalizing seen with
  | nil => simp [keepNew]
  | cons r rest ih =>
    simp only [List.cons_append, keepNew, List.map_cons, List.append_eq]
    by_cases hr : r.Tag ∈ seen
    · rw [if_pos hr, if_pos hr, ih]
      congr 1
      apply keepNew_congr
      intro t
      simp only [List.mem_append, List.mem_cons]
      constructor
      · intro h; exact Or.inr h
      · rintro (h | h)
        · exact Or.inr (h ▸ hr)
        · exact h
    · rw [if_neg hr, if_neg hr, ih, List.cons_append]
      congr 2
      apply keepNew_congr
      intro t
      simp only [List.mem_append, List.mem_cons]
      tauto

theorem bestSemVer_eq (refs : List dockref) :
    bestSemVer refs = ((refs.foldl bestSemVerStep ⟨[], none, semver.Version.zero⟩).nonSemVer,
      (refs.foldl bestSemVerStep ⟨[], none, semver.Version.zero⟩).best) := rfl

theorem fold_nonSemVer (l : List dockref) (st : BestState) :
    (l.foldl bestSemVerStep st).nonSemVer =
      st.nonSemVer ++ l.filter (fun r => (parseVeryTolerant r.Tag).isNone) := by
  induction l generalizing st with
  | nil => simp
  | cons r rest ih =>
    rw [List.foldl_cons, ih]
    unfold bestSemVerStep
    cases hp : parseVeryTolerant r.Tag with
    | none => simp [List.filter_cons, hp]
    | some v =>
      simp only [List.filter_cons, hp, Option.isNone_some, Bool.false_eq_true, if_false]
      split_ifs <;> rfl

theorem fold_best (l : List dockref) (st : BestState) :
    0 ≤ (l.foldl bestSemVerStep st).bestSemver.Compare st.bestSemver ∧
    (∀ x ∈ l, ∀ w, parseVeryTolerant x.Tag = some w →
      0 ≤ (l.foldl bestSemVerStep st).bestSemver.Compare w) ∧
    (((l.foldl bestSemVerStep st).best = st.best ∧
        (l.foldl bestSemVerStep st).bestSemver = st.bestSemver) ∨
      ∃ b ∈ l, (l.foldl bestSemVerStep st).best = some b ∧
        parseVeryTolerant b.Tag = some (l.foldl bestSemVerStep st).bestSemver) := by
  have hc := Version_Compare_isCmp
  induction l generalizing st with
  | nil =>
    refine ⟨?_, ?_, Or.inl ⟨rfl, rfl⟩⟩
    · simp [hc.refl]
    · simp
  | cons r rest ih =>
    rw [List.foldl_cons]
    obtain ⟨ha, hb, hcc⟩ := ih (bestSemVerStep st r)
    cases hp : parseVeryTolerant r.Tag with
    | none =>
      have h1 : (bestSemVerStep st r).best = st.best := by simp [bestSemVerStep, hp]
      have h2 : (bestSemVerStep st r).bestSemver = st.bestSemver := by simp [bestSemVerStep, hp]
      rw [h1, h2] at hcc
      rw [h2] at ha
      refine ⟨ha, ?_, ?_⟩
      · intro x hx w hw
        rcases List.mem_cons.1 hx with rfl | hx
        · rw [hp] at hw; exact absurd hw (by simp)
        · exact hb x hx w hw
      · rcases hcc with h | ⟨b, hbm, h⟩
        · exact Or.inl h
        · exact Or.inr ⟨b, List.mem_cons_of_mem _ hbm, h⟩
    | some v =>
      by_cases hge : v.Compare st.bestSemver ≥ 0
      · have h1 : (bestSemVerStep st r).best = some r := by simp [bestSemVerStep, hp, hge]
        have h2 : (bestSemVerStep st r).bestSemver = v := by simp [bestSemVerStep, hp, hge]
        rw [h1, h2] at hcc
        rw [h2] at ha
        refine ⟨hc.trans _ _ _ ha hge, ?_, ?_⟩
        · intro x hx w hw
          rcases List.mem_cons.1 hx with rfl | hx
          · have hvw : v = w := by rw [hp] at hw; exact Option.some.inj hw
            subst hvw; exact ha
          · exact hb x hx w hw
        · rcases hcc with h | ⟨b, hbm, h⟩
          · exact Or.inr ⟨r, List.mem_cons_self _ _, h.1, by rw [h.2]; exact hp⟩
          · exact Or.inr ⟨b, List.mem_cons_of_mem _ hbm, h⟩
      · have h0 : bestSemVerStep st r = st := by simp [bestSemVerStep, hp, hge]
        rw [h0] at ha hb hcc ⊢
        refine ⟨ha, ?_, ?_⟩
        · intro x hx w hw
          rcases List.mem_cons.1 hx with rfl | hx
          · have hvw : v = w := by rw [hp] at hw; exact Option.some.inj hw
            subst hvw
            have := hc.swap v st.bestSemver
            exact hc.trans _ _ _ ha (by omega)
          · exact hb x hx w hw
        · rcases hcc with h | ⟨b, hbm, h⟩
          · exact Or.inl h
          · exact Or.inr ⟨b, List.mem_cons_of_mem _ hbm, h⟩

theorem fold_best_isSome (l : List dockref) (st : BestState) (h : st.best ≠ none) :
    (l.foldl bestSemVerStep st).best ≠ none := by
  induction l generalizing st with
  | nil => simpa
  | cons r rest ih =>
    rw [List.foldl_cons]
    apply ih
    unfold bestSemVerStep
    cases hp : parseVeryTolerant r.Tag with
    | none => simpa
    | some v =>
      simp only
      split_ifs
      · simp
      · exact h

theorem fold_best_keep (l : List dockref) (st : BestState)
    (h : ∀ x ∈ l, ∀ w, parseVeryTolerant x.Tag = some w → w.Compare st.bestSemver < 0) :
    (l.foldl bestSemVerStep st).best = st.best ∧
      (l.foldl bestSemVerStep st).bestSemver = st.bestSemver := by
  induction l generalizing st with
  | nil => exact ⟨rfl, rfl⟩
  | cons r rest ih =>
    rw [List.foldl_cons]
    cases hp : parseVeryTolerant r.Tag with
    | none =>
      have h1 : (bestSemVerStep st r).best = st.best := by simp [bestSemVerStep, hp]
      have h2 : (bestSemVerStep st r).bestSemver = st.bestSemver := by simp [bestSemVerStep, hp]
      have := ih (bestSemVerStep st r) (by
        intro x hx w hw; rw [h2]; exact h x (List.mem_cons_of_mem _ hx) w hw)
      rw [h1, h2] at this
      exact this
    | some v =>
      have hlt := h r (List.mem_cons_self _ _) v hp
      have h0 : bestSemVerStep st r = st := by
        simp only [bestSemVerStep, hp]
        rw [if_neg (by omega)]
      rw [h0]
      exact ih st (fun x hx w hw => h x (List.mem_cons_of_mem _ hx) w hw)

theorem bestSemVer_fst (refs : List dockref) :
    (bestSemVer refs).1 = refs.filter (fun r => (parseVeryTolerant r.Tag).isNone) := by
  rw [bestSemVer_eq]
  simp [fold_nonSemVer]

theorem fold_best_set (l : List dockref) (st : BestState)
    (h : ∃ x ∈ l, ∃ w, parseVeryTolerant x.Tag = some w ∧ 0 ≤ w.Compare st.bestSemver) :
    (l.foldl bestSemVerStep st).best ≠ none := by
  induction l generalizing st with
  | nil => simp at h
  | cons r rest ih =>
    rw [List.foldl_cons]
    cases hp : parseVeryTolerant r.Tag with
    | none =>
      have h2 : (bestSemVerStep st r).bestSemver = st.bestSemver := by simp [bestSemVerStep, hp]
      apply ih
      obtain ⟨x, hx, w, hw, hge⟩ := h
      rcases List.mem_cons.1 hx with rfl | hx
      · rw [hp] at hw; exact absurd hw (by simp)
      · exact ⟨x, hx, w, hw, by rw [h2]; exact hge⟩
    | some v =>
      by_cases hge : v.Compare st.bestSemver ≥ 0
      · apply fold_best_isSome
        simp [bestSemVerStep, hp, hge]
      · have h0 : bestSemVerStep st r = st := by simp [bestSemVerStep, hp, hge]
        rw [h0]
        apply ih
        obtain ⟨x, hx, w, hw, hge2⟩ := h
        rcases List.mem_cons.1 hx with rfl | hx
        · have hvw : v = w := by rw [hp] at hw; exact Option.some.inj hw
          subst hvw
          exact absurd hge2 hge
        · exact ⟨x, hx, w, hw, hge2⟩

theorem bestSemVer_snd_none_iff (refs : List dockref) :
    (bestSemVer refs).2 = none ↔
      ∀ x ∈ refs, ∀ w, parseVeryTolerant x.Tag = some w → w.Compare semver.Version.zero < 0 := by
  rw [bestSemVer_eq]
  simp only
  constructor
  · intro h x hx w hw
    by_contra hge
    exact fold_best_set refs ⟨[], none, semver.Version.zero⟩ ⟨x, hx, w, hw, by simpa using hge⟩ h
  · intro h
    exact (fold_best_keep refs ⟨[], none, semver.Version.zero⟩ h).1

theorem bestSemVer_snd_some {refs : List dockref} {b : dockref} (h : (bestSemVer refs).2 = some b) :
    b ∈ refs ∧ ∃ v, parseVeryTolerant b.Tag = some v ∧
      ∀ x ∈ refs, ∀ w, parseVeryTolerant x.Tag = some w → 0 ≤ v.Compare w := by
  rw [bestSemVer_eq] at h
  simp only at h
  obtain ⟨_, hb, hcc⟩ := fold_best refs ⟨[], none, semver.Version.zero⟩
  rcases hcc with ⟨h1, _⟩ | ⟨b', hbm, h1, h2⟩
  · rw [h] at h1; exact absurd h1 (by simp)
  · rw [h] at h1
    have : b = b' := Option.some.inj h1
    subst this
    exact ⟨hbm, _, h2, hb⟩

theorem uniqueTags_map_some (l : List dockref) (seen : List String) (unique : List dockref) :
    uniqueTags seen unique (l.map some) = some (unique ++ keepNew seen l) := by
  induction l generalizing seen unique with
  | nil => simp [uniqueTags, keepNew]
  | cons r rest ih =>
    simp only [List.map_cons, uniqueTags, keepNew]
    split
    · exact ih _ _
    · rw [ih]; simp

theorem MostPreciseTag_eq (l : List dockref) :
    MostPreciseTag (some (l.map some)) =
      match keepNew [] l with
      | [r] => .ok r
      | refs =>
        match bestSemVer refs with
        | (_, some best) => .ok best
        | (nonSemVer, none) => chooseNonSemVer nonSemVer := by
  simp only [MostPreciseTag, uniqueTags_map_some, List.nil_append]
  generalize keepNew [] l = U
  rcases U with _ | ⟨r, _ | ⟨r2, t⟩⟩
  · rfl
  · rfl
  · rfl


theorem chooseLongest_mem {l : List dockref} {r : dockref} (h : chooseLongest l = Outcome.ok r) :
    r ∈ l := by
  cases l with
  | nil => simp [chooseLongest_nil] at h
  | cons a t =>
    obtain ⟨b, hb, hm, _⟩ := chooseLongest_spec (a :: t) (by simp)
    rw [hb] at h
    cases h
    exact hm

theorem chooseNonSemVer_cases (N : List dockref) :
    (∃ r, removeEmpty N = [r] ∧ chooseNonSemVer N = Outcome.ok r) ∨
    ((∀ r, removeEmpty N ≠ [r]) ∧
      ((∃ r, removeLatest (removeEmpty N) = [r] ∧ chooseNonSemVer N = Outcome.ok r) ∨
       ((∀ r, removeLatest (removeEmpty N) ≠ [r]) ∧
          chooseNonSemVer N = chooseLongest (removeLatest (removeEmpty N))))) := by
  unfold chooseNonSemVer
  rcases h1 : removeEmpty N with _ | ⟨a, _ | ⟨a2, t⟩⟩
  · right
    refine ⟨by simp, ?_⟩
    dsimp only
    rcases h2 : removeLatest [] with _ | ⟨c, _ | ⟨c2, u⟩⟩
    · right; exact ⟨by simp, rfl⟩
    · left; exact ⟨c, rfl, rfl⟩
    · right; exact ⟨by simp, rfl⟩
  · left; exact ⟨a, rfl, rfl⟩
  · right
    refine ⟨by simp, ?_⟩
    dsimp only
    rcases h2 : removeLatest (a :: a2 :: t) with _ | ⟨c, _ | ⟨c2, u⟩⟩
    · right; exact ⟨by simp, rfl⟩
    · left; exact ⟨c, rfl, rfl⟩
    · right; exact ⟨by simp, rfl⟩

theorem chooseNonSemVer_mem {N : List dockref} {r : dockref} (h : chooseNonSemVer N = Outcome.ok r) :
    r ∈ N := by
  have hE : ∀ x, x ∈ removeEmpty N → x ∈ N := by
    intro x hx
    rw [removeEmpty_eq] at hx
    exact (List.mem_filter.1 hx).1
  have hL : ∀ x, x ∈ removeLatest (removeEmpty N) → x ∈ N := by
    intro x hx
    rw [removeLatest_eq] at hx
    exact hE x (List.mem_filter.1 hx).1
  rcases chooseNonSemVer_cases N with ⟨r', h1, h2⟩ | ⟨_, ⟨r', h1, h2⟩ | ⟨_, h2⟩⟩
  · rw [h2] at h; cases h
    exact hE _ (by rw [h1]; simp)
  · rw [h2] at h; cases h
    exact hL _ (by rw [h1]; simp)
  · rw [h2] at h
    exact hL _ (chooseLongest_mem h)

theorem MostPreciseTag_cases (l : List dockref) :
    (∃ r, keepNew [] l = [r] ∧ MostPreciseTag (some (l.map some)) = Outcome.ok r) ∨
    ((∀ r, keepNew [] l ≠ [r]) ∧
      ((∃ b, (bestSemVer (keepNew [] l)).2 = some b ∧
          MostPreciseTag (some (l.map some)) = Outcome.ok b) ∨
       ((bestSemVer (keepNew [] l)).2 = none ∧
          MostPreciseTag (some (l.map some)) = chooseNonSemVer (bestSemVer (keepNew [] l)).1))) := by
  rw [MostPreciseTag_eq]
  rcases h1 : keepNew [] l with _ | ⟨a, _ | ⟨a2, t⟩⟩
  · right
    refine ⟨by simp, ?_⟩
    dsimp only
    rcases h2 : bestSemVer [] with ⟨N, _ | b⟩
    · right; exact ⟨rfl, rfl⟩
    · left; exact ⟨b, rfl, rfl⟩
  · left; exact ⟨a, rfl, rfl⟩
  · right
    refine ⟨by simp, ?_⟩
    dsimp only
    rcases h2 : bestSemVer (a :: a2 :: t) with ⟨N, _ | b⟩
    · right; exact ⟨rfl, rfl⟩
    · left; exact ⟨b, rfl, rfl⟩



theorem parseVeryTolerant_empty : parseVeryTolerant "" = none := by decide

theorem parseVeryTolerant_latest : parseVeryTolerant "latest" = none := by decide

theorem removeEmpty_mem {N : List dockref} {x : dockref} :
    x ∈ removeEmpty N ↔ x ∈ N ∧ x.Tag ≠ "" := by
  simp [removeEmpty_eq, List.mem_filter]

theorem removeLatest_mem {N : List dockref} {x : dockref} :
    x ∈ removeLatest N ↔ x ∈ N ∧ x.Tag ≠ "latest" := by
  simp [removeLatest_eq, List.mem_filter]

theorem removeEmpty_tags (N : List dockref) :
    (removeEmpty N).map dockref.Tag = (N.map dockref.Tag).filter fun s => !(s == "") := by
  rw [removeEmpty_eq, List.filter_map]; rfl

theorem removeLatest_tags (N : List dockref) :
    (removeLatest N).map dockref.Tag = (N.map dockref.Tag).filter fun s => !(s == "latest") := by
  rw [removeLatest_eq, List.filter_map]; rfl

theorem nonSemVer_tags (U : List dockref) :
    ((bestSemVer U).1).map dockref.Tag =
      (U.map dockref.Tag).filter fun s => (parseVeryTolerant s).isNone := by
  rw [bestSemVer_fst, List.filter_map]; rfl

/-- A list of references with pairwise distinct tags, all equal to that of one of
its elements, is that element alone. -/
theorem eq_singleton_of_same_tag {L : List dockref} {r : dockref}
    (hn : (L.map dockref.Tag).Nodup) (hr : r ∈ L) (hall : ∀ x ∈ L, x.Tag = r.Tag) : L = [r] := by
  cases L with
  | nil => simp at hr
  | cons a rest =>
    rw [List.map_cons, List.nodup_cons] at hn
    have hrest : rest = [] := by
      cases rest with
      | nil => rfl
      | cons b rest' =>
        exfalso
        apply hn.1
        rw [hall a (by simp), ← hall b (by simp)]
        simp
    subst hrest
    simp at hr
    rw [hr]

theorem keepNew_same_tag (t : String) (seen : List String) (ht : t ∈ seen) (rest : List dockref)
    (h : ∀ x ∈ rest, x.Tag = t) : keepNew seen rest = [] := by
  induction rest with
  | nil => rfl
  | cons x xs ih =>
    have hx : x.Tag = t := h x (by simp)
    simp only [keepNew, hx, ht, if_true]
    exact ih (fun y hy => h y (by simp [hy]))

theorem ParseTolerant_empty : semver.ParseTolerant "" = none := by decide


theorem keepNew_tags_mem_iff (l : List dockref) (s : String) :
    s ∈ (keepNew [] l).map dockref.Tag ↔ s ∈ l.map dockref.Tag := by
  simp only [List.mem_map]
  constructor
  · rintro ⟨x, hx, rfl⟩
    exact ⟨x, (keepNew_mem hx).1, rfl⟩
  · rintro ⟨x, hx, rfl⟩
    exact keepNew_tag_mem [] hx (by simp)

theorem keepNew_tags_perm {l l' : List dockref} (hp : l.Perm l') :
    ((keepNew [] l).map dockref.Tag).Perm ((keepNew [] l').map dockref.Tag) := by
  rw [List.perm_ext_iff_of_nodup (keepNew_nodup [] l) (keepNew_nodup [] l')]
  intro s
  rw [keepNew_tags_mem_iff, keepNew_tags_mem_iff]
  exact (hp.map dockref.Tag).mem_iff

theorem tags_perm_mem {A B : List dockref} (h : (A.map dockref.Tag).Perm (B.map dockref.Tag))
    {x : dockref} (hx : x ∈ A) : ∃ y ∈ B, y.Tag = x.Tag := by
  have : x.Tag ∈ B.map dockref.Tag := h.mem_iff.1 (List.mem_map_of_mem _ hx)
  obtain ⟨y, hy, hyt⟩ := List.mem_map.1 this
  exact ⟨y, hy, hyt⟩

theorem tags_perm_single {A B : List dockref} (h : (A.map dockref.Tag).Perm (B.map dockref.Tag))
    {a : dockref} (hA : A = [a]) : ∃ b, B = [b] ∧ b.Tag = a.Tag := by
  subst hA
  have hl := h.length_eq
  simp only [List.map_cons, List.map_nil, List.length_cons, List.length_nil, List.length_map] at hl
  rcases B with _ | ⟨b, _ | ⟨b2, t⟩⟩
  · simp at hl
  · refine ⟨b, rfl, ?_⟩
    have := h.mem_iff.2 (List.mem_map_of_mem dockref.Tag (List.mem_singleton_self b))
    simpa using this
  · simp at hl

theorem chooseLongest_tags_perm {A B : List dockref}
    (h : (A.map dockref.Tag).Perm (B.map dockref.Tag)) :
    outTag (chooseLongest A) = outTag (chooseLongest B) := by
  have hc := strings_Compare_isCmp
  by_cases hA : A = []
  · subst hA
    have hB : B = [] := by
      have := h.length_eq
      simpa using this.symm
    subst hB
    rfl
  · have hB : B ≠ [] := by
      intro hB
      subst hB
      have := h.length_eq
      simp at this
      exact hA this
    obtain ⟨a, ha, ham, halen, halex⟩ := chooseLongest_spec A hA
    obtain ⟨b, hb, hbm, hblen, hblex⟩ := chooseLongest_spec B hB
    rw [ha, hb]
    simp only [outTag]
    obtain ⟨a', ha', hat⟩ := tags_perm_mem h ham
    obtain ⟨b', hb', hbt⟩ := tags_perm_mem h.symm hbm
    have h1 := hblen a' ha'
    have h2 := halen b' hb'
    simp only [tagLen, hat, hbt] at h1 h2
    have hlen : a.Tag.utf8ByteSize = b.Tag.utf8ByteSize := Nat.le_antisymm h1 h2
    have h3 := hblex a' ha' (by simp only [tagLen, hat]; exact hlen)
    have h4 := halex b' hb' (by simp only [tagLen, hbt]; exact hlen.symm)
    rw [hat] at h3
    rw [hbt] at h4
    have hs := hc.swap a.Tag.data b.Tag.data
    have h0 : strings.Compare a.Tag.data b.Tag.data = 0 := by omega
    congr 1
    exact String.ext (strings_Compare_eq_zero _ _ h0)

theorem chooseNonSemVer_tags_perm {A B : List dockref}
    (h : (A.map dockref.Tag).Perm (B.map dockref.Tag)) :
    outTag (chooseNonSemVer A) = outTag (chooseNonSemVer B) := by
  have hE : ((removeEmpty A).map dockref.Tag).Perm ((removeEmpty B).map dockref.Tag) := by
    rw [removeEmpty_tags, removeEmpty_tags]; exact h.filter _
  have hL : ((removeLatest (removeEmpty A)).map dockref.Tag).Perm
      ((removeLatest (removeEmpty B)).map dockref.Tag) := by
    rw [removeLatest_tags, removeLatest_tags]; exact hE.filter _
  rcases chooseNonSemVer_cases A with ⟨a, h1, h2⟩ | ⟨h1, ⟨a, h2, h3⟩ | ⟨h2, h3⟩⟩
  · obtain ⟨b, hb, hbt⟩ := tags_perm_single hE h1
    rcases chooseNonSemVer_cases B with ⟨b', h4, h5⟩ | ⟨h4, _⟩
    · rw [h2, h5]
      rw [hb] at h4
      have : b = b' := by simpa using h4
      subst this
      simp [outTag, hbt]
    · exact absurd hb (h4 b)
  · obtain ⟨b, hb, hbt⟩ := tags_perm_single hL h2
    rcases chooseNonSemVer_cases B with ⟨b', h4, _⟩ | ⟨_, ⟨b', h4, h5⟩ | ⟨h4, _⟩⟩
    · obtain ⟨a', ha', _⟩ := tags_perm_single hE.symm h4
      exact absurd ha' (h1 a')
    · rw [h3, h5]
      rw [hb] at h4
      have : b = b' := by simpa using h4
      subst this
      simp [outTag, hbt]
    · exact absurd hb (h4 b)
  · rcases chooseNonSemVer_cases B with ⟨b', h4, _⟩ | ⟨_, ⟨b', h4, _⟩ | ⟨_, h5⟩⟩
    · obtain ⟨a', ha', _⟩ := tags_perm_single hE.symm h4
      exact absurd ha' (h1 a')
    · obtain ⟨a', ha', _⟩ := tags_perm_single hL.symm h4
      exact absurd ha' (h2 a')
    · rw [h3, h5]
      exact chooseLongest_tags_perm hL

/-- The tag that wins when one tag has a version strictly above all others. -/
theorem best_tag_of_unique_highest {U : List dockref} {t : String} {v : semver.Version}
    (ht : ∃ x ∈ U, x.Tag = t) (hv : parseVeryTolerant t = some v)
    (hstrict : ∀ x ∈ U, x.Tag ≠ t → ∀ w, parseVeryTolerant x.Tag = some w → w.Compare v < 0)
    {b : dockref} (hb : (bestSemVer U).2 = some b) : b.Tag = t := by
  obtain ⟨hbU, vb, hvb, hmax⟩ := bestSemVer_snd_some hb
  obtain ⟨x, hx, hxt⟩ := ht
  by_contra hne
  have h1 := hstrict b hbU hne vb hvb
  have h2 := hmax x hx v (by rw [hxt]; exact hv)
  have := Version_Compare_isCmp.swap vb v
  omega

/-! ### The selector: the claims -/

/-- Claim C1, at its failing inputs.  The tag `0.0.0-alpha` is semver-parseable and
`foo` is not; on the candidates `0.0.0-alpha`, `foo` the selector returns `foo`, and
on the candidates `0.0.0-alpha`, `0.0.0-beta` it panics.  The loop of `bestSemVer`
compares every version with the zero value `0.0.0`, which a prerelease of `0.0.0`
is below, so `best` stays nil. -/
theorem C1_prerelease_of_zero_loses :
    (parseVeryTolerant "0.0.0-alpha").isSome = true ∧ parseVeryTolerant "foo" = none ∧
    MostPreciseTag (some [some (tagged "0.0.0-alpha"), some (tagged "foo")]) =
      Outcome.ok (tagged "foo") ∧
    MostPreciseTag (some [some (tagged "0.0.0-alpha"), some (tagged "0.0.0-beta")]) =
      Outcome.panic := by
  decide

/-- Claim C2: when `MostPreciseTag` returns a candidate whose tag is
semver-parseable, the version of that tag is greater than or equal to the version
of every semver-parseable candidate tag of the list. -/
theorem C2_returned_semver_is_highest (l : List dockref) (r : dockref) (v : semver.Version)
    (hret : MostPreciseTag (some (l.map some)) = Outcome.ok r)
    (hv : parseVeryTolerant r.Tag = some v) :
    ∀ c ∈ l, ∀ w, parseVeryTolerant c.Tag = some w → 0 ≤ v.Compare w := by
  intro c hc w hw
  obtain ⟨y, hy, hyt⟩ := keepNew_tag_mem [] hc (by simp)
  rw [← hyt] at hw
  rcases MostPreciseTag_cases l with ⟨r', h1, h2⟩ | ⟨_, ⟨b, h1, h2⟩ | ⟨h1, h2⟩⟩
  · rw [h2] at hret; cases hret
    rw [h1] at hy
    have : y = r := by simpa using hy
    subst this
    rw [hv] at hw
    have : v = w := Option.some.inj hw
    subst this
    rw [Version_Compare_isCmp.refl]
  · rw [h2] at hret; cases hret
    obtain ⟨_, v', hv', hmax⟩ := bestSemVer_snd_some h1
    rw [hv] at hv'
    have : v = v' := Option.some.inj hv'
    subst this
    exact hmax y hy w hw
  · rw [h2] at hret
    have hm := chooseNonSemVer_mem hret
    rw [bestSemVer_fst] at hm
    have := (List.mem_filter.1 hm).2
    rw [hv] at this
    simp at this

/-- The statement of C2 on the candidates `1.2.0`, `1.3.0`, `latest` and the empty tag:
the returned `1.3.0` is not below the candidate `1.2.0`. -/
theorem C2_returned_semver_is_highest_witness :
    0 ≤ (⟨1, 3, 0, [], []⟩ : semver.Version).Compare ⟨1, 2, 0, [], []⟩ :=
  C2_returned_semver_is_highest [tagged "1.2.0", tagged "1.3.0", tagged "latest", tagged ""]
    (tagged "1.3.0") ⟨1, 3, 0, [], []⟩ (by decide) (by decide)
    (tagged "1.2.0") (by decide) ⟨1, 2, 0, [], []⟩ (by decide)

/-- Claim C3, amended: a candidate `r` that is the first carrier of its tag, whose
version `v` is not below `0.0.0` and not below any version met before it, and
after which every candidate carries the tag of `r`, a tag met before `r`, or a tag
that is not semver-parseable or of a version strictly below `v`, is the one
`MostPreciseTag` returns.  Among tags of the same highest version the last one
wins, not the first. -/
theorem C3_last_of_highest_wins (pre post : List dockref) (r : dockref) (v : semver.Version)
    (hfirst : ∀ x ∈ pre, x.Tag ≠ r.Tag)
    (hv : parseVeryTolerant r.Tag = some v)
    (h0 : 0 ≤ v.Compare semver.Version.zero)
    (hpre : ∀ x ∈ pre, ∀ w, parseVeryTolerant x.Tag = some w → 0 ≤ v.Compare w)
    (hpost : ∀ x ∈ post, x.Tag = r.Tag ∨ (∃ y ∈ pre, y.Tag = x.Tag) ∨
      ∀ w, parseVeryTolerant x.Tag = some w → w.Compare v < 0) :
    MostPreciseTag (some ((pre ++ r :: post).map some)) = Outcome.ok r := by
  have hU : keepNew [] (pre ++ r :: post) =
      keepNew [] pre ++ r :: keepNew (r.Tag :: (pre.map dockref.Tag ++ [])) post := by
    rw [keepNew_append]
    congr 1
    simp only [keepNew]
    rw [if_neg]
    intro hm
    simp only [List.append_nil, List.mem_map] at hm
    obtain ⟨x, hx, hxt⟩ := hm
    exact hfirst x hx hxt
  have hbest : (bestSemVer (keepNew [] (pre ++ r :: post))).2 = some r := by
    rw [bestSemVer_eq, hU, List.foldl_append, List.foldl_cons]
    simp only
    obtain ⟨_, _, h1⟩ := fold_best (keepNew [] pre) ⟨[], none, semver.Version.zero⟩
    have hge : 0 ≤ v.Compare
        ((keepNew [] pre).foldl bestSemVerStep ⟨[], none, semver.Version.zero⟩).bestSemver := by
      rcases h1 with ⟨_, h1⟩ | ⟨b, hb, _, h1⟩
      · rw [h1]; exact h0
      · exact hpre b (keepNew_mem hb).1 _ h1
    have hstep : bestSemVerStep
        ((keepNew [] pre).foldl bestSemVerStep ⟨[], none, semver.Version.zero⟩) r =
        { (keepNew [] pre).foldl bestSemVerStep ⟨[], none, semver.Version.zero⟩ with
          bestSemver := v, best := some r } := by
      simp only [bestSemVerStep, hv]
      rw [if_pos hge]
    rw [hstep]
    refine (fold_best_keep _ _ ?_).1
    intro x hx w hw
    have hxm := keepNew_mem hx
    rcases hpost x hxm.1 with h | ⟨y, hy, hyt⟩ | h
    · exact absurd (by simp [h]) hxm.2
    · exfalso
      apply hxm.2
      simp only [List.append_nil, List.mem_cons, List.mem_map]
      exact Or.inr ⟨y, hy, hyt⟩
    · exact h w hw
  rcases MostPreciseTag_cases (pre ++ r :: post) with ⟨r', h1, h2⟩ | ⟨_, ⟨b, h1, h2⟩ | ⟨h1, _⟩⟩
  · rw [h2]
    have hr : r ∈ keepNew [] (pre ++ r :: post) := by rw [hU]; simp
    rw [h1] at hr
    have : r = r' := by simpa using hr
    rw [this]
  · rw [h2, ← Option.some.inj (hbest.symm.trans h1)]
  · rw [hbest] at h1; exact absurd h1 (by simp)

/-- The statement of C3 on the candidates `1.1`, `1.2`, `1.2.0`, `1.2`, `latest`. -/
theorem C3_last_of_highest_wins_witness :
    MostPreciseTag (some (([tagged "1.1", tagged "1.2"] ++ tagged "1.2.0" :: [tagged "1.2", tagged "latest"]).map some)) = Outcome.ok (tagged "1.2.0") :=
  C3_last_of_highest_wins [tagged "1.1", tagged "1.2"] [tagged "1.2", tagged "latest"]
    (tagged "1.2.0") ⟨1, 2, 0, [], []⟩ (by decide) (by decide) (by decide) (by decide) (by decide)

/-- Claim C3 fails as stated: `1.2` and `1.2.0` parse to the same version, and
on the candidates `1.2`, `1.2.0` the selector returns the second one. -/
theorem C3_counterexample :
    parseVeryTolerant "1.2" = parseVeryTolerant "1.2.0" ∧
    (parseVeryTolerant "1.2").isSome = true ∧
    MostPreciseTag (some [some (tagged "1.2"), some (tagged "1.2.0")]) =
      Outcome.ok (tagged "1.2.0") ∧
    MostPreciseTag (some [some (tagged "1.2"), some (tagged "1.2.0")]) ≠
      Outcome.ok (tagged "1.2") := by
  decide

/-- Claim C4, at its failing input: the nil list is answered with an error, the
empty list with a panic (`nonLatest[0]` in `filterNonLongest`). -/
theorem C4_empty_candidates_panic :
    MostPreciseTag none = Outcome.error "refs is nil" ∧ MostPreciseTag (some []) = Outcome.panic := by
  constructor <;> rfl

/-- When one tag `t` of the list has a version strictly above the version of every
other semver-parseable tag of the list, `MostPreciseTag` has the same outcome, up
to the tag of the returned candidate, on the list and on every permutation of it;
and it returns a candidate tagged `t` when that version is not below `0.0.0`. -/
theorem MostPreciseTag_perm_same_tag (l l' : List dockref) (hp : l.Perm l')
    (t : String) (v : semver.Version)
    (ht : ∃ x ∈ l, x.Tag = t) (hv : parseVeryTolerant t = some v)
    (hstrict : ∀ x ∈ l, x.Tag ≠ t → ∀ w, parseVeryTolerant x.Tag = some w → w.Compare v < 0) :
    outTag (MostPreciseTag (some (l.map some))) = outTag (MostPreciseTag (some (l'.map some))) ∧
    (0 ≤ v.Compare semver.Version.zero →
      outTag (MostPreciseTag (some (l.map some))) = Outcome.ok t) := by
  have hU := keepNew_tags_perm hp
  have htU : ∃ x ∈ keepNew [] l, x.Tag = t := by
    obtain ⟨x, hx, hxt⟩ := ht
    obtain ⟨y, hy, hyt⟩ := keepNew_tag_mem [] hx (by simp)
    exact ⟨y, hy, hyt.trans hxt⟩
  have htU' : ∃ x ∈ keepNew [] l', x.Tag = t := by
    obtain ⟨x, hx, hxt⟩ := htU
    obtain ⟨y, hy, hyt⟩ := tags_perm_mem hU hx
    exact ⟨y, hy, hyt.trans hxt⟩
  have hsU : ∀ x ∈ keepNew [] l, x.Tag ≠ t → ∀ w, parseVeryTolerant x.Tag = some w →
      w.Compare v < 0 := fun x hx => hstrict x (keepNew_mem hx).1
  have hsU' : ∀ x ∈ keepNew [] l', x.Tag ≠ t → ∀ w, parseVeryTolerant x.Tag = some w →
      w.Compare v < 0 := fun x hx => hstrict x (hp.mem_iff.2 (keepNew_mem hx).1)
  have hnone : (bestSemVer (keepNew [] l)).2 = none ↔ (bestSemVer (keepNew [] l')).2 = none := by
    rw [bestSemVer_snd_none_iff, bestSemVer_snd_none_iff]
    constructor
    · intro h x hx w hw
      obtain ⟨y, hy, hyt⟩ := tags_perm_mem hU.symm hx
      exact h y hy w (by rw [hyt]; exact hw)
    · intro h x hx w hw
      obtain ⟨y, hy, hyt⟩ := tags_perm_mem hU hx
      exact h y hy w (by rw [hyt]; exact hw)
  have hN : (((bestSemVer (keepNew [] l)).1).map dockref.Tag).Perm
      (((bestSemVer (keepNew [] l')).1).map dockref.Tag) := by
    rw [nonSemVer_tags, nonSemVer_tags]; exact hU.filter _
  constructor
  · rcases MostPreciseTag_cases l with ⟨a, h1, h2⟩ | ⟨h1, ⟨a, h2, h3⟩ | ⟨h2, h3⟩⟩
    · obtain ⟨b, hb, hbt⟩ := tags_perm_single hU h1
      rcases MostPreciseTag_cases l' with ⟨b', h4, h5⟩ | ⟨h4, _⟩
      · rw [h2, h5]
        rw [hb] at h4
        have : b = b' := by simpa using h4
        subst this
        simp [outTag, hbt]
      · exact absurd hb (h4 b)
    · rcases MostPreciseTag_cases l' with ⟨b', h4, _⟩ | ⟨_, ⟨b', h4, h5⟩ | ⟨h4, _⟩⟩
      · obtain ⟨a', ha', _⟩ := tags_perm_single hU.symm h4
        exact absurd ha' (h1 a')
      · rw [h3, h5]
        simp only [outTag]
        rw [best_tag_of_unique_highest htU hv hsU h2, best_tag_of_unique_highest htU' hv hsU' h4]
      · rw [hnone.2 h4] at h2
        exact absurd h2 (by simp)
    · rcases MostPreciseTag_cases l' with ⟨b', h4, _⟩ | ⟨_, ⟨b', h4, _⟩ | ⟨_, h5⟩⟩
      · obtain ⟨a', ha', _⟩ := tags_perm_single hU.symm h4
        exact absurd ha' (h1 a')
      · rw [hnone.1 h2] at h4
        exact absurd h4 (by simp)
      · rw [h3, h5]
        exact chooseNonSemVer_tags_perm hN
  · intro h0
    rcases MostPreciseTag_cases l with ⟨a, h1, h2⟩ | ⟨_, ⟨a, h2, h3⟩ | ⟨h2, _⟩⟩
    · rw [h2]
      obtain ⟨x, hx, hxt⟩ := htU
      rw [h1] at hx
      have : x = a := by simpa using hx
      subst this
      simp [outTag, hxt]
    · rw [h3]
      simp only [outTag]
      rw [best_tag_of_unique_highest htU hv hsU h2]
    · exfalso
      obtain ⟨x, hx, hxt⟩ := htU
      have := (bestSemVer_snd_none_iff _).1 h2 x hx v (by rw [hxt]; exact hv)
      omega

/-- When the highest version is not below `0.0.0`, `MostPreciseTag` returns a
candidate with the tag of that version on the list and on every permutation of
it. -/
theorem MostPreciseTag_perm_unique_highest (l l' : List dockref) (hp : l.Perm l')
    (t : String) (v : semver.Version)
    (ht : ∃ x ∈ l, x.Tag = t) (hv : parseVeryTolerant t = some v)
    (hstrict : ∀ x ∈ l, x.Tag ≠ t → ∀ w, parseVeryTolerant x.Tag = some w → w.Compare v < 0)
    (h0 : 0 ≤ v.Compare semver.Version.zero) :
    outTag (MostPreciseTag (some (l.map some))) = Outcome.ok t ∧
    outTag (MostPreciseTag (some (l'.map some))) = Outcome.ok t := by
  obtain ⟨h1, h2⟩ := MostPreciseTag_perm_same_tag l l' hp t v ht hv hstrict
  exact ⟨h2 h0, h1 ▸ h2 h0⟩

/-- Claim C5, at its failing input.  In the list of the candidates `0.0.0-beta` and
the empty tag, `0.0.0-beta` is the only semver-parseable tag, so its version is
above that of every other one; on the list and on its permutation `MostPreciseTag`
panics and returns no candidate: the prerelease of `0.0.0` never becomes `best`,
the empty tag is removed, and `filterNonLongest` reads `nonLatest[0]` of an empty
slice. -/
theorem C5_unique_highest_panics :
    (parseVeryTolerant "0.0.0-beta").isSome = true ∧ parseVeryTolerant "" = none ∧
    List.Perm [tagged "0.0.0-beta", tagged ""] [tagged "", tagged "0.0.0-beta"] ∧
    MostPreciseTag (some ([tagged "0.0.0-beta", tagged ""].map some)) = Outcome.panic ∧
    MostPreciseTag (some ([tagged "", tagged "0.0.0-beta"].map some)) = Outcome.panic := by
  decide

/-- Claim C6: on a non-empty list of candidates that all carry one tag,
`MostPreciseTag` returns the first element, whatever the other fields are. -/
theorem C6_single_tag_returns_first (r : dockref) (rest : List dockref)
    (h : ∀ x ∈ rest, x.Tag = r.Tag) :
    MostPreciseTag (some ((r :: rest).map some)) = Outcome.ok r := by
  rw [MostPreciseTag_eq]
  have : keepNew [] (r :: rest) = [r] := by
    simp [keepNew, keepNew_same_tag r.Tag [r.Tag] (by simp) rest h]
  rw [this]

/-- The statement of C6 on two candidates tagged `1.0` with different digests. -/
theorem C6_single_tag_returns_first_witness :
    MostPreciseTag (some (([⟨"nginx", "", "1.0", "sha256:aa", "", "", none, 0⟩,
      ⟨"nginx", "", "1.0", "sha256:bb", "", "", none, 0⟩] : List dockref).map some)) =
      Outcome.ok ⟨"nginx", "", "1.0", "sha256:aa", "", "", none, 0⟩ :=
  C6_single_tag_returns_first _ _ (by decide)

/-- Claim C7: when the tags of the list are the empty tag, `latest` and exactly
one other tag `t`, which is not semver-parseable, `MostPreciseTag` returns the first
candidate of the list that carries `t`. -/
theorem C7_single_named_tag (l : List dockref) (t : String)
    (ht1 : t ≠ "") (ht2 : t ≠ "latest") (hnp : parseVeryTolerant t = none)
    (hmem : ∃ x ∈ l, x.Tag = t)
    (honly : ∀ x ∈ l, x.Tag = "" ∨ x.Tag = "latest" ∨ x.Tag = t) :
    ∃ r, MostPreciseTag (some (l.map some)) = Outcome.ok r ∧
      l.find? (fun x => x.Tag == t) = some r := by
  obtain ⟨x0, hx0, hx0t⟩ := hmem
  obtain ⟨r, hrU, hrt⟩ := keepNew_tag_mem [] hx0 (by simp)
  rw [hx0t] at hrt
  have hfind := keepNew_find hrU
  rw [hrt] at hfind
  refine ⟨r, ?_, hfind⟩
  have hnpU : ∀ x ∈ keepNew [] l, parseVeryTolerant x.Tag = none := by
    intro x hx
    rcases honly x (keepNew_mem hx).1 with h | h | h
    · rw [h]; exact parseVeryTolerant_empty
    · rw [h]; exact parseVeryTolerant_latest
    · rw [h]; exact hnp
  rcases MostPreciseTag_cases l with ⟨r', h1, h2⟩ | ⟨_, ⟨b, h1, _⟩ | ⟨_, h2⟩⟩
  · rw [h2]
    rw [h1] at hrU
    have : r = r' := by simpa using hrU
    rw [this]
  · obtain ⟨hb, v, hv, _⟩ := bestSemVer_snd_some h1
    rw [hnpU b hb] at hv
    exact absurd hv (by simp)
  · rw [h2]
    have hN : (bestSemVer (keepNew [] l)).1 = keepNew [] l := by
      rw [bestSemVer_fst, List.filter_eq_self]
      intro x hx
      simp [hnpU x hx]
    rw [hN]
    have hrE : r ∈ removeEmpty (keepNew [] l) := removeEmpty_mem.2 ⟨hrU, by rw [hrt]; exact ht1⟩
    have hrL : r ∈ removeLatest (removeEmpty (keepNew [] l)) :=
      removeLatest_mem.2 ⟨hrE, by rw [hrt]; exact ht2⟩
    rcases chooseNonSemVer_cases (keepNew [] l) with ⟨r', h3, h4⟩ | ⟨_, ⟨r', h3, h4⟩ | ⟨h3, _⟩⟩
    · rw [h4]
      rw [h3] at hrE
      have : r = r' := by simpa using hrE
      rw [this]
    · rw [h4]
      rw [h3] at hrL
      have : r = r' := by simpa using hrL
      rw [this]
    · exfalso
      apply h3 r
      apply eq_singleton_of_same_tag _ hrL
      · intro x hx
        have hx1 := removeLatest_mem.1 hx
        have hx2 := removeEmpty_mem.1 hx1.1
        rcases honly x (keepNew_mem hx2.1).1 with h | h | h
        · exact absurd h hx2.2
        · exact absurd h hx1.2
        · rw [h, hrt]
      · rw [removeLatest_tags, removeEmpty_tags]
        exact ((keepNew_nodup [] l).filter _).filter _

/-- The statement of C7 on the candidates `latest`, `stable`. -/
theorem C7_single_named_tag_witness :
    ∃ r, MostPreciseTag (some ([tagged "latest", tagged "stable"].map some)) = Outcome.ok r ∧
      [tagged "latest", tagged "stable"].find? (fun x => x.Tag == "stable") = some r :=
  C7_single_named_tag [tagged "latest", tagged "stable"] "stable" (by decide) (by decide)
    (by decide) (by decide) (by decide)

/-- Claim C8, amended: without semver-parseable tag and with two distinct tags
that are neither empty nor `latest`, `MostPreciseTag` returns a candidate of the
list whose tag is neither empty nor `latest`, is the longest of those tags in bytes
(`len`), and is the greatest in byte order among the tags of that length. -/
theorem C8_longest_then_greatest (l : List dockref) (a b : dockref)
    (hnone : ∀ x ∈ l, parseVeryTolerant x.Tag = none)
    (ha : a ∈ l) (hb : b ∈ l) (hab : a.Tag ≠ b.Tag)
    (ha1 : a.Tag ≠ "") (ha2 : a.Tag ≠ "latest") (hb1 : b.Tag ≠ "") (hb2 : b.Tag ≠ "latest") :
    ∃ r, MostPreciseTag (some (l.map some)) = Outcome.ok r ∧ r ∈ l ∧
      r.Tag ≠ "" ∧ r.Tag ≠ "latest" ∧
      ∀ x ∈ l, x.Tag ≠ "" → x.Tag ≠ "latest" →
        x.Tag.utf8ByteSize ≤ r.Tag.utf8ByteSize ∧
        (x.Tag.utf8ByteSize = r.Tag.utf8ByteSize →
          strings.Compare x.Tag.data r.Tag.data ≤ 0) := by
  obtain ⟨a', haU, hat⟩ := keepNew_tag_mem [] ha (by simp)
  obtain ⟨b', hbU, hbt⟩ := keepNew_tag_mem [] hb (by simp)
  have hne : a' ≠ b' := by
    intro h; apply hab; rw [← hat, ← hbt, h]
  have hnpU : ∀ x ∈ keepNew [] l, parseVeryTolerant x.Tag = none :=
    fun x hx => hnone x (keepNew_mem hx).1
  have haE : a' ∈ removeEmpty (keepNew [] l) := removeEmpty_mem.2 ⟨haU, by rw [hat]; exact ha1⟩
  have hbE : b' ∈ removeEmpty (keepNew [] l) := removeEmpty_mem.2 ⟨hbU, by rw [hbt]; exact hb1⟩
  have haL : a' ∈ removeLatest (removeEmpty (keepNew [] l)) :=
    removeLatest_mem.2 ⟨haE, by rw [hat]; exact ha2⟩
  have hbL : b' ∈ removeLatest (removeEmpty (keepNew [] l)) :=
    removeLatest_mem.2 ⟨hbE, by rw [hbt]; exact hb2⟩
  have two : ∀ (L : List dockref) (r' : dockref), a' ∈ L → b' ∈ L → L ≠ [r'] := by
    intro L r' h1 h2 h
    rw [h] at h1 h2
    simp at h1 h2
    exact hne (h1.trans h2.symm)
  rcases MostPreciseTag_cases l with ⟨r', h1, _⟩ | ⟨_, ⟨c, h1, _⟩ | ⟨_, h2⟩⟩
  · exact absurd h1 (two _ _ haU hbU)
  · obtain ⟨hc, v, hv, _⟩ := bestSemVer_snd_some h1
    rw [hnpU c hc] at hv
    exact absurd hv (by simp)
  · have hN : (bestSemVer (keepNew [] l)).1 = keepNew [] l := by
      rw [bestSemVer_fst, List.filter_eq_self]
      intro x hx
      simp [hnpU x hx]
    rw [hN] at h2
    rcases chooseNonSemVer_cases (keepNew [] l) with ⟨r', h3, _⟩ | ⟨_, ⟨r', h3, _⟩ | ⟨_, h4⟩⟩
    · exact absurd h3 (two _ _ haE hbE)
    · exact absurd h3 (two _ _ haL hbL)
    · obtain ⟨r, hr, hrm, hlen, hlex⟩ := chooseLongest_spec
        (removeLatest (removeEmpty (keepNew [] l))) (List.ne_nil_of_mem haL)
      have hr1 := removeLatest_mem.1 hrm
      have hr2 := removeEmpty_mem.1 hr1.1
      refine ⟨r, by rw [h2, h4, hr], (keepNew_mem hr2.1).1, hr2.2, hr1.2, ?_⟩
      intro x hx hx1 hx2
      obtain ⟨x', hxU, hxt⟩ := keepNew_tag_mem [] hx (by simp)
      have hxL : x' ∈ removeLatest (removeEmpty (keepNew [] l)) :=
        removeLatest_mem.2 ⟨removeEmpty_mem.2 ⟨hxU, by rw [hxt]; exact hx1⟩, by rw [hxt]; exact hx2⟩
      have h5 := hlen x' hxL
      have h6 := hlex x' hxL
      simp only [tagLen, hxt] at h5 h6
      exact ⟨h5, h6⟩

/-- The statement of C8 on the candidates `abcd`, `wxyz`, `abc`. -/
theorem C8_longest_then_greatest_witness :
    ∃ r, MostPreciseTag (some ([tagged "abcd", tagged "wxyz", tagged "abc"].map some)) = Outcome.ok r ∧
      r ∈ [tagged "abcd", tagged "wxyz", tagged "abc"] ∧
      r.Tag ≠ "" ∧ r.Tag ≠ "latest" ∧
      ∀ x ∈ [tagged "abcd", tagged "wxyz", tagged "abc"], x.Tag ≠ "" → x.Tag ≠ "latest" →
        x.Tag.utf8ByteSize ≤ r.Tag.utf8ByteSize ∧
        (x.Tag.utf8ByteSize = r.Tag.utf8ByteSize →
          strings.Compare x.Tag.data r.Tag.data ≤ 0) :=
  C8_longest_then_greatest [tagged "abcd", tagged "wxyz", tagged "abc"] (tagged "abcd")
    (tagged "wxyz") (by decide) (by decide) (by decide) (by decide) (by decide) (by decide)
    (by decide) (by decide)

/-- Claim C8 fails as stated for the length in characters: on the candidates
`abcd` (4 bytes, 4 characters) and `été` (5 bytes, 3 characters) the selector
returns `été`. -/
theorem C8_counterexample :
    parseVeryTolerant "abcd" = none ∧ parseVeryTolerant "été" = none ∧
    MostPreciseTag (some [some (tagged "abcd"), some (tagged "été")]) = Outcome.ok (tagged "été") ∧
    (tagged "été").Tag.length < (tagged "abcd").Tag.length := by
  decide

/-- Claim C9, amended: for every target that is not nil and every pool without nil
entry, `FindRelevantTagsForReference` returns, with a nil error, exactly the
entries of the pool, in pool order, whose name is the name of the target and whose
variant is the variant of the tag of the target. -/
theorem C9_relevant_tags_filter (target : dockref) (pool : List dockref) :
    FindRelevantTagsForReference (some target) (pool.map some) =
      Outcome.ok (pool.filter fun r => decide (r.Name = target.Name ∧
        (splitVersionAndVariant r.Tag).2 = (splitVersionAndVariant target.Tag).2)) := by
  simp only [FindRelevantTagsForReference, sameNameLoop_map_some, appendEach_eq, List.nil_append,
    List.filter_filter]
  congr 1
  apply List.filter_congr
  intro r _
  rw [Bool.eq_iff_iff]
  simp only [beq_iff_eq, Bool.and_eq_true, decide_eq_true_eq]
  constructor
  · rintro ⟨h2, h1⟩; exact ⟨h1.symm, h2.symm⟩
  · rintro ⟨h1, h2⟩; exact ⟨h2.symm, h1.symm⟩

/-- Claim C9 fails as stated: the function has no nil check, and it panics on a nil
target (`ref.Tag()`), whatever the pool, and on a pool with a nil entry
(`r.Name()`). -/
theorem C9_counterexample :
    FindRelevantTagsForReference none [] = Outcome.panic ∧
    FindRelevantTagsForReference none [some (tagged "1.0")] = Outcome.panic ∧
    FindRelevantTagsForReference (some (tagged "1.0")) [some (tagged "1.0"), none] =
      Outcome.panic := by
  decide

/-- Claim C10, amended: `parseVeryTolerant` succeeds on a tag exactly when the
prefix before the first `-` parses tolerantly to a version `v` and, for a non-empty
variant suffix, the canonical text of `v` followed by `-` and the suffix parses
as well. -/
theorem C10_parseVeryTolerant_iff (tag : String) :
    (parseVeryTolerant tag).isSome ↔
      ∃ v, semver.ParseTolerant (versionPrefix tag) = some v ∧
        (variantSuffix tag = "" ∨
          (semver.ParseTolerant (v.String ++ "-" ++ variantSuffix tag)).isSome) := by
  unfold parseVeryTolerant splitVersionAndVariant versionPrefix variantSuffix
  cases hc : strings.cutFirst '-' tag.data with
  | none =>
    cases hp : semver.ParseTolerant tag with
    | none => simp [hp, ParseTolerant_empty]
    | some v => simp [hp]
  | some p =>
    obtain ⟨a, b⟩ := p
    cases hp : semver.ParseTolerant (String.mk a) with
    | none => simp [hp, ParseTolerant_empty]
    | some v =>
      by_cases hb : String.mk b = ""
      · simp [hp, hb]
      · simp [hp, hb]

/-- Claim C10 fails as stated: the prefix `1.2.0` of the tag `1.2.0-rc_1` parses,
the tag does not. -/
theorem C10_counterexample :
    ¬ ((parseVeryTolerant "1.2.0-rc_1").isSome ↔
        (semver.ParseTolerant (versionPrefix "1.2.0-rc_1")).isSome) := by
  decide

/-! ### The reference model: formats, parsing and rendering -/

theorem complement_mask : complement (FormatHasName ||| FormatHasTag ||| FormatHasDomain ||| FormatHasDigest) = 2 ^ 64 - (15 + 1) := by
  decide

theorem mask_testBit (i : Nat) :
    (2 ^ 64 - (15 + 1)).testBit i = (decide (i < 64) && decide (4 ≤ i)) := by
  rw [Nat.testBit_two_pow_sub_succ (by decide : 15 < 2 ^ 64)]
  congr 1
  by_cases h : 4 ≤ i
  · have : (15 : Nat).testBit i = false :=
      Nat.testBit_lt_two_pow (Nat.lt_of_lt_of_le (by decide : 15 < 2 ^ 4) (Nat.pow_le_pow_right (by decide) h))
    simp [this, h]
  · have hi : i < 4 := by omega
    have : (15 : Nat).testBit i = true := by
      interval_cases i <;> decide
    simp [this, h]

theorem onlyRecognizedBits_iff (f : Format) : onlyRecognizedBits f ↔ ∀ i, f.testBit i = true → i < 4 := by
  unfold onlyRecognizedBits FormatHasName FormatHasTag FormatHasDomain FormatHasDigest
  constructor
  · intro h i hi
    rcases h i hi with h | h | h | h
    · have : (2:Nat) ^ i = 2 ^ 0 := h
      have := Nat.pow_right_injective (le_refl 2) this
      omega
    · have : (2:Nat) ^ i = 2 ^ 1 := h
      have := Nat.pow_right_injective (le_refl 2) this
      omega
    · have : (2:Nat) ^ i = 2 ^ 2 := h
      have := Nat.pow_right_injective (le_refl 2) this
      omega
    · have : (2:Nat) ^ i = 2 ^ 3 := h
      have := Nat.pow_right_injective (le_refl 2) this
      omega
  · intro h i hi
    have := h i hi
    interval_cases i <;> simp

theorem and_mask_eq_zero_iff (f : Format) (hf : f < 2 ^ 64) :
    f &&& (2 ^ 64 - (15 + 1)) = 0 ↔ ∀ i, f.testBit i = true → i < 4 := by
  constructor
  · intro h i hi
    by_contra hge
    have hi64 : i < 64 := by
      by_contra h64
      have : f.testBit i = false :=
        Nat.testBit_lt_two_pow (Nat.lt_of_lt_of_le hf (Nat.pow_le_pow_right (by decide) (by omega)))
      rw [this] at hi
      exact absurd hi (by simp)
    have : (f &&& (2 ^ 64 - (15 + 1))).testBit i = true := by
      rw [Nat.testBit_and, hi, mask_testBit]
      simp [hi64]
      omega
    rw [h] at this
    simp at this
  · intro h
    apply Nat.eq_of_testBit_eq
    intro i
    rw [Nat.testBit_and, mask_testBit, Nat.zero_testBit]
    by_cases hi : f.testBit i = true
    · have := h i hi
      simp [hi]
      omega
    · simp [hi]

theorem Valid_fst_iff (f : Format) (hf : f < 2 ^ 64) :
    (Format.Valid f).1 = true ↔ onlyRecognizedBits f := by
  rw [onlyRecognizedBits_iff, ← and_mask_eq_zero_iff f hf]
  simp [Format.Valid, complement_mask]

theorem Valid_eq (f : Format) :
    Format.Valid f = (true, none) ∨ ∃ e, Format.Valid f = (false, some e) := by
  unfold Format.Valid
  by_cases h : (f &&& complement (FormatHasName ||| FormatHasTag ||| FormatHasDomain ||| FormatHasDigest) == 0) = true
  · left; simp [h]
  · right
    simp only [Bool.not_eq_true] at h
    refine ⟨String.mk ("Invalid format, ".data ++ strconv.FormatUint f), ?_⟩
    simp only [h]
    rfl

theorem WithRequestedFormat_valid (r : dockref) (f : Format) (hv : (Format.Valid f).1 = true) :
    r.WithRequestedFormat f = .ok { r with format :=
      if r.format = FormatHasDigest then FormatHasDigest else f ||| requiredBits r f } := by
  rcases Valid_eq f with h | ⟨e, h⟩
  · unfold dockref.WithRequestedFormat requiredBits
    rw [h]
    simp only
    by_cases hd : r.format = FormatHasDigest
    · simp [hd]
    · simp only [hd, if_false]
      congr 2
      by_cases h1 : r.domain ≠ "" ∧ r.domain ≠ "docker.io" <;>
        by_cases h2 : Format.hasTag f = true <;> simp_all
  · rw [h] at hv; simp at hv

theorem WithRequestedFormat_invalid (r : dockref) (f : Format) (hv : (Format.Valid f).1 = false) :
    ∃ e, r.WithRequestedFormat f = .error e := by
  rcases Valid_eq f with h | ⟨e, h⟩
  · rw [h] at hv; simp at hv
  · unfold dockref.WithRequestedFormat
    rw [h]
    exact ⟨_, rfl⟩

theorem getBestReferenceType_named {x n : Named}
    (h : reference.getBestReferenceType x = some (.named n)) : n = x ∧ x.Name ≠ "" := by
  unfold reference.getBestReferenceType at h
  by_cases hn : x.Name = ""
  · rw [if_pos hn] at h
    split_ifs at h
    cases h
  · rw [if_neg hn] at h
    cases h
    exact ⟨rfl, hn⟩

theorem getBestReferenceType_digest {x : Named} {d : String}
    (h : reference.getBestReferenceType x = some (.digestReference d)) : d = x.digest ∧ d ≠ "" := by
  unfold reference.getBestReferenceType at h
  by_cases hn : x.Name = ""
  · rw [if_pos hn] at h
    by_cases hd : x.digest ≠ ""
    · rw [if_pos hd] at h
      cases h
      exact ⟨rfl, hd⟩
    · rw [if_neg hd] at h
      cases h
  · rw [if_neg hn] at h
    cases h

theorem reference_Parse_eq (s : String) :
    reference.Parse s = none ∨ ∃ x, reference.Parse s = reference.getBestReferenceType x := by
  unfold reference.Parse
  cases regexp.FindStringSubmatch reference.ReferenceRegexp s.data with
  | none => exact Or.inl rfl
  | some ms =>
    dsimp only
    by_cases hl : (String.mk (regexp.submatch ms 1)).utf8ByteSize > reference.NameTotalLengthMax
    · rw [if_pos hl]; exact Or.inl rfl
    · rw [if_neg hl]
      by_cases h3 : regexp.submatch ms 3 ≠ []
      · rw [if_pos h3]
        cases digest.Parse (String.mk (regexp.submatch ms 3)) with
        | none => exact Or.inl rfl
        | some d => exact Or.inr ⟨_, rfl⟩
      · rw [if_neg h3]; exact Or.inr ⟨_, rfl⟩

theorem reference_Parse_named {s : String} {n : Named}
    (h : reference.Parse s = some (.named n)) : n.Name ≠ "" := by
  rcases reference_Parse_eq s with h0 | ⟨x, hx⟩
  · rw [h0] at h; cases h
  · rw [hx] at h
    have := getBestReferenceType_named h
    rw [this.1]; exact this.2

theorem ParseNormalizedNamed_name {s : String} {n : Named}
    (h : reference.ParseNormalizedNamed s = some n) : n.Name ≠ "" := by
  unfold reference.ParseNormalizedNamed at h
  split_ifs at h
  dsimp only at h
  split_ifs at h
  cases hp : reference.Parse ((reference.splitDockerDomain s).1 ++ "/" ++
      (reference.splitDockerDomain s).2) with
  | none => rw [hp] at h; cases h
  | some x =>
    rw [hp] at h
    cases x with
    | digestReference d => cases h
    | named n' =>
      have : n' = n := by simpa using h
      subst this
      exact reference_Parse_named hp

theorem Validate_ne_empty {d : String} (h : digest.Validate d = true) :
    (digest.Hex d).isSome = true ∧ d ≠ "" := by
  unfold digest.Validate at h
  unfold digest.Hex
  cases hc : strings.cutFirst ':' d.data with
  | none => rw [hc] at h; simp at h
  | some p =>
    refine ⟨by simp, ?_⟩
    intro hd
    rw [hd] at hc
    simp [strings.cutFirst] at hc

theorem digest_Parse_some {s d : String} (h : digest.Parse s = some d) :
    d = s ∧ digest.Validate s = true := by
  unfold digest.Parse at h
  split_ifs at h with hv
  cases h
  exact ⟨rfl, hv⟩

theorem Hex_sha256 (s : String) : digest.Hex ("sha256:" ++ s) = some s := by
  unfold digest.Hex
  have : ("sha256:" ++ s).data = 's' :: 'h' :: 'a' :: '2' :: '5' :: '6' :: ':' :: s.data := by
    rw [String.data_append]; rfl
  rw [this]
  simp [strings.cutFirst]

theorem ParseAnyReference_named {s : String} {n : Named}
    (h : reference.ParseAnyReference s = some (.named n)) : n.Name ≠ "" := by
  unfold reference.ParseAnyReference at h
  split_ifs at h
  · cases h
  · cases hd : digest.Parse s with
    | some d => rw [hd] at h; cases h
    | none =>
      rw [hd] at h
      cases hp : reference.ParseNormalizedNamed s with
      | none => rw [hp] at h; cases h
      | some n' =>
        rw [hp] at h
        have : n' = n := by simpa using h
        subst this
        exact ParseNormalizedNamed_name hp

theorem ParseAnyReference_digest {s d : String}
    (h : reference.ParseAnyReference s = some (.digestReference d)) :
    (digest.Hex d).isSome = true ∧ d ≠ "" ∧
      (d = "sha256:" ++ s ∨ (d = s ∧ digest.Validate s = true)) := by
  unfold reference.ParseAnyReference at h
  split_ifs at h
  · have hd : d = "sha256:" ++ s := by
      have := Option.some.inj h
      injection this with this
      exact this.symm
    subst hd
    refine ⟨by rw [Hex_sha256]; rfl, ?_, Or.inl rfl⟩
    intro h0
    have := congrArg String.length h0
    rw [String.length_append] at this
    have h7 : "sha256:".length = 7 := by decide
    rw [h7] at this
    simp at this
  · cases hd : digest.Parse s with
    | some dg =>
      rw [hd] at h
      have hdg : dg = d := by
        have := Option.some.inj h
        injection this
      subst hdg
      obtain ⟨h1, h2⟩ := digest_Parse_some hd
      subst h1
      exact ⟨(Validate_ne_empty h2).1, (Validate_ne_empty h2).2, Or.inr ⟨rfl, h2⟩⟩
    | none =>
      rw [hd] at h
      cases hp : reference.ParseNormalizedNamed s with
      | none => rw [hp] at h; cases h
      | some n' => rw [hp] at h; cases h

/-- What `Parse` returns: a named reference with a non-empty name, or a
digest-only reference whose digest has an algorithm and a hex part. -/
theorem Parse_ok {s : String} {r : dockref} (h : Parse s = .ok r) :
    (∃ n : Named, n.Name ≠ "" ∧ reference.ParseAnyReference s = some (.named n) ∧
      r = { original := s, domain := n.domain, name := n.Name, tag := n.tag,
            digest := n.digest, path := n.path, named := some n,
            format := findDockrefFormat (some n) s n.Name n.tag n.digest }) ∨
    (∃ d : String, (digest.Hex d).isSome = true ∧ d ≠ "" ∧
      reference.ParseAnyReference s = some (.digestReference d) ∧
      r = { original := s, domain := "", name := "", tag := "", digest := d, path := "",
            named := none, format := FormatHasDigest }) := by
  unfold Parse at h
  split at h
  · cases h
  · rename_i n hp
    cases h
    exact Or.inl ⟨n, ParseAnyReference_named hp, hp, rfl⟩
  · rename_i d hp
    cases h
    have hd := ParseAnyReference_digest hp
    refine Or.inr ⟨d, hd.1, hd.2.1, hp, ?_⟩
    simp [findDockrefFormat, hd.2.1]

theorem ParseAlgoDigest_ok {s : String} {r : dockref} (h : ParseAlgoDigest s = .ok (some r)) :
    ∃ hex, Parse hex = .ok r := by
  unfold ParseAlgoDigest at h
  split_ifs at h
  cases hx : digest.Hex s with
  | none => rw [hx] at h; cases h
  | some hex =>
    rw [hx] at h
    refine ⟨hex, ?_⟩
    have h' : MustParse hex = some r := by
      injection h
    unfold MustParse at h'
    cases hp : Parse hex with
    | ok r' =>
      rw [hp] at h'
      have : r' = r := by simpa using h'
      rw [this]
    | error e => rw [hp] at h'; cases h'
    | panic => rw [hp] at h'; cases h'

/-- The name and the named part of an obtained reference go together, and the
constructors other than `Parse` keep both. -/
theorem Obtained_named {ok : String → Prop} {r : dockref} (h : ObtainedWith ok r) :
    (r.name = "" ↔ r.named = none) := by
  induction h with
  | parse s r hp =>
    rcases Parse_ok hp with ⟨n, hn, _, rfl⟩ | ⟨d, _, _, _, rfl⟩
    · simp [hn]
    · simp
  | parseAlgoDigest s r hp =>
    obtain ⟨hex, hp'⟩ := ParseAlgoDigest_ok hp
    rcases Parse_ok hp' with ⟨n, hn, _, rfl⟩ | ⟨d, _, _, _, rfl⟩
    · simp [hn]
    · simp
  | withTag r t _ ih => exact ih
  | withDigest r d _ _ ih => exact ih
  | withRequestedFormat r f r' _ hf ih =>
    by_cases hv : (Format.Valid f).1 = true
    · rw [WithRequestedFormat_valid r f hv] at hf
      cases hf
      exact ih
    · obtain ⟨e, he⟩ := WithRequestedFormat_invalid r f (by simpa using hv)
      rw [he] at hf
      cases hf

theorem FamiliarString_eq (n : Named) :
    reference.FamiliarString n = reference.FamiliarName n ++
      (if n.tag = "" then "" else ":" ++ n.tag) ++ (if n.digest = "" then "" else "@" ++ n.digest) :=
  rfl

theorem FamiliarName_of_ne_default {n : Named} (h : n.domain ≠ "docker.io") :
    reference.FamiliarName n = n.Name := by
  unfold reference.FamiliarName Named.Familiar reference.familiarizeName reference.defaultDomain
  rw [if_neg h]

theorem Valid_of_lt {f : Format} (h : f < 16) : (Format.Valid f).1 = true := by
  interval_cases f <;> decide

theorem utf8Size_of_lowerHex {c : Char} (h : digest.isLowerHex c = true) : c.utf8Size = 1 := by
  unfold digest.isLowerHex at h
  have hle : c.toNat ≤ 102 := by
    simp only [Bool.or_eq_true, Bool.and_eq_true, decide_eq_true_eq] at h
    rcases h with ⟨_, h⟩ | ⟨_, h⟩
    · exact h
    · have h9 : c.toNat ≤ 57 := h
      omega
  unfold Char.utf8Size
  simp only
  rw [if_pos]
  show c.toNat ≤ 127
  omega

theorem utf8ByteSize_of_lowerHex (l : List Char) (h : l.all digest.isLowerHex = true) :
    (String.mk l).utf8ByteSize = l.length := by
  induction l with
  | nil => rfl
  | cons c cs ih =>
    simp only [List.all_cons, Bool.and_eq_true] at h
    have := ih h.2
    simp only [String.utf8ByteSize, String.utf8ByteSize.go, List.length_cons] at this ⊢
    rw [this, utf8Size_of_lowerHex h.1]

theorem run_times_cls (p : Char → Bool) (n : Nat) (l rest : List Char) (c : regexp.Caps)
    (k : regexp.Cont) (hl : l.length = n) (hp : l.all p = true) :
    regexp.run (regexp.times (.cls p) n) (l ++ rest) c k = k rest c := by
  induction n generalizing l with
  | zero =>
    have : l = [] := List.length_eq_zero.1 hl
    subst this
    rfl
  | succ n ih =>
    cases l with
    | nil => simp at hl
    | cons x xs =>
      simp only [List.all_cons, Bool.and_eq_true] at hp
      simp only [regexp.times, regexp.run, List.cons_append, hp.1, if_true]
      exact ih xs (by simpa using hl) hp.2

theorem run_capture (n : Nat) (a : regexp.Regex) (s : List Char) (c : regexp.Caps)
    (k : regexp.Cont) :
    regexp.run (.capture n a) s c k =
      regexp.run a s c (fun s' c' => k s' ((n, s.take (s.length - s'.length)) :: c')) :=
  rfl

theorem identifier_match (l : List Char) (hl : l.length = 64) (hp : l.all digest.isLowerHex = true) :
    (regexp.FindStringSubmatch reference.anchoredIdentifierRegexp l).isSome = true := by
  unfold regexp.FindStringSubmatch reference.anchoredIdentifierRegexp
  rw [run_capture]
  have := run_times_cls digest.isLowerHex 64 l [] [] (fun s' c' =>
    (fun rest c => if rest.isEmpty = true then some c else none) s'
      ((1, List.take (l.length - s'.length) l) :: c')) hl hp
  rw [List.append_nil] at this
  rw [this]
  rfl

theorem Validate_sha256 {hex : String} (hv : digest.Validate ("sha256:" ++ hex) = true) :
    hex.data.length = 64 ∧ hex.data.all digest.isLowerHex = true := by
  unfold digest.Validate at hv
  have hd : ("sha256:" ++ hex).data = 's' :: 'h' :: 'a' :: '2' :: '5' :: '6' :: ':' :: hex.data := by
    rw [String.data_append]; rfl
  rw [hd] at hv
  simp only [strings.cutFirst, Char.reduceEq, if_false, if_true] at hv
  split_ifs at hv
  have h256 : digest.algorithmSize (String.mk ['s', 'h', 'a', '2', '5', '6']) = some 32 := by decide
  simp only [digest.Algorithm.Validate, h256, Bool.and_eq_true, beq_iff_eq] at hv
  have := utf8ByteSize_of_lowerHex hex.data hv.2
  exact ⟨by omega, hv.2⟩

/-- For a SHA-256 digest that passes validation, `ParseAlgoDigest` returns the
digest-only reference of the claim. -/
theorem ParseAlgoDigest_sha256 (hex : String) (hv : digest.Validate ("sha256:" ++ hex) = true) :
    ParseAlgoDigest ("sha256:" ++ hex) =
      .ok (some ⟨"", hex, "", "sha256:" ++ hex, "", "", none, FormatHasDigest⟩) ∧
    (⟨"", hex, "", "sha256:" ++ hex, "", "", none, FormatHasDigest⟩ : dockref).Formatted = .ok hex := by
  obtain ⟨hl, hp⟩ := Validate_sha256 hv
  constructor
  · unfold ParseAlgoDigest
    rw [hv, Hex_sha256]
    simp only [Bool.not_true, Bool.false_eq_true, if_false]
    have hparse : Parse hex = .ok ⟨"", hex, "", "sha256:" ++ hex, "", "", none, FormatHasDigest⟩ := by
      unfold Parse reference.ParseAnyReference
      rw [if_pos (identifier_match hex.data hl hp)]
      simp only [findDockrefFormat]
      have hne : "sha256:" ++ hex ≠ "" := by
        intro h0
        have := congrArg String.length h0
        rw [String.length_append] at this
        have h7 : "sha256:".length = 7 := by decide
        rw [h7] at this
        simp at this
      simp [hne]
    unfold MustParse
    rw [hparse]
  · simp +decide only [dockref.Formatted, Format.hasName, Format.hasTag,
        Format.hasDomain, Format.hasDigest, FormatHasName, FormatHasTag, FormatHasDomain,
        FormatHasDigest, if_true, if_false, Hex_sha256]
    simp

/-! ### The reference model: the claims -/

/-- Claim C11, amended: for every reference whose format is not exactly
`FormatHasDigest` and every valid requested format `f`, `WithRequestedFormat(f)`
returns a reference whose format is exactly `f | required`, where `required` has
`FormatHasDomain` and `FormatHasName` for a domain that is neither empty nor
`docker.io`, `FormatHasName` when `f` has `FormatHasTag`, and nothing else. -/
theorem C11_format_is_requested_or_required (r : dockref) (f : Format)
    (hr : r.format ≠ FormatHasDigest) (hv : (Format.Valid f).1 = true) :
    ∃ r', r.WithRequestedFormat f = .ok r' ∧ r'.format = f ||| requiredBits r f := by
  refine ⟨_, WithRequestedFormat_valid r f hv, ?_⟩
  simp [hr]

/-- The statement of C11 on the reference of `localhost:5000/foo` and the requested
format tag and digest. -/
theorem C11_format_is_requested_or_required_witness :
    ∃ r', (⟨"localhost:5000/foo", "localhost:5000/foo", "", "", "localhost:5000", "foo",
        some ⟨"localhost:5000", "foo", "", ""⟩, 1⟩ : dockref).WithRequestedFormat 10 = .ok r' ∧
      r'.format = 10 ||| requiredBits ⟨"localhost:5000/foo", "localhost:5000/foo", "", "",
        "localhost:5000", "foo", some ⟨"localhost:5000", "foo", "", ""⟩, 1⟩ 10 :=
  C11_format_is_requested_or_required ⟨"localhost:5000/foo", "localhost:5000/foo", "", "",
    "localhost:5000", "foo", some ⟨"localhost:5000", "foo", "", ""⟩, 1⟩ 10 (by decide) (by decide)

/-- Claim C11 fails as stated: the reference `Parse` makes of `nginx` has a name;
`WithRequestedFormat(FormatHasDigest)` gives it the format `FormatHasDigest`, and a
further `WithRequestedFormat(FormatHasName)` leaves that format, although the
requested format with the required bits is `FormatHasName`. -/
theorem C11_counterexample :
    Parse "nginx" = .ok ⟨"docker.io/library/nginx", "nginx", "", "", "docker.io", "library/nginx",
      some ⟨"docker.io", "library/nginx", "", ""⟩, 1⟩ ∧
    (⟨"docker.io/library/nginx", "nginx", "", "", "docker.io", "library/nginx",
      some ⟨"docker.io", "library/nginx", "", ""⟩, 1⟩ : dockref).WithRequestedFormat FormatHasDigest =
      .ok ⟨"docker.io/library/nginx", "nginx", "", "", "docker.io", "library/nginx",
      some ⟨"docker.io", "library/nginx", "", ""⟩, 8⟩ ∧
    (Format.Valid FormatHasName).1 = true ∧
    (⟨"docker.io/library/nginx", "nginx", "", "", "docker.io", "library/nginx",
      some ⟨"docker.io", "library/nginx", "", ""⟩, 8⟩ : dockref).WithRequestedFormat FormatHasName =
      .ok ⟨"docker.io/library/nginx", "nginx", "", "", "docker.io", "library/nginx",
      some ⟨"docker.io", "library/nginx", "", ""⟩, 8⟩ ∧
    FormatHasName ||| requiredBits ⟨"docker.io/library/nginx", "nginx", "", "", "docker.io",
      "library/nginx", some ⟨"docker.io", "library/nginx", "", ""⟩, 8⟩ FormatHasName = 1 := by
  decide

/-- Claim C12: for every reference whose format is exactly `FormatHasDigest` and
every valid requested format, `WithRequestedFormat` returns a reference whose format
is exactly `FormatHasDigest`. -/
theorem C12_digest_only_stays (r : dockref) (f : Format) (hr : r.format = FormatHasDigest)
    (hv : (Format.Valid f).1 = true) :
    ∃ r', r.WithRequestedFormat f = .ok r' ∧ r'.format = FormatHasDigest := by
  refine ⟨_, WithRequestedFormat_valid r f hv, ?_⟩
  simp [hr]

/-- The statement of C12 on a digest-only reference and the requested format name, tag
and digest. -/
theorem C12_digest_only_stays_witness :
    ∃ r', (⟨"", "db5acc22920799fe387a903437eb89387607e5b3f63cf0f4472ac182d7bad644", "", "sha256:db5acc22920799fe387a903437eb89387607e5b3f63cf0f4472ac182d7bad644", "", "", none, 8⟩ : dockref).WithRequestedFormat 11 = .ok r' ∧
      r'.format = FormatHasDigest :=
  C12_digest_only_stays ⟨"", "db5acc22920799fe387a903437eb89387607e5b3f63cf0f4472ac182d7bad644", "", "sha256:db5acc22920799fe387a903437eb89387607e5b3f63cf0f4472ac182d7bad644", "", "", none, 8⟩ 11 (by decide) (by decide)

/-- Claim C13: `Format.Valid` returns `(true, nil)` exactly when no bit other than
the four recognized ones is set, and `(false, err)` with a non-nil error otherwise;
as a total function it never panics. -/
theorem C13_valid_iff_recognized (f : Format) (hf : f < 2 ^ 64) :
    (Format.Valid f = (true, none) ↔ onlyRecognizedBits f) ∧
    (¬ onlyRecognizedBits f → ∃ e, Format.Valid f = (false, some e)) := by
  have h1 := Valid_fst_iff f hf
  rcases Valid_eq f with h | ⟨e, h⟩
  · rw [h] at h1
    simp only [true_iff] at h1
    exact ⟨by simp [h, h1], fun hn => absurd h1 hn⟩
  · rw [h] at h1
    simp only [Bool.false_eq_true, false_iff] at h1
    refine ⟨?_, fun _ => ⟨e, h⟩⟩
    rw [h]
    constructor
    · intro h2; simp at h2
    · intro h2; exact absurd h2 h1

/-- The statement of C13 on the format tag and digest. -/
theorem C13_valid_iff_recognized_witness :
    (Format.Valid 10 = (true, none) ↔ onlyRecognizedBits 10) ∧
    (¬ onlyRecognizedBits 10 → ∃ e, Format.Valid 10 = (false, some e)) :=
  C13_valid_iff_recognized 10 (by decide)

/-- Claim C14: `WithRequestedFormat(f)` returns an error, and no reference, exactly
when `f` has a bit outside the four recognized ones; for every other `f` it returns
a reference. -/
theorem C14_error_iff_unrecognized (r : dockref) (f : Format) (hf : f < 2 ^ 64) :
    ((∃ e, r.WithRequestedFormat f = .error e) ↔ ¬ onlyRecognizedBits f) ∧
    (onlyRecognizedBits f → ∃ r', r.WithRequestedFormat f = .ok r') := by
  have h1 := Valid_fst_iff f hf
  by_cases hv : (Format.Valid f).1 = true
  · have hok := WithRequestedFormat_valid r f hv
    refine ⟨?_, fun _ => ⟨_, hok⟩⟩
    constructor
    · rintro ⟨e, he⟩
      rw [hok] at he
      cases he
    · intro hn
      exact absurd (h1.1 hv) hn
  · have hv' : (Format.Valid f).1 = false := by simpa using hv
    obtain ⟨e, he⟩ := WithRequestedFormat_invalid r f hv'
    refine ⟨?_, fun ho => absurd (h1.2 ho) hv⟩
    constructor
    · intro _ ho
      exact hv (h1.2 ho)
    · intro _
      exact ⟨e, he⟩

/-- The statement of C14 on the format `16`, which is not valid. -/
theorem C14_error_iff_unrecognized_witness :
    ((∃ e, (tagged "1.0").WithRequestedFormat 16 = .error e) ↔ ¬ onlyRecognizedBits 16) ∧
    (onlyRecognizedBits 16 → ∃ r', (tagged "1.0").WithRequestedFormat 16 = .ok r') :=
  C14_error_iff_unrecognized (tagged "1.0") 16 (by decide)

/-- Claim C15: for a valid format `f`, `WithRequestedFormat(f)` applied to the
result of `WithRequestedFormat(f)` returns that result again: the same reference,
hence the same format and the same `Formatted` text. -/
theorem C15_render_idempotent (r : dockref) (f : Format) (hv : (Format.Valid f).1 = true) :
    ∃ r1, r.WithRequestedFormat f = .ok r1 ∧ r1.WithRequestedFormat f = .ok r1 ∧
      ∀ r2, r1.WithRequestedFormat f = .ok r2 →
        r2 = r1 ∧ r2.format = r1.format ∧ r2.Formatted = r1.Formatted := by
  have key : (dockref.WithRequestedFormat { r with format :=
      if r.format = FormatHasDigest then FormatHasDigest else f ||| requiredBits r f } f) =
      .ok { r with format :=
      if r.format = FormatHasDigest then FormatHasDigest else f ||| requiredBits r f } := by
    rw [WithRequestedFormat_valid _ f hv]
    congr 1
    by_cases hd : r.format = FormatHasDigest
    · simp [hd]
    · simp only [hd, if_false]
      have hreq : requiredBits { r with format := f ||| requiredBits r f } f = requiredBits r f := rfl
      by_cases h8 : f ||| requiredBits r f = FormatHasDigest
      · simp [h8]
      · simp [h8, hreq]
  refine ⟨_, WithRequestedFormat_valid r f hv, key, ?_⟩
  intro r2 h2
  rw [key] at h2
  cases h2
  exact ⟨rfl, rfl, rfl⟩

/-- The statement of C15 on the reference of `nginx:1.2` and the requested format
name, tag and digest. -/
theorem C15_render_idempotent_witness :
    ∃ r1, (⟨"docker.io/library/nginx", "nginx:1.2", "1.2", "", "docker.io", "library/nginx",
        some ⟨"docker.io", "library/nginx", "1.2", ""⟩, 3⟩ : dockref).WithRequestedFormat 11 = .ok r1 ∧
      r1.WithRequestedFormat 11 = .ok r1 ∧
      ∀ r2, r1.WithRequestedFormat 11 = .ok r2 →
        r2 = r1 ∧ r2.format = r1.format ∧ r2.Formatted = r1.Formatted :=
  C15_render_idempotent ⟨"docker.io/library/nginx", "nginx:1.2", "1.2", "", "docker.io",
    "library/nginx", some ⟨"docker.io", "library/nginx", "1.2", ""⟩, 3⟩ 11 (by decide)

/-- Claim C16, amended: when `Parse` accepts `s` and `s` is the familiar text or
the fully qualified text of the named reference it parses to, or the bare hex of the
digest of a digest-only reference, the `Formatted` text of the reference under its
own format is `s`. -/
theorem C16_round_trip (s : String) (r : dockref) (hp : Parse s = .ok r)
    (hform : ∀ n, r.named = some n → reference.FamiliarString n = s ∨ n.String = s)
    (hdig : r.named = none → digest.Hex r.digest = some s) :
    ∃ r', r.WithRequestedFormat r.format = .ok r' ∧ r'.Formatted = .ok s := by
  rcases Parse_ok hp with ⟨n, hn, _, rfl⟩ | ⟨d, _, hd, _, rfl⟩
  · have hs := hform n rfl
    by_cases hF : reference.FamiliarString n = s <;>
    by_cases hT : n.tag = "" <;>
    by_cases hD : n.digest = "" <;>
    by_cases hdom : n.domain ≠ "" ∧ n.domain ≠ "docker.io"
    all_goals
      simp only [findDockrefFormat, hF, hT, hD, hn, ne_eq, not_true_eq_false, not_false_eq_true,
        if_true, if_false]
      refine ⟨_, WithRequestedFormat_valid _ _ (by decide), ?_⟩
      simp +decide only [requiredBits, hdom, dockref.Formatted, Format.hasName, Format.hasTag,
        Format.hasDomain, Format.hasDigest, FormatHasName, FormatHasTag, FormatHasDomain,
        FormatHasDigest, if_true, if_false, and_self, ne_eq, not_false_eq_true]
      first
        | (subst hF
           first
             | simp [FamiliarString_eq, FamiliarName_of_ne_default hdom.2, hT, hD, String.append_assoc]
             | simp [FamiliarString_eq, hT, hD, String.append_assoc])
        | (have hs2 := hs.resolve_left hF
           subst hs2
           simp [Named.String, hT, hD, String.append_assoc])
  · have hx := hdig rfl
    refine ⟨_, WithRequestedFormat_valid _ _ (Valid_of_lt (show FormatHasDigest < 16 by decide)), ?_⟩
    simp only at hx
    simp +decide only [dockref.Formatted, Format.hasName, Format.hasTag,
        Format.hasDomain, Format.hasDigest, FormatHasName, FormatHasTag, FormatHasDomain,
        FormatHasDigest, if_true, if_false, hx]
    simp

/-- The statement of C16 on the reference `Parse` makes of `nginx`. -/
theorem C16_round_trip_witness :
    ∃ r', (⟨"docker.io/library/nginx", "nginx", "", "", "docker.io", "library/nginx",
        some ⟨"docker.io", "library/nginx", "", ""⟩, 1⟩ : dockref).WithRequestedFormat 1 = .ok r' ∧
      r'.Formatted = .ok "nginx" :=
  C16_round_trip "nginx" ⟨"docker.io/library/nginx", "nginx", "", "", "docker.io", "library/nginx",
    some ⟨"docker.io", "library/nginx", "", ""⟩, 1⟩ (by decide) (by decide) (by decide)

/-- Claim C16 fails as stated: `Parse` accepts `library/nginx`, and the reference
under its own format renders as `docker.io/library/nginx`. -/
theorem C16_counterexample :
    Parse "library/nginx" = .ok ⟨"docker.io/library/nginx", "library/nginx", "", "", "docker.io",
      "library/nginx", some ⟨"docker.io", "library/nginx", "", ""⟩, 5⟩ ∧
    (⟨"docker.io/library/nginx", "library/nginx", "", "", "docker.io",
      "library/nginx", some ⟨"docker.io", "library/nginx", "", ""⟩, 5⟩ : dockref).WithRequestedFormat 5 =
      .ok ⟨"docker.io/library/nginx", "library/nginx", "", "", "docker.io",
      "library/nginx", some ⟨"docker.io", "library/nginx", "", ""⟩, 5⟩ ∧
    (⟨"docker.io/library/nginx", "library/nginx", "", "", "docker.io",
      "library/nginx", some ⟨"docker.io", "library/nginx", "", ""⟩, 5⟩ : dockref).Formatted =
      .ok "docker.io/library/nginx" ∧
    "docker.io/library/nginx" ≠ "library/nginx" := by
  decide

/-- Claim C17, amended: for every obtained reference whose name is not empty or
whose format lacks `FormatHasName`, and whose digest has a hex part (a `:`) when the
format has `FormatHasDigest` without `FormatHasName`, `Formatted` is the text of the
name segment, the tag segment and the digest segment, in this order. -/
theorem C17_formatted_segments (r : dockref) (ho : Obtained r)
    (hn : r.name ≠ "" ∨ Format.hasName r.format = false)
    (hd : Format.hasDigest r.format = true → Format.hasName r.format = false →
      (digest.Hex r.digest).isSome = true) :
    r.Formatted = .ok (renderedText r) := by
  have hinv := Obtained_named ho
  have h1 : Format.hasName r.format = true → ∃ n, r.named = some n := by
    intro hN
    have hne : r.name ≠ "" := by
      rcases hn with h | h
      · exact h
      · rw [hN] at h; cases h
    cases hm : r.named with
    | none => exact absurd (hinv.2 hm) hne
    | some n => exact ⟨n, rfl⟩
  have h2 : Format.hasDigest r.format = true → Format.hasName r.format = false →
      ∃ hex, digest.Hex r.digest = some hex := by
    intro hG hN
    have hx := hd hG hN
    cases hh : digest.Hex r.digest with
    | none => rw [hh] at hx; cases hx
    | some hex => exact ⟨hex, rfl⟩
  unfold dockref.Formatted renderedText
  cases hN : Format.hasName r.format <;> cases hT : Format.hasTag r.format <;>
    cases hG : Format.hasDigest r.format <;> cases hD : Format.hasDomain r.format
  all_goals
    cases hm : r.named <;> cases hh : digest.Hex r.digest <;>
      simp_all [String.append_assoc]

/-- The statement of C17 on the reference `Parse` makes of `nginx:1.2`. -/
theorem C17_formatted_segments_witness :
    (⟨"docker.io/library/nginx", "nginx:1.2", "1.2", "", "docker.io", "library/nginx",
      some ⟨"docker.io", "library/nginx", "1.2", ""⟩, 3⟩ : dockref).Formatted =
      .ok (renderedText ⟨"docker.io/library/nginx", "nginx:1.2", "1.2", "", "docker.io", "library/nginx",
      some ⟨"docker.io", "library/nginx", "1.2", ""⟩, 3⟩) :=
  C17_formatted_segments _ (ObtainedWith.parse "nginx:1.2" _ (by decide)) (by decide) (by decide)

/-- Claim C17 fails as stated: the reference `Parse` makes of `nginx`, given the
format `FormatHasDigest`, has a name and an empty digest, and `Formatted` panics on
it (`Digest.Hex` finds no separator). -/
theorem C17_counterexample :
    Parse "nginx" = .ok ⟨"docker.io/library/nginx", "nginx", "", "", "docker.io", "library/nginx",
      some ⟨"docker.io", "library/nginx", "", ""⟩, 1⟩ ∧
    (⟨"docker.io/library/nginx", "nginx", "", "", "docker.io", "library/nginx",
      some ⟨"docker.io", "library/nginx", "", ""⟩, 1⟩ : dockref).WithRequestedFormat FormatHasDigest =
      .ok ⟨"docker.io/library/nginx", "nginx", "", "", "docker.io", "library/nginx",
      some ⟨"docker.io", "library/nginx", "", ""⟩, 8⟩ ∧
    (⟨"docker.io/library/nginx", "nginx", "", "", "docker.io", "library/nginx",
      some ⟨"docker.io", "library/nginx", "", ""⟩, 8⟩ : dockref).Formatted = .panic := by
  decide

/-- Claim C18: `WithTag` sets the tag and keeps the seven other fields,
`WithDigest` sets the digest and keeps the seven other fields, and a successful
`WithRequestedFormat` keeps every field but the format. -/
theorem C18_with_changes_one_field (r : dockref) (t d : String) (f : Format) :
    ((r.WithTag t).tag = t ∧ (r.WithTag t).name = r.name ∧ (r.WithTag t).original = r.original ∧
      (r.WithTag t).digest = r.digest ∧ (r.WithTag t).domain = r.domain ∧
      (r.WithTag t).path = r.path ∧ (r.WithTag t).named = r.named ∧
      (r.WithTag t).format = r.format) ∧
    ((r.WithDigest d).digest = d ∧ (r.WithDigest d).name = r.name ∧
      (r.WithDigest d).original = r.original ∧ (r.WithDigest d).tag = r.tag ∧
      (r.WithDigest d).domain = r.domain ∧ (r.WithDigest d).path = r.path ∧
      (r.WithDigest d).named = r.named ∧ (r.WithDigest d).format = r.format) ∧
    (∀ r', r.WithRequestedFormat f = .ok r' →
      r'.name = r.name ∧ r'.original = r.original ∧ r'.tag = r.tag ∧ r'.digest = r.digest ∧
      r'.domain = r.domain ∧ r'.path = r.path ∧ r'.named = r.named) := by
  refine ⟨⟨rfl, rfl, rfl, rfl, rfl, rfl, rfl, rfl⟩, ⟨rfl, rfl, rfl, rfl, rfl, rfl, rfl, rfl⟩, ?_⟩
  intro r' h
  by_cases hv : (Format.Valid f).1 = true
  · rw [WithRequestedFormat_valid r f hv] at h
    cases h
    exact ⟨rfl, rfl, rfl, rfl, rfl, rfl, rfl⟩
  · obtain ⟨e, he⟩ := WithRequestedFormat_invalid r f (by simpa using hv)
    rw [he] at h
    cases h

/-- Claim C19, amended: a reference obtained from `Parse` or `ParseAlgoDigest`
through `WithTag`, `WithDigest` with a non-empty digest and successful
`WithRequestedFormat` has a non-empty digest when its name is empty. -/
theorem C19_name_or_digest (r : dockref) (h : ObtainedWith (fun d => d ≠ "") r) :
    r.name = "" → r.digest ≠ "" := by
  induction h with
  | parse s r hp =>
    rcases Parse_ok hp with ⟨n, hn, _, rfl⟩ | ⟨d, _, hd, _, rfl⟩
    · intro h0; exact absurd h0 hn
    · intro _; exact hd
  | parseAlgoDigest s r hp =>
    obtain ⟨hex, hp'⟩ := ParseAlgoDigest_ok hp
    rcases Parse_ok hp' with ⟨n, hn, _, rfl⟩ | ⟨d, _, hd, _, rfl⟩
    · intro h0; exact absurd h0 hn
    · intro _; exact hd
  | withTag r t _ ih => exact ih
  | withDigest r d _ hd _ => intro _; exact hd
  | withRequestedFormat r f r' _ hf ih =>
    by_cases hv : (Format.Valid f).1 = true
    · rw [WithRequestedFormat_valid r f hv] at hf
      cases hf
      exact ih
    · obtain ⟨e, he⟩ := WithRequestedFormat_invalid r f (by simpa using hv)
      rw [he] at hf
      cases hf

/-- The statement of C19 on the digest-only reference `Parse` makes of a text of 64
hexadecimal digits. -/
theorem C19_name_or_digest_witness :
    (⟨"", "db5acc22920799fe387a903437eb89387607e5b3f63cf0f4472ac182d7bad644", "", "sha256:db5acc22920799fe387a903437eb89387607e5b3f63cf0f4472ac182d7bad644", "", "", none, 8⟩ : dockref).digest ≠ "" :=
  C19_name_or_digest ⟨"", "db5acc22920799fe387a903437eb89387607e5b3f63cf0f4472ac182d7bad644", "", "sha256:db5acc22920799fe387a903437eb89387607e5b3f63cf0f4472ac182d7bad644", "", "", none, 8⟩
    (ObtainedWith.parse "db5acc22920799fe387a903437eb89387607e5b3f63cf0f4472ac182d7bad644" _ (by decide)) rfl

/-- Claim C19 fails as stated: `WithDigest` of the empty text on a digest-only
reference leaves a reference whose name and digest are both empty. -/
theorem C19_counterexample :
    Parse "db5acc22920799fe387a903437eb89387607e5b3f63cf0f4472ac182d7bad644" = .ok ⟨"", "db5acc22920799fe387a903437eb89387607e5b3f63cf0f4472ac182d7bad644", "", "sha256:db5acc22920799fe387a903437eb89387607e5b3f63cf0f4472ac182d7bad644", "", "", none, 8⟩ ∧
    ((⟨"", "db5acc22920799fe387a903437eb89387607e5b3f63cf0f4472ac182d7bad644", "", "sha256:db5acc22920799fe387a903437eb89387607e5b3f63cf0f4472ac182d7bad644", "", "", none, 8⟩ : dockref).WithDigest "").name = "" ∧
    ((⟨"", "db5acc22920799fe387a903437eb89387607e5b3f63cf0f4472ac182d7bad644", "", "sha256:db5acc22920799fe387a903437eb89387607e5b3f63cf0f4472ac182d7bad644", "", "", none, 8⟩ : dockref).WithDigest "").digest = "" := by
  decide

set_option maxRecDepth 100000 in
/-- Claim C20, at its failing input: a SHA-512 digest passes validation, and
`ParseAlgoDigest` returns for it, with a nil error, a reference named
`docker.io/library/` followed by the hex, of format `FormatHasName`; `Parse` of the
same text returns a digest-only reference.  A text that fails validation gives an
error. -/
theorem C20_sha512_gives_named_reference :
    digest.Validate "sha512:db5acc22920799fe387a903437eb89387607e5b3f63cf0f4472ac182d7bad6440123456789abcdef0123456789abcdef0123456789abcdef0123456789abcdef" = true ∧
    ParseAlgoDigest "sha512:db5acc22920799fe387a903437eb89387607e5b3f63cf0f4472ac182d7bad6440123456789abcdef0123456789abcdef0123456789abcdef0123456789abcdef" = .ok (some ⟨"docker.io/library/db5acc22920799fe387a903437eb89387607e5b3f63cf0f4472ac182d7bad6440123456789abcdef0123456789abcdef0123456789abcdef0123456789abcdef", "db5acc22920799fe387a903437eb89387607e5b3f63cf0f4472ac182d7bad6440123456789abcdef0123456789abcdef0123456789abcdef0123456789abcdef", "", "", "docker.io",
      "library/db5acc22920799fe387a903437eb89387607e5b3f63cf0f4472ac182d7bad6440123456789abcdef0123456789abcdef0123456789abcdef0123456789abcdef", some ⟨"docker.io", "library/db5acc22920799fe387a903437eb89387607e5b3f63cf0f4472ac182d7bad6440123456789abcdef0123456789abcdef0123456789abcdef0123456789abcdef", "", ""⟩, 1⟩) ∧
    Parse "sha512:db5acc22920799fe387a903437eb89387607e5b3f63cf0f4472ac182d7bad6440123456789abcdef0123456789abcdef0123456789abcdef0123456789abcdef" = .ok ⟨"", "sha512:db5acc22920799fe387a903437eb89387607e5b3f63cf0f4472ac182d7bad6440123456789abcdef0123456789abcdef0123456789abcdef0123456789abcdef", "", "sha512:db5acc22920799fe387a903437eb89387607e5b3f63cf0f4472ac182d7bad6440123456789abcdef0123456789abcdef0123456789abcdef0123456789abcdef", "", "", none, 8⟩ ∧
    digest.Validate "sha512:xyz" = false ∧
    ParseAlgoDigest "sha512:xyz" = .error "invalid digest" := by
  decide

/-! ### Formats: the bits of a parsed reference -/

theorem and_two_pow_eq (g i : Nat) : g &&& 2 ^ i = if g.testBit i = true then 2 ^ i else 0 := by
  apply Nat.eq_of_testBit_eq
  intro j
  rw [Nat.testBit_and, Nat.testBit_two_pow]
  by_cases h : i = j
  · subst h
    cases hb : g.testBit i <;> simp [Nat.testBit_two_pow_self]
  · cases hb : g.testBit i <;> simp [h, Nat.testBit_two_pow_of_ne h]

theorem hasBit_eq (g i : Nat) : (g &&& 2 ^ i != 0) = g.testBit i := by
  rw [and_two_pow_eq]
  cases hb : g.testBit i <;> simp

theorem hasName_eq (g : Format) : Format.hasName g = g.testBit 0 := hasBit_eq g 0

theorem hasTag_eq (g : Format) : Format.hasTag g = g.testBit 1 := hasBit_eq g 1

theorem hasDomain_eq (g : Format) : Format.hasDomain g = g.testBit 2 := hasBit_eq g 2

theorem hasDigest_eq (g : Format) : Format.hasDigest g = g.testBit 3 := hasBit_eq g 3

theorem requiredBits_testBit (r : dockref) (f : Format) :
    (requiredBits r f).testBit 1 = false ∧ (requiredBits r f).testBit 3 = false := by
  unfold requiredBits
  split_ifs <;> decide

theorem findDockrefFormat_bits (named : Option Named) (original name tag dig : String) :
    (Format.hasName (findDockrefFormat named original name tag dig) = true ↔ name ≠ "") ∧
    (Format.hasTag (findDockrefFormat named original name tag dig) = true ↔ tag ≠ "") ∧
    (Format.hasDigest (findDockrefFormat named original name tag dig) = true ↔ dig ≠ "") := by
  have h0 : ∀ f0 : Format, f0 = FormatHasDomain ∨ f0 = 0 →
      findDockrefFormat named original name tag dig =
        (if dig ≠ "" then
          (if tag ≠ "" then (if name ≠ "" then f0 ||| FormatHasName else f0) ||| FormatHasTag
            else (if name ≠ "" then f0 ||| FormatHasName else f0)) ||| FormatHasDigest
          else (if tag ≠ "" then (if name ≠ "" then f0 ||| FormatHasName else f0) ||| FormatHasTag
            else (if name ≠ "" then f0 ||| FormatHasName else f0))) →
      (Format.hasName (findDockrefFormat named original name tag dig) = true ↔ name ≠ "") ∧
      (Format.hasTag (findDockrefFormat named original name tag dig) = true ↔ tag ≠ "") ∧
      (Format.hasDigest (findDockrefFormat named original name tag dig) = true ↔ dig ≠ "") := by
    intro f0 hf0 he
    rw [he]
    rcases hf0 with rfl | rfl <;>
      by_cases hn : name = "" <;> by_cases ht : tag = "" <;> by_cases hd : dig = "" <;>
      simp only [hn, ht, hd, if_true, if_false, ne_eq, not_true_eq_false, not_false_eq_true,
        iff_true, iff_false] <;> decide
  cases named with
  | none => exact h0 0 (Or.inr rfl) rfl
  | some n =>
    by_cases h : reference.FamiliarString n ≠ original
    · refine h0 FormatHasDomain (Or.inl rfl) ?_
      unfold findDockrefFormat
      simp only [if_pos h]
    · refine h0 0 (Or.inr rfl) ?_
      unfold findDockrefFormat
      simp only [if_neg h]

/-- The format `Parse` records says which of the name, the tag and the digest the
reference has. -/
theorem Parse_format_bits {s : String} {r : dockref} (h : Parse s = .ok r) :
    (Format.hasName r.format = true ↔ r.name ≠ "") ∧
    (Format.hasTag r.format = true ↔ r.tag ≠ "") ∧
    (Format.hasDigest r.format = true ↔ r.digest ≠ "") := by
  rcases Parse_ok h with ⟨n, hn, _, rfl⟩ | ⟨d, _, hd, _, rfl⟩
  · exact findDockrefFormat_bits (some n) s n.Name n.tag n.digest
  · refine ⟨?_, ?_, ?_⟩
    · simp only [ne_eq, not_true_eq_false, iff_false]; decide
    · simp only [ne_eq, not_true_eq_false, iff_false]; decide
    · simp only [ne_eq, hd, not_false_eq_true, iff_true]; decide

/-- With `--no-name` alone the requested format is `HasTag | HasDigest`, and on a
reference of the default registry that is not digest-only the requested tag
brings the name back: the format is `HasName | HasTag | HasDigest`. -/
theorem WithRequestedFormat_noName (r : dockref) (hd : r.domain = "docker.io")
    (hf : r.format ≠ FormatHasDigest) :
    pinOptions.RefFormat ⟨⟨false, true, false, false⟩⟩ = .ok (FormatHasTag ||| FormatHasDigest) ∧
    r.WithRequestedFormat (FormatHasTag ||| FormatHasDigest) =
      .ok { r with format := FormatHasName ||| FormatHasTag ||| FormatHasDigest } := by
  refine ⟨by decide, ?_⟩
  rw [WithRequestedFormat_valid r _ (by decide), if_neg hf]
  unfold requiredBits
  rw [if_neg (by simp [hd]), if_pos (by decide)]
  rfl

theorem reference_Parse_digest {s : String} {n : Named}
    (h : reference.Parse s = some (.named n)) :
    n.digest = "" ∨ digest.Validate n.digest = true := by
  unfold reference.Parse at h
  cases hm : regexp.FindStringSubmatch reference.ReferenceRegexp s.data with
  | none => rw [hm] at h; cases h
  | some ms =>
    rw [hm] at h
    dsimp only at h
    by_cases hl : (String.mk (regexp.submatch ms 1)).utf8ByteSize > reference.NameTotalLengthMax
    · rw [if_pos hl] at h; cases h
    · rw [if_neg hl] at h
      by_cases h3 : regexp.submatch ms 3 ≠ []
      · rw [if_pos h3] at h
        cases hd : digest.Parse (String.mk (regexp.submatch ms 3)) with
        | none => rw [hd] at h; cases h
        | some d =>
          rw [hd] at h
          dsimp only at h
          have hn := (getBestReferenceType_named h).1
          obtain ⟨h1, h2⟩ := digest_Parse_some hd
          right
          rw [hn]
          dsimp only
          rw [h1]
          exact h2
      · rw [if_neg h3] at h
        have hn := (getBestReferenceType_named h).1
        left
        rw [hn]

theorem ParseAnyReference_named_digest {s : String} {n : Named}
    (h : reference.ParseAnyReference s = some (.named n)) :
    n.digest = "" ∨ digest.Validate n.digest = true := by
  unfold reference.ParseAnyReference at h
  split_ifs at h
  · cases h
  · cases hd : digest.Parse s with
    | some d => rw [hd] at h; cases h
    | none =>
      rw [hd] at h
      cases hp : reference.ParseNormalizedNamed s with
      | none => rw [hp] at h; cases h
      | some n' =>
        rw [hp] at h
        have hn : n' = n := by simpa using h
        subst hn
        unfold reference.ParseNormalizedNamed at hp
        split_ifs at hp
        dsimp only at hp
        split_ifs at hp
        cases hq : reference.Parse ((reference.splitDockerDomain s).1 ++ "/" ++
            (reference.splitDockerDomain s).2) with
        | none => rw [hq] at hp; cases hp
        | some x =>
          rw [hq] at hp
          cases x with
          | digestReference d => cases hp
          | named m =>
            have hm : m = n' := by simpa using hp
            subst hm
            exact reference_Parse_digest hq

/-- The digest of a reference `Parse` returns is empty or has a hex part. -/
theorem Parse_digest_valid {s : String} {r : dockref} (h : Parse s = .ok r) :
    r.digest = "" ∨ (digest.Hex r.digest).isSome = true := by
  rcases Parse_ok h with ⟨n, _, hp, rfl⟩ | ⟨d, hd, _, _, rfl⟩
  · rcases ParseAnyReference_named_digest hp with h0 | hv
    · exact Or.inl h0
    · exact Or.inr (Validate_ne_empty hv).1
  · exact Or.inr hd

/-- The text `Formatted` returns when the named part is there for the name and the
hex part for a digest without name: the segments of the name, the tag and the
digest. -/
theorem Formatted_eq_renderedText (r : dockref)
    (h1 : Format.hasName r.format = true → Format.hasDomain r.format = false → r.named ≠ none)
    (h2 : Format.hasDigest r.format = true → Format.hasName r.format = false →
      (digest.Hex r.digest).isSome = true) :
    r.Formatted = .ok (renderedText r) := by
  unfold dockref.Formatted renderedText
  cases hN : Format.hasName r.format <;> cases hT : Format.hasTag r.format <;>
    cases hG : Format.hasDigest r.format <;> cases hD : Format.hasDomain r.format
  all_goals
    cases hm : r.named <;> cases hh : digest.Hex r.digest <;>
      simp_all [String.append_assoc]

/-! ### The selector: where it is total -/

/-- On a non-empty list of candidates none of which carries a version below
`0.0.0` (a prerelease of `0.0.0`), `MostPreciseTag` returns a candidate. -/
theorem MostPreciseTag_total (l : List dockref) (hne : l ≠ [])
    (h0 : ∀ x ∈ l, ∀ w, parseVeryTolerant x.Tag = some w → 0 ≤ w.Compare semver.Version.zero) :
    ∃ r, MostPreciseTag (some (l.map some)) = Outcome.ok r := by
  have hU : keepNew [] l ≠ [] := by
    cases l with
    | nil => exact absurd rfl hne
    | cons a t =>
      obtain ⟨y, hy, _⟩ := keepNew_tag_mem [] (List.mem_cons_self a t) (by simp)
      intro h
      rw [h] at hy
      simp at hy
  rcases MostPreciseTag_cases l with ⟨r, _, h2⟩ | ⟨hns, ⟨b, _, h2⟩ | ⟨h1, h2⟩⟩
  · exact ⟨r, h2⟩
  · exact ⟨b, h2⟩
  · rw [h2]
    have hnone : ∀ x ∈ keepNew [] l, (parseVeryTolerant x.Tag).isNone = true := by
      intro x hx
      cases hp : parseVeryTolerant x.Tag with
      | none => rfl
      | some w =>
        have h3 := (bestSemVer_snd_none_iff _).1 h1 x hx w hp
        have h4 := h0 x (keepNew_mem hx).1 w hp
        omega
    have hN : (bestSemVer (keepNew [] l)).1 = keepNew [] l := by
      rw [bestSemVer_fst]
      exact List.filter_eq_self.2 hnone
    rw [hN]
    have hnd := keepNew_nodup [] l
    have hndE : ((removeEmpty (keepNew [] l)).map dockref.Tag).Nodup := by
      rw [removeEmpty_tags]
      exact hnd.filter _
    rcases chooseNonSemVer_cases (keepNew [] l) with ⟨r, _, h⟩ | ⟨hE, ⟨r, _, h⟩ | ⟨_, h⟩⟩
    · exact ⟨r, h⟩
    · exact ⟨r, h⟩
    · rw [h]
      have hL : removeLatest (removeEmpty (keepNew [] l)) ≠ [] := by
        intro hnil
        have hall : ∀ x ∈ removeEmpty (keepNew [] l), x.Tag = "latest" := by
          intro x hx
          by_contra hx'
          have : x ∈ removeLatest (removeEmpty (keepNew [] l)) := removeLatest_mem.2 ⟨hx, hx'⟩
          rw [hnil] at this
          simp at this
        have hEnil : removeEmpty (keepNew [] l) = [] := by
          cases hE' : removeEmpty (keepNew [] l) with
          | nil => rfl
          | cons a t =>
            exfalso
            have ha : a ∈ removeEmpty (keepNew [] l) := by rw [hE']; simp
            apply hE a
            apply eq_singleton_of_same_tag hndE ha
            intro x hx
            rw [hall x hx, hall a ha]
        have hall2 : ∀ x ∈ keepNew [] l, x.Tag = "" := by
          intro x hx
          by_contra hx'
          have : x ∈ removeEmpty (keepNew [] l) := removeEmpty_mem.2 ⟨hx, hx'⟩
          rw [hEnil] at this
          simp at this
        cases hU' : keepNew [] l with
        | nil => exact hU hU'
        | cons a t =>
          have ha : a ∈ keepNew [] l := by rw [hU']; simp
          apply hns a
          apply eq_singleton_of_same_tag hnd ha
          intro x hx
          rw [hall2 x hx, hall2 a ha]
      obtain ⟨best, hb, _⟩ := chooseLongest_spec _ hL
      exact ⟨best, hb⟩

/-! ### The resolver: the number of candidates -/

theorem resolveDigests_length {r r1 : dockref} {refs refs1 : List Reference} {digs : List String}
    (h : resolveDigests r refs digs = some (r1, refs1)) :
    refs1.length = refs.length + digs.length := by
  induction digs generalizing r refs with
  | nil =>
    simp only [resolveDigests, Option.some.injEq, Prod.mk.injEq] at h
    rw [← h.2]; rfl
  | cons dig rest ih =>
    unfold resolveDigests at h
    cases hm : MustParse dig with
    | none => rw [hm] at h; cases h
    | some digRef =>
      rw [hm] at h
      have := ih h
      simp only [List.length_append, List.length_cons, List.length_nil] at this ⊢
      omega

theorem resolveTags_length {reference : Reference} {digs tags : List String}
    {refs out : List Reference} (h : resolveTags reference digs refs tags = some out) :
    out.length = refs.length + tags.length * max 1 digs.length := by
  induction tags generalizing refs with
  | nil =>
    simp only [resolveTags, Option.some.injEq] at h
    rw [← h]; simp
  | cons tag rest ih =>
    unfold resolveTags at h
    cases hm : MustParse tag with
    | none => rw [hm] at h; cases h
    | some tagRef =>
      cases reference with
      | none => rw [hm] at h; cases h
      | some ref =>
        rw [hm] at h
        dsimp only at h
        cases hd : resolveDigests (ref.WithTag tagRef.Tag) refs digs with
        | none => rw [hd] at h; cases h
        | some p =>
          obtain ⟨r, refs1⟩ := p
          rw [hd] at h
          dsimp only at h
          have h1 := resolveDigests_length hd
          have h2 := ih h
          rw [h2, List.length_cons, Nat.succ_mul]
          by_cases h0 : digs.length = 0
          · rw [if_pos h0, List.length_append, List.length_singleton, h1, h0]
            simp only [Nat.max_zero, Nat.add_zero]
            omega
          · rw [if_neg h0, h1]
            have : max 1 digs.length = digs.length := by omega
            rw [this]
            omega

/-- The number of candidates `Resolve` returns: one for each pair of a tag and a
digest, one for each tag when there is no digest, one for the image ID when there
is neither tag nor digest, and none when there are digests but no tag. -/
theorem Resolve_length (repo : dockerDaemonResolver) (reference : Reference)
    (imageInspect : ImageInspect) (refs : List Reference)
    (hi : repo.imageInspect reference = .ok imageInspect)
    (h : repo.Resolve reference = .ok refs) :
    refs.length = imageInspect.RepoTags.length * max 1 imageInspect.RepoDigests.length +
      (if imageInspect.RepoDigests.length = 0 ∧ imageInspect.RepoTags.length = 0 then 1 else 0) := by
  unfold dockerDaemonResolver.Resolve at h
  rw [hi] at h
  dsimp only at h
  cases ht : resolveTags reference imageInspect.RepoDigests [] imageInspect.RepoTags with
  | none => rw [ht] at h; cases h
  | some out =>
    rw [ht] at h
    dsimp only at h
    have hl := resolveTags_length ht
    simp only [List.length_nil, Nat.zero_add] at hl
    by_cases hc : imageInspect.RepoDigests.length = 0 ∧ imageInspect.RepoTags.length = 0
    · rw [if_pos hc]
      have hc' : (decide (imageInspect.RepoDigests.length = 0) &&
          decide (imageInspect.RepoTags.length = 0)) = true := by simp [hc.1, hc.2]
      rw [if_pos hc'] at h
      cases hm : MustParseAlgoDigest imageInspect.ID with
      | none => rw [hm] at h; cases h
      | some r =>
        rw [hm] at h
        cases h
        rw [List.length_append, hl]
        rfl
    · rw [if_neg hc]
      have hc' : ¬ (decide (imageInspect.RepoDigests.length = 0) &&
          decide (imageInspect.RepoTags.length = 0)) = true := by simpa using hc
      rw [if_neg hc'] at h
      cases h
      rw [hl]
      rfl

/-! ### The directive processor: a lossless parse and the rewrite loop -/

theorem splitLines_flatten (cs : List Char) : (dockerfile.splitLines cs).flatten = cs := by
  induction cs with
  | nil => rfl
  | cons c rest ih =>
    unfold dockerfile.splitLines
    by_cases hc : c = '\n'
    · rw [if_pos hc]
      simp [ih]
    · rw [if_neg hc]
      cases hs : dockerfile.splitLines rest with
      | nil =>
        rw [hs] at ih
        simp at ih
        simp [← ih]
      | cons l ls =>
        rw [hs] at ih
        simp only [List.flatten_cons] at ih ⊢
        rw [← ih]
        simp

theorem joinContinued_flatten (ls : List (List Char)) : (dockerfile.joinContinued ls).flatten = ls.flatten := by
  induction ls with
  | nil => rfl
  | cons l rest ih =>
    unfold dockerfile.joinContinued
    cases hj : dockerfile.joinContinued rest with
    | nil =>
      rw [hj] at ih
      simp only [List.flatten_cons, ← ih]
    | cons m ms =>
      rw [hj] at ih
      dsimp only
      by_cases hc : dockerfile.continues l = true
      · rw [if_pos hc]
        simp only [List.flatten_cons, ← ih, List.append_assoc]
      · rw [if_neg hc]
        simp only [List.flatten_cons, ← ih]

theorem classify_text (line : List Char) : (dockerfile.classify line).text = String.mk line := by
  unfold dockerfile.classify
  dsimp only
  split_ifs
  · show String.mk _ ++ String.mk _ ++ String.mk _ = String.mk line
    apply String.ext
    simp only [String.data_append]
    rw [List.append_assoc, List.append_assoc, List.append_assoc, List.takeWhile_append_dropWhile,
      List.takeWhile_append_dropWhile, List.takeWhile_append_dropWhile,
      List.takeWhile_append_dropWhile]
  · rfl

/-- The text of a directive stream: the texts of its directives, one after the
other. -/
theorem interleave_frames (ds : List dockerfile.Directive) :
    (dockerfile.frames ds).length = (dockerfile.tokens ds).length + 1 ∧
    dockerfile.interleave (dockerfile.frames ds) (dockerfile.tokens ds) = (ds.map dockerfile.Directive.text).foldr (fun a b => a ++ b) "" := by
  induction ds with
  | nil => exact ⟨rfl, rfl⟩
  | cons d rest ih =>
    obtain ⟨hl, ht⟩ := ih
    cases hf : dockerfile.frames rest with
    | nil => rw [hf] at hl; simp at hl
    | cons f fs =>
      rw [hf] at hl ht
      cases d with
      | carried text =>
        simp only [dockerfile.frames, hf, dockerfile.tokens, List.map_cons, List.foldr_cons, dockerfile.Directive.text]
        refine ⟨by simpa using hl, ?_⟩
        rw [← ht]
        cases htk : dockerfile.tokens rest with
        | nil => simp [dockerfile.interleave]
        | cons x xs => simp [dockerfile.interleave, String.append_assoc]
      | imageSource before token after =>
        simp only [dockerfile.frames, hf, dockerfile.tokens, List.map_cons, List.foldr_cons, dockerfile.Directive.text]
        refine ⟨by simpa using hl, ?_⟩
        rw [← ht]
        cases htk : dockerfile.tokens rest with
        | nil => simp [dockerfile.interleave, String.append_assoc]
        | cons x xs => simp [dockerfile.interleave, String.append_assoc]

theorem classify_map_text (lines : List (List Char)) :
    ((lines.map dockerfile.classify).map dockerfile.Directive.text).foldr (fun a b => a ++ b) "" =
      String.mk lines.flatten := by
  induction lines with
  | nil => rfl
  | cons line rest ih =>
    simp only [List.map_cons, List.foldr_cons, List.flatten_cons]
    rw [ih, classify_text]
    rfl

/-- The parse of a document is lossless: the document is the text of its
directive stream, that is its frames with its tokens between them. -/
theorem directives_lossless (document : String) :
    document = dockerfile.interleave (dockerfile.documentFrames document) (dockerfile.imageTokens document) := by
  unfold dockerfile.documentFrames dockerfile.imageTokens
  rw [(interleave_frames (dockerfile.directives document)).2]
  unfold dockerfile.directives dockerfile.instructions
  rw [classify_map_text, joinContinued_flatten, splitLines_flatten]

theorem frames_ne_nil (ds : List dockerfile.Directive) : dockerfile.frames ds ≠ [] := by
  intro h
  have := (interleave_frames ds).1
  rw [h] at this
  simp at this

theorem interleave_append (text f : String) (fs xs : List String) :
    dockerfile.interleave ((text ++ f) :: fs) xs = text ++ dockerfile.interleave (f :: fs) xs := by
  cases xs with
  | nil => rfl
  | cons x xs => simp [dockerfile.interleave, String.append_assoc]

/-- The loop of `Process` with a callback that returns a text at every invocation,
on a stream whose tokens are references: it invokes the callback once on each, in
order, and writes the frames with the returned texts between them. -/
theorem processAll_returning {σ : Type} (callback : σ → dockref → σ × String)
    (ds : List dockerfile.Directive) (refs : List dockref) (k : Nat) (s : σ) (out : String)
    (h : (dockerfile.tokens ds).map Parse = refs.map Outcome.ok) :
    dockerfile.processAll (dockerfile.returning callback) k ds s out =
      ⟨(dockerfile.invokeEach callback s refs).1,
        out ++ dockerfile.interleave (dockerfile.frames ds) (dockerfile.invokeEach callback s refs).2, none⟩ := by
  induction ds generalizing refs k s out with
  | nil =>
    cases refs with
    | nil => simp [dockerfile.processAll, dockerfile.invokeEach, dockerfile.frames, dockerfile.interleave]
    | cons r rest => simp [dockerfile.tokens] at h
  | cons d rest ih =>
    cases d with
    | carried text =>
      simp only [dockerfile.tokens] at h
      simp only [dockerfile.processAll, dockerfile.frames]
      rw [ih refs (k + 1) s (out ++ text) h]
      cases hf : dockerfile.frames rest with
      | nil => exact absurd hf (frames_ne_nil rest)
      | cons f fs =>
        dsimp only
        rw [interleave_append, String.append_assoc]
    | imageSource before token after =>
      simp only [dockerfile.tokens, List.map_cons] at h
      cases refs with
      | nil => simp at h
      | cons r rs =>
        simp only [List.map_cons, List.cons.injEq] at h
        obtain ⟨h1, h2⟩ := h
        simp only [dockerfile.processAll, h1, dockerfile.returning, dockerfile.frames, dockerfile.invokeEach]
        have := ih rs (k + 1) (callback s r).1 (out ++ (before ++ (callback s r).2 ++ after)) h2
        simp only [dockerfile.returning] at this
        rw [this]
        cases hf : dockerfile.frames rest with
        | nil => exact absurd hf (frames_ne_nil rest)
        | cons f fs =>
          dsimp only
          simp only [dockerfile.interleave]
          rw [interleave_append]
          simp only [String.append_assoc]

theorem processAll_error {σ : Type} (callback : σ → dockref → σ × Except dockerfile.Error String)
    (ds : List dockerfile.Directive) (s s1 : σ) (token : String) (toks : List String) (r : dockref)
    (e : dockerfile.Error) (htok : dockerfile.tokens ds = token :: toks) (hr : Parse token = .ok r)
    (he : callback s r = (s1, .error e)) :
    ∃ pre before rest : String,
      (ds.map dockerfile.Directive.text).foldr (fun a b => a ++ b) "" = pre ++ before ++ token ++ rest ∧
      ∀ k out, dockerfile.processAll callback k ds s out = ⟨s1, out ++ pre, some e⟩ := by
  induction ds with
  | nil => simp [dockerfile.tokens] at htok
  | cons d rest ih =>
    cases d with
    | carried text =>
      simp only [dockerfile.tokens] at htok
      obtain ⟨pre, before, post, h1, h2⟩ := ih htok
      refine ⟨text ++ pre, before, post, ?_, ?_⟩
      · simp only [List.map_cons, List.foldr_cons, dockerfile.Directive.text, h1, String.append_assoc]
      · intro k out
        simp only [dockerfile.processAll]
        rw [h2, String.append_assoc]
    | imageSource before tok after =>
      simp only [dockerfile.tokens, List.cons.injEq] at htok
      obtain ⟨h1, _⟩ := htok
      subst h1
      refine ⟨"", before, after ++ (rest.map dockerfile.Directive.text).foldr (fun a b => a ++ b) "", ?_, ?_⟩
      · simp only [List.map_cons, List.foldr_cons, dockerfile.Directive.text, String.append_assoc,
          String.empty_append]
      · intro k out
        simp only [dockerfile.processAll, hr, he, String.append_empty]

set_option maxRecDepth 100000 in
/-- The model of the directive processor on the documents of the tests of
`dockerfile_test.go`: the results are the ones the tests assert. -/
theorem dockerfile_tests :
    dockerfile.ValidateInput "" ≠ none ∧
    dockerfile.ValidateInput "RUN command" ≠ none ∧
    dockerfile.ValidateInput "other stuff" ≠ none ∧
    dockerfile.ValidateInput "FROM scratch" = none ∧
    dockerfile.ValidateInput "FROM scratch\nInvalid thing" ≠ none ∧
    dockerfile.ValidateInput "FROM nginx" = none ∧
    dockerfile.ValidateInput "FROM nginx:tag" = none ∧
    dockerfile.ValidateInput "FROM nginx:tag\nFROM something:tag" = none ∧
    dockerfile.ValidateInput "FROM nginx:tag\nRUN some \\\n\tcommand" = none ∧
    (dockerfile.Process (dockerfile.returning dockerfile.countCalls) 0
      "FROM nginx:tag\nRUN some \\\n\tcommand\n\nFROM something:tag").state = 2 ∧
    (dockerfile.Process (dockerfile.returning dockerfile.countCalls) 0
      "FROM nginx:tag\nRUN some \\\n\tcommand\n\nFROM something:tag").err = none ∧
    (dockerfile.Process (fun (u : Unit) _ => (u, Except.error (dockerfile.Error.other "Expected")))
      () "FROM valid").err = some (dockerfile.Error.other "Expected") ∧
    (dockerfile.Process (dockerfile.returning dockerfile.countCalls) 0 dockerfile.multistage).state = 2 ∧
    (dockerfile.Process (dockerfile.returning dockerfile.countCalls) 0 dockerfile.multistage).err = none ∧
    (dockerfile.Process (dockerfile.returning dockerfile.countCalls) 0 "FROM nginx:a:b").err ≠ none ∧
    dockerfile.ValidateInput
      "FROM nginx@sha256:db5acc22920799fe387a903437eb89387607e5b3f63cf0f4472ac182d7bad644" = none ∧
    (dockerfile.Process (dockerfile.returning dockerfile.countCalls) 0
      "FROM nginx@sha256:db5acc22920799fe387a903437eb89387607e5b3f63cf0f4472ac182d7bad644").err = none ∧
    (dockerfile.Process (dockerfile.returning (fun (u : Unit) _ => (u, "nginx@pinned"))) ()
      "FROM nginx").output = "FROM nginx@pinned" := by
  decide

/-! ### The pin command, the resolver, the directive processor and the invariants: the claims -/

set_option maxRecDepth 100000 in
/-- Claim C21, at its failing input.  With `--no-name` as the only option `RefFormat`
returns `HasTag | HasDigest`: the flag clears the name and leaves the tag.  On the
reference of `nginx:1.15@sha256:db5a…`, of the default registry, with a name, a tag
and a digest, `WithRequestedFormat` puts the name back for the requested tag: the
format is `HasName | HasTag | HasDigest`, not `HasDigest`, and the text is the name,
the tag and the digest. -/
theorem C21_no_name_alone_renders_name_and_tag :
    pinOptions.RefFormat ⟨⟨false, true, false, false⟩⟩ = .ok (FormatHasTag ||| FormatHasDigest) ∧
    Parse "nginx:1.15@sha256:db5acc22920799fe387a903437eb89387607e5b3f63cf0f4472ac182d7bad644" =
      .ok ⟨"docker.io/library/nginx",
        "nginx:1.15@sha256:db5acc22920799fe387a903437eb89387607e5b3f63cf0f4472ac182d7bad644",
        "1.15", "sha256:db5acc22920799fe387a903437eb89387607e5b3f63cf0f4472ac182d7bad644",
        "docker.io", "library/nginx",
        some ⟨"docker.io", "library/nginx", "1.15",
          "sha256:db5acc22920799fe387a903437eb89387607e5b3f63cf0f4472ac182d7bad644"⟩, 11⟩ ∧
    (⟨"docker.io/library/nginx",
        "nginx:1.15@sha256:db5acc22920799fe387a903437eb89387607e5b3f63cf0f4472ac182d7bad644",
        "1.15", "sha256:db5acc22920799fe387a903437eb89387607e5b3f63cf0f4472ac182d7bad644",
        "docker.io", "library/nginx",
        some ⟨"docker.io", "library/nginx", "1.15",
          "sha256:db5acc22920799fe387a903437eb89387607e5b3f63cf0f4472ac182d7bad644"⟩, 11⟩ :
      dockref).WithRequestedFormat (FormatHasTag ||| FormatHasDigest) =
      .ok ⟨"docker.io/library/nginx",
        "nginx:1.15@sha256:db5acc22920799fe387a903437eb89387607e5b3f63cf0f4472ac182d7bad644",
        "1.15", "sha256:db5acc22920799fe387a903437eb89387607e5b3f63cf0f4472ac182d7bad644",
        "docker.io", "library/nginx",
        some ⟨"docker.io", "library/nginx", "1.15",
          "sha256:db5acc22920799fe387a903437eb89387607e5b3f63cf0f4472ac182d7bad644"⟩,
        FormatHasName ||| FormatHasTag ||| FormatHasDigest⟩ ∧
    (⟨"docker.io/library/nginx",
        "nginx:1.15@sha256:db5acc22920799fe387a903437eb89387607e5b3f63cf0f4472ac182d7bad644",
        "1.15", "sha256:db5acc22920799fe387a903437eb89387607e5b3f63cf0f4472ac182d7bad644",
        "docker.io", "library/nginx",
        some ⟨"docker.io", "library/nginx", "1.15",
          "sha256:db5acc22920799fe387a903437eb89387607e5b3f63cf0f4472ac182d7bad644"⟩,
        FormatHasName ||| FormatHasTag ||| FormatHasDigest⟩ : dockref).Formatted =
      .ok "nginx:1.15@sha256:db5acc22920799fe387a903437eb89387607e5b3f63cf0f4472ac182d7bad644" := by
  decide

/-- Claim C22, amended: for every valid document whose image-source tokens are all
references, and every callback that returns a text at each invocation, `Process`
invokes the callback exactly once on the reference of each image-source
directive (there is at least one), in document order, returns no error, and
writes the document with exactly each token replaced by the text the callback
returned for it: the document is its frames with the tokens between them, the
output is the same frames with the returned texts between them. -/
theorem C22_process_rewrites_tokens {σ : Type} (document : String)
    (callback : σ → dockref → σ × String) (s : σ) (refs : List dockref)
    (hvalid : dockerfile.ValidateInput document = none)
    (hrefs : (dockerfile.imageTokens document).map Parse = refs.map Outcome.ok) :
    0 < refs.length ∧
    (dockerfile.documentFrames document).length = refs.length + 1 ∧
    document = dockerfile.interleave (dockerfile.documentFrames document) (dockerfile.imageTokens document) ∧
    dockerfile.Process (dockerfile.returning callback) s document =
      ⟨(dockerfile.invokeEach callback s refs).1,
        dockerfile.interleave (dockerfile.documentFrames document) (dockerfile.invokeEach callback s refs).2, none⟩ := by
  have hlen : (dockerfile.imageTokens document).length = refs.length := by
    have := congrArg List.length hrefs
    simpa using this
  refine ⟨?_, ?_, directives_lossless document, ?_⟩
  · unfold dockerfile.ValidateInput at hvalid
    cases hf : dockerfile.firstIllFormed 0 (dockerfile.instructions document) with
    | some l => rw [hf] at hvalid; cases hvalid
    | none =>
      rw [hf] at hvalid
      dsimp only at hvalid
      by_cases h0 : dockerfile.imageTokens document = []
      · rw [if_pos h0] at hvalid; cases hvalid
      · rw [← hlen]
        exact List.length_pos.2 h0
  · unfold dockerfile.documentFrames
    rw [(interleave_frames (dockerfile.directives document)).1, ← hlen]
    rfl
  · unfold dockerfile.Process dockerfile.documentFrames
    rw [processAll_returning callback (dockerfile.directives document) refs 0 s "" hrefs,
      String.empty_append]

set_option maxRecDepth 100000 in
/-- The statement of C22 on the two-stage document of the tests, with `FROM nginx:tag`
and `FROM something:tag`, and the callback that counts its invocations and returns
the empty text: the callback runs exactly twice, and every line but the two tokens
is written as it was read. -/
theorem C22_process_rewrites_tokens_witness :
    dockerfile.multistage = dockerfile.interleave (dockerfile.documentFrames dockerfile.multistage) ["nginx:tag", "something:tag"] ∧
    dockerfile.Process (dockerfile.returning dockerfile.countCalls) 0 dockerfile.multistage =
      ⟨2, "FROM \nRUN some \\\n\tcommand\n\nFROM \nRUN something \\\n\tin the end\n\n# And a comment", none⟩ :=
  ⟨(C22_process_rewrites_tokens dockerfile.multistage dockerfile.countCalls 0
      [⟨"docker.io/library/nginx", "nginx:tag", "tag", "", "docker.io", "library/nginx",
          some ⟨"docker.io", "library/nginx", "tag", ""⟩, 3⟩,
        ⟨"docker.io/library/something", "something:tag", "tag", "", "docker.io",
          "library/something", some ⟨"docker.io", "library/something", "tag", ""⟩, 3⟩]
      (by decide) (by decide)).2.2.1,
   (C22_process_rewrites_tokens dockerfile.multistage dockerfile.countCalls 0
      [⟨"docker.io/library/nginx", "nginx:tag", "tag", "", "docker.io", "library/nginx",
          some ⟨"docker.io", "library/nginx", "tag", ""⟩, 3⟩,
        ⟨"docker.io/library/something", "something:tag", "tag", "", "docker.io",
          "library/something", some ⟨"docker.io", "library/something", "tag", ""⟩, 3⟩]
      (by decide) (by decide)).2.2.2.trans (by decide)⟩

/-- Claim C22 fails as stated.  The document `FROM nginx:a:b` is valid, it has one
image-source directive, and its token is no reference: `Process` fails with a
classification error, writes nothing and never invokes the callback.  On the valid
two-stage document of the tests a callback that returns an error is invoked once,
not twice, and nothing is written. -/
theorem C22_counterexample :
    dockerfile.ValidateInput "FROM nginx:a:b" = none ∧
    dockerfile.imageTokens "FROM nginx:a:b" = ["nginx:a:b"] ∧
    Parse "nginx:a:b" = .error "invalid reference format" ∧
    dockerfile.Process (dockerfile.returning dockerfile.countCalls) 0 "FROM nginx:a:b" =
      ⟨0, "", some (.ClassificationError 0)⟩ ∧
    dockerfile.ValidateInput dockerfile.multistage = none ∧
    dockerfile.imageTokens dockerfile.multistage = ["nginx:tag", "something:tag"] ∧
    dockerfile.Process (fun (calls : Nat) (_ : dockref) => (calls + 1, Except.error (dockerfile.Error.other "Expected")))
      0 dockerfile.multistage = ⟨1, "", some (dockerfile.Error.other "Expected")⟩ := by
  decide

/-- Claim C23: when the callback, invoked on the reference of the first image-source
directive of a document, returns the error `e`, `Process` returns exactly `e`; the
callback is left in the state of that single invocation, and what was written is
the text of the document that comes before the directive, with no substitution
in it. -/
theorem C23_callback_error_is_returned {σ : Type} (document : String)
    (callback : σ → dockref → σ × Except dockerfile.Error String) (s s1 : σ) (token : String)
    (toks : List String) (r : dockref) (e : dockerfile.Error)
    (htok : dockerfile.imageTokens document = token :: toks)
    (hr : Parse token = .ok r)
    (he : callback s r = (s1, .error e)) :
    ∃ out before rest : String, document = out ++ before ++ token ++ rest ∧
      dockerfile.Process callback s document = ⟨s1, out, some e⟩ := by
  obtain ⟨pre, before, rest, h1, h2⟩ :=
    processAll_error callback (dockerfile.directives document) s s1 token toks r e htok hr he
  refine ⟨pre, before, rest, ?_, ?_⟩
  · rw [← h1, ← (interleave_frames (dockerfile.directives document)).2]
    exact directives_lossless document
  · unfold dockerfile.Process
    rw [h2, String.empty_append]

/-- The statement of C23 on the document `FROM valid` and the callback of the tests,
which returns the error `Expected`; the callback here also counts its invocations:
one. -/
theorem C23_callback_error_is_returned_witness :
    ∃ out before rest : String, "FROM valid" = out ++ before ++ "valid" ++ rest ∧
      dockerfile.Process (fun (calls : Nat) (_ : dockref) => (calls + 1, Except.error (dockerfile.Error.other "Expected")))
        0 "FROM valid" = ⟨1, out, some (dockerfile.Error.other "Expected")⟩ :=
  C23_callback_error_is_returned "FROM valid"
    (fun (calls : Nat) (_ : dockref) => (calls + 1, Except.error (dockerfile.Error.other "Expected"))) 0 1
    "valid" []
    ⟨"docker.io/library/valid", "valid", "", "", "docker.io", "library/valid",
      some ⟨"docker.io", "library/valid", "", ""⟩, 1⟩
    (dockerfile.Error.other "Expected") (by decide) (by decide) rfl

/-- Claim C24, at its failing inputs.  On the two candidates `0.0.0-rc1` and the empty
tag, and on the three candidates `0.0-alpha`, `0-beta` and the empty tag, the
selector panics: the prerelease of `0.0.0` is semver-parseable and never becomes
`best`, the empty tag is removed, and `filterNonLongest` reads `nonLatest[0]` of an
empty slice. -/
theorem C24_selection_panics :
    MostPreciseTag (some [some (tagged "0.0.0-rc1"), some (tagged "")]) = Outcome.panic ∧
    MostPreciseTag (some [some (tagged "0.0-alpha"), some (tagged "0-beta"), some (tagged "")]) =
      Outcome.panic ∧
    (parseVeryTolerant "0.0.0-rc1").isSome = true ∧
    bestSemVer [tagged "0.0.0-rc1", tagged ""] = ([tagged ""], none) ∧
    removeLatest (removeEmpty [tagged ""]) = [] ∧ filterNonLongest [] = none := by
  decide

/-- Claim C25, at its failing inputs: for every reference and every inspection result
with no entry in `RepoTags` and at least one entry in `RepoDigests`, whatever the
image ID, `Resolve` returns the empty list with a nil error, on which
`MostPreciseTag` panics. -/
theorem C25_no_tags_gives_no_candidates (reference : Reference) (ID dig : String)
    (digs : List String) :
    dockerDaemonResolver.Resolve ⟨fun _ => .ok ⟨ID, [], dig :: digs⟩⟩ reference = .ok [] ∧
    MostPreciseTag (some []) = Outcome.panic := by
  constructor <;> rfl

/-- Claim C26: every reference obtained from a successful `Parse` (or `ParseAlgoDigest`)
through `WithTag`, `WithDigest` and successful `WithRequestedFormat` calls that has
an empty name has the format `HasDigest` exactly; a reference without named part
has an empty name, so its format lacks `HasName` and `Formatted` does not reach the
name of a missing named part. -/
theorem C26_nameless_is_digest_only (r : dockref) (h : Obtained r) :
    (r.name = "" → r.format = FormatHasDigest) ∧
    (r.named = none → r.name = "") ∧
    (r.named = none → Format.hasName r.format = false) := by
  have hinv : r.name = "" → r.format = FormatHasDigest := by
    unfold Obtained at h
    induction h with
    | parse s r hp =>
      rcases Parse_ok hp with ⟨n, hn, _, rfl⟩ | ⟨d, _, _, _, rfl⟩
      · intro h0; exact absurd h0 hn
      · intro _; rfl
    | parseAlgoDigest s r hp =>
      obtain ⟨hex, hp'⟩ := ParseAlgoDigest_ok hp
      rcases Parse_ok hp' with ⟨n, hn, _, rfl⟩ | ⟨d, _, _, _, rfl⟩
      · intro h0; exact absurd h0 hn
      · intro _; rfl
    | withTag r t _ ih => exact ih
    | withDigest r d _ _ ih => exact ih
    | withRequestedFormat r f r' _ hf ih =>
      by_cases hv : (Format.Valid f).1 = true
      · rw [WithRequestedFormat_valid r f hv] at hf
        cases hf
        intro h0
        have := ih h0
        simp only [this, if_true]
      · obtain ⟨e, he⟩ := WithRequestedFormat_invalid r f (by simpa using hv)
        rw [he] at hf
        cases hf
  have hn := Obtained_named h
  refine ⟨hinv, hn.2, ?_⟩
  intro h0
  rw [hinv (hn.2 h0)]
  decide

set_option maxRecDepth 100000 in
/-- The statement of C26 on the reference of a bare 64-digit identifier, given the tag
`1.0` and then the requested format `HasName | HasTag | HasDigest`: it is obtained,
and its format is still `HasDigest`, without `HasName`. -/
theorem C26_nameless_is_digest_only_witness :
    Obtained ⟨"", "db5acc22920799fe387a903437eb89387607e5b3f63cf0f4472ac182d7bad644", "1.0",
      "sha256:db5acc22920799fe387a903437eb89387607e5b3f63cf0f4472ac182d7bad644", "", "", none, 8⟩ ∧
    (⟨"", "db5acc22920799fe387a903437eb89387607e5b3f63cf0f4472ac182d7bad644", "1.0",
      "sha256:db5acc22920799fe387a903437eb89387607e5b3f63cf0f4472ac182d7bad644", "", "", none, 8⟩ :
        dockref).format = FormatHasDigest ∧
    Format.hasName (⟨"", "db5acc22920799fe387a903437eb89387607e5b3f63cf0f4472ac182d7bad644", "1.0",
      "sha256:db5acc22920799fe387a903437eb89387607e5b3f63cf0f4472ac182d7bad644", "", "", none, 8⟩ :
        dockref).format = false :=
  have hob : Obtained ⟨"", "db5acc22920799fe387a903437eb89387607e5b3f63cf0f4472ac182d7bad644", "1.0",
      "sha256:db5acc22920799fe387a903437eb89387607e5b3f63cf0f4472ac182d7bad644", "", "", none, 8⟩ :=
    ObtainedWith.withRequestedFormat
      ((⟨"", "db5acc22920799fe387a903437eb89387607e5b3f63cf0f4472ac182d7bad644", "",
        "sha256:db5acc22920799fe387a903437eb89387607e5b3f63cf0f4472ac182d7bad644", "", "", none, 8⟩ :
          dockref).WithTag "1.0")
      (FormatHasName ||| FormatHasTag ||| FormatHasDigest) _
      (ObtainedWith.withTag _ "1.0"
        (ObtainedWith.parse "db5acc22920799fe387a903437eb89387607e5b3f63cf0f4472ac182d7bad644" _
          (by decide)))
      (by decide)
  ⟨hob, (C26_nameless_is_digest_only _ hob).1 rfl, (C26_nameless_is_digest_only _ hob).2.2 rfl⟩

/-- Claim C27: the reference `MostPreciseTag` returns on a list of non-nil candidates
is an element of the list, and it is the first element of the list that carries
its tag. -/
theorem C27_returned_is_first_with_its_tag (l : List dockref) (r : dockref)
    (h : MostPreciseTag (some (l.map some)) = Outcome.ok r) :
    r ∈ l ∧ l.find? (fun x => x.Tag == r.Tag) = some r := by
  have hU : r ∈ keepNew [] l := by
    rcases MostPreciseTag_cases l with ⟨r', h1, h2⟩ | ⟨_, ⟨b, h1, h2⟩ | ⟨h1, h2⟩⟩
    · rw [h2] at h; cases h
      rw [h1]; simp
    · rw [h2] at h; cases h
      exact (bestSemVer_snd_some h1).1
    · rw [h2] at h
      have hm := chooseNonSemVer_mem h
      rw [bestSemVer_fst] at hm
      exact (List.mem_filter.1 hm).1
  exact ⟨(keepNew_mem hU).1, keepNew_find hU⟩

/-- The statement of C27 on three candidates, the first two with the tag `1.2` and
different digests, the third with the tag `latest`: the first one is returned. -/
theorem C27_returned_is_first_with_its_tag_witness :
    (⟨"nginx", "", "1.2", "first", "", "", none, 0⟩ : dockref) ∈
      [⟨"nginx", "", "1.2", "first", "", "", none, 0⟩, ⟨"nginx", "", "1.2", "second", "", "", none, 0⟩,
        tagged "latest"] ∧
    List.find? (fun x => x.Tag == (⟨"nginx", "", "1.2", "first", "", "", none, 0⟩ : dockref).Tag)
      [⟨"nginx", "", "1.2", "first", "", "", none, 0⟩, ⟨"nginx", "", "1.2", "second", "", "", none, 0⟩,
        tagged "latest"] = some ⟨"nginx", "", "1.2", "first", "", "", none, 0⟩ :=
  C27_returned_is_first_with_its_tag
    [⟨"nginx", "", "1.2", "first", "", "", none, 0⟩, ⟨"nginx", "", "1.2", "second", "", "", none, 0⟩,
      tagged "latest"]
    ⟨"nginx", "", "1.2", "first", "", "", none, 0⟩ (by decide)

/-- Claim C28, amended: for every reference `r` returned by a successful `Parse` and
every valid requested format `f` that contains `HasTag` only if `r` has a tag and
`HasDigest` only if `r` has a digest, the reference returned by
`r.WithRequestedFormat(f)` has the tag and the digest of `r`, a non-empty tag
whenever its format contains `HasTag`, and a non-empty digest whenever its format
contains `HasDigest`; its `Formatted` text is made of the segments of the name, of
that tag after `:` and of that digest. -/
theorem C28_requested_parts_present (s : String) (r r' : dockref) (f : Format)
    (hp : Parse s = .ok r) (hv : (Format.Valid f).1 = true)
    (htag : Format.hasTag f = true → r.tag ≠ "")
    (hdig : Format.hasDigest f = true → r.digest ≠ "")
    (hw : r.WithRequestedFormat f = .ok r') :
    r'.tag = r.tag ∧ r'.digest = r.digest ∧
    (Format.hasTag r'.format = true → r'.tag ≠ "") ∧
    (Format.hasDigest r'.format = true → r'.digest ≠ "") ∧
    r'.Formatted = .ok (renderedText r') := by
  rw [WithRequestedFormat_valid r f hv] at hw
  cases hw
  have hT : Format.hasTag (if r.format = FormatHasDigest then FormatHasDigest
      else f ||| requiredBits r f) = true → r.tag ≠ "" := by
    by_cases h8 : r.format = FormatHasDigest
    · rw [if_pos h8]
      intro h; exact absurd h (by decide)
    · rw [if_neg h8, hasTag_eq, Nat.testBit_or, (requiredBits_testBit r f).1, Bool.or_false,
        ← hasTag_eq]
      exact htag
  have hG : Format.hasDigest (if r.format = FormatHasDigest then FormatHasDigest
      else f ||| requiredBits r f) = true → r.digest ≠ "" := by
    by_cases h8 : r.format = FormatHasDigest
    · rw [if_pos h8]
      intro _
      have := (Parse_format_bits hp).2.2
      rw [h8] at this
      exact this.1 (by decide)
    · rw [if_neg h8, hasDigest_eq, Nat.testBit_or, (requiredBits_testBit r f).2, Bool.or_false,
        ← hasDigest_eq]
      exact hdig
  refine ⟨rfl, rfl, hT, hG, ?_⟩
  apply Formatted_eq_renderedText
  · dsimp only
    intro hN _ hnone
    rcases Parse_ok hp with ⟨n, _, _, rfl⟩ | ⟨d, _, _, _, rfl⟩
    · cases hnone
    · rw [if_pos rfl] at hN
      exact absurd hN (by decide)
  · dsimp only
    intro hD _
    rcases Parse_digest_valid hp with h0 | hx
    · exact absurd h0 (hG hD)
    · exact hx

/-- The statement of C28 on `nginx:1.15` and the requested format `HasName | HasTag`:
the returned reference has the tag `1.15`, and its text is made of the name and
the tag. -/
theorem C28_requested_parts_present_witness :
    Parse "nginx:1.15" = .ok ⟨"docker.io/library/nginx", "nginx:1.15", "1.15", "", "docker.io",
      "library/nginx", some ⟨"docker.io", "library/nginx", "1.15", ""⟩, 3⟩ ∧
    (⟨"docker.io/library/nginx", "nginx:1.15", "1.15", "", "docker.io", "library/nginx",
      some ⟨"docker.io", "library/nginx", "1.15", ""⟩, 3⟩ : dockref).tag ≠ "" ∧
    (⟨"docker.io/library/nginx", "nginx:1.15", "1.15", "", "docker.io", "library/nginx",
      some ⟨"docker.io", "library/nginx", "1.15", ""⟩, 3⟩ : dockref).Formatted =
      .ok (renderedText ⟨"docker.io/library/nginx", "nginx:1.15", "1.15", "", "docker.io",
        "library/nginx", some ⟨"docker.io", "library/nginx", "1.15", ""⟩, 3⟩) :=
  ⟨by decide,
   (C28_requested_parts_present "nginx:1.15"
    ⟨"docker.io/library/nginx", "nginx:1.15", "1.15", "", "docker.io", "library/nginx",
      some ⟨"docker.io", "library/nginx", "1.15", ""⟩, 3⟩
    ⟨"docker.io/library/nginx", "nginx:1.15", "1.15", "", "docker.io", "library/nginx",
      some ⟨"docker.io", "library/nginx", "1.15", ""⟩, 3⟩
    (FormatHasName ||| FormatHasTag) (by decide) (by decide) (by decide) (by decide)
    (by decide)).2.2.1 (by decide),
   (C28_requested_parts_present "nginx:1.15"
    ⟨"docker.io/library/nginx", "nginx:1.15", "1.15", "", "docker.io", "library/nginx",
      some ⟨"docker.io", "library/nginx", "1.15", ""⟩, 3⟩
    ⟨"docker.io/library/nginx", "nginx:1.15", "1.15", "", "docker.io", "library/nginx",
      some ⟨"docker.io", "library/nginx", "1.15", ""⟩, 3⟩
    (FormatHasName ||| FormatHasTag) (by decide) (by decide) (by decide) (by decide)
    (by decide)).2.2.2.2⟩

/-- Claim C28 fails as stated: `Parse("nginx")` has neither tag nor digest, the
format `HasName | HasTag | HasDigest` is valid, and `WithRequestedFormat` returns a
reference of that format with an empty tag and an empty digest, whose text is
`nginx:@`. -/
theorem C28_counterexample :
    Parse "nginx" = .ok ⟨"docker.io/library/nginx", "nginx", "", "", "docker.io", "library/nginx",
      some ⟨"docker.io", "library/nginx", "", ""⟩, 1⟩ ∧
    (Format.Valid (FormatHasName ||| FormatHasTag ||| FormatHasDigest)).1 = true ∧
    (⟨"docker.io/library/nginx", "nginx", "", "", "docker.io", "library/nginx",
      some ⟨"docker.io", "library/nginx", "", ""⟩, 1⟩ : dockref).WithRequestedFormat
        (FormatHasName ||| FormatHasTag ||| FormatHasDigest) =
      .ok ⟨"docker.io/library/nginx", "nginx", "", "", "docker.io", "library/nginx",
        some ⟨"docker.io", "library/nginx", "", ""⟩, 11⟩ ∧
    Format.hasTag 11 = true ∧ Format.hasDigest 11 = true ∧
    (⟨"docker.io/library/nginx", "nginx", "", "", "docker.io", "library/nginx",
      some ⟨"docker.io", "library/nginx", "", ""⟩, 11⟩ : dockref).Formatted = .ok "nginx:@" := by
  decide

end Dockmoor
